import Mathlib

/-
  Verification of the core of the `rsete` Rete network (src/lib.rs, src/node.rs).

  The Rust state (an `Rc<RefCell<_>>` graph) is shallowly embedded as an arena:
  every heap cell (WME, token, alpha memory, beta/join/production node) lives in
  an association list keyed by its id, and every `Rc` reference becomes the id of
  the referenced cell.  Mutation through a `RefCell` becomes a functional update
  of the arena entry.  Global id counters (`id.rs`, not part of the sources at
  hand) become counter fields of the `Rete` structure.  Rust functions that can
  `panic!` / `unreachable!` are embedded as `Option`-returning functions where
  `none` models the abort.  Recursion through the node/token graph is expressed
  with an explicit fuel parameter; theorems either supply concrete fuel or take
  a `= some _` hypothesis, which expresses that the fuel sufficed.

  The modules `item.rs` and `id.rs` of the repository are not among the sources;
  the entities they define (`Wme`, `Condition`, `ConstantTest`, `Token`,
  `AlphaMemoryItem`, id counters) are modelled from the specification and are
  marked `Modelled from the spec:` below.
-/

namespace Rsete

/-- Association-list lookup: value of the first entry with the given key.
Models `HashMap::get`. -/
def alookup {κ α : Type} [DecidableEq κ] : List (κ × α) → κ → Option α
  | [], _ => none
  | p :: rest, k => if p.1 = k then some p.2 else alookup rest k

/-- Apply `f` to the value stored at key `k`, leaving all other entries
unchanged.  Models an in-place mutation through the `RcCell` stored in a map. -/
def aupdate {κ α : Type} [DecidableEq κ] (f : α → α) (k : κ) : List (κ × α) → List (κ × α)
  | [] => []
  | p :: rest => if p.1 = k then (p.1, f p.2) :: aupdate f k rest else p :: aupdate f k rest

/-- `HashMap::insert`: replace the entry if the key is present, append otherwise. -/
def ainsert {κ α : Type} [DecidableEq κ] (k : κ) (v : α) (l : List (κ × α)) : List (κ × α) :=
  if (alookup l k).isSome then aupdate (fun _ => v) k l else l ++ [(k, v)]

/-- `HashMap::remove`: drop every entry with the given key. -/
def aerase {κ α : Type} [DecidableEq κ] (k : κ) : List (κ × α) → List (κ × α)
  | [] => []
  | p :: rest => if p.1 = k then aerase k rest else p :: aerase k rest

/-- Modelled from the spec: a single condition test is `Constant(value)` or
`Variable(symbol)` (`ConditionTest` in the missing `item.rs`, spec section 3). -/
inductive ConditionTest where
  | const : Nat → ConditionTest
  | var : Nat → ConditionTest
deriving DecidableEq

/-- Modelled from the spec: a condition is a fixed-arity-3 array of condition
tests (`Condition` in the missing `item.rs`, spec section 3). -/
structure Condition where
  t0 : ConditionTest
  t1 : ConditionTest
  t2 : ConditionTest
deriving DecidableEq

/-- Positions of a condition as a list, paired with their index. -/
def Condition.entries (c : Condition) : List (Fin 3 × ConditionTest) :=
  [(0, c.t0), (1, c.t1), (2, c.t2)]

/-- Modelled from the spec: `Condition::variables` iterates the `(index,
variable-symbol)` pairs of the condition's `Variable` entries in position
order (used by `get_join_tests_from_condition` in `lib.rs`). -/
def Condition.variables (c : Condition) : List (Fin 3 × Nat) :=
  c.entries.filterMap (fun p =>
    match p.2 with
    | .var v => some (p.1, v)
    | .const _ => none)

/-- Modelled from the spec: a WME is a triple of unsigned integer fields plus a
back-reference list of the tokens whose right side it is (spec section 3).  The
unique id is the arena key and is not repeated inside the structure. -/
structure Wme where
  f0 : Nat
  f1 : Nat
  f2 : Nat
  tokens : List Nat
deriving DecidableEq

/-- Field access `wme[i]` for `i` in `0..2`. -/
def Wme.field (w : Wme) (i : Fin 3) : Nat :=
  if i.val = 0 then w.f0 else if i.val = 1 then w.f1 else w.f2

/-- Modelled from the spec: a constant-test fingerprint is the condition with
every `Variable` replaced by a wildcard (`ConstantTest` in the missing
`item.rs`, spec sections 3 and 4.2).  `none` is the wildcard. -/
structure ConstantTest where
  c0 : Option Nat
  c1 : Option Nat
  c2 : Option Nat
deriving DecidableEq

/-- One position of a fingerprint matches a field when it is a wildcard or the
exact constant. -/
def ctPos (p : Option Nat) (x : Nat) : Bool :=
  match p with
  | none => true
  | some v => v == x

/-- Modelled from the spec: `ConstantTest::matches` checks all three positions
against the WME's fields. -/
def ConstantTest.matches (t : ConstantTest) (w : Wme) : Bool :=
  ctPos t.c0 w.f0 && ctPos t.c1 w.f1 && ctPos t.c2 w.f2

/-- `ConstantTest::from(Condition)`: constants stay, variables become wildcards. -/
def ConditionTest.toConstant : ConditionTest → Option Nat
  | .const v => some v
  | .var _ => none

/-- Modelled from the spec: the fingerprint derived from a condition
(spec section 3). -/
def ConstantTest.fromCondition (c : Condition) : ConstantTest :=
  ⟨c.t0.toConstant, c.t1.toConstant, c.t2.toConstant⟩

/-- Modelled from the spec: `Wme::permutations` enumerates the eight
fingerprints that could match the WME, from most specific (all three
constants) to least specific (all wildcards), in a fixed documented order
(spec sections 4.1 and 6). -/
def Wme.permutations (w : Wme) : List ConstantTest :=
  [⟨some w.f0, some w.f1, some w.f2⟩,
   ⟨some w.f0, some w.f1, none⟩,
   ⟨some w.f0, none, some w.f2⟩,
   ⟨none, some w.f1, some w.f2⟩,
   ⟨some w.f0, none, none⟩,
   ⟨none, some w.f1, none⟩,
   ⟨none, none, some w.f2⟩,
   ⟨none, none, none⟩]

/-- `TestAtJoinNode` from `item.rs`, with the `0..2` field indices of the spec
(section 3) embedded as `Fin 3`. -/
structure TestAtJoinNode where
  arg_one : Fin 3
  distance_to_wme : Nat
  arg_two : Fin 3
deriving DecidableEq

/-- The `earlier_conds.iter().enumerate().rev().find_map(..)` search of
`get_join_tests_from_condition` (`lib.rs` lines 443-453): scan the earlier
conditions from most recent to oldest and inside each condition scan the
variable positions in order; on the first hit return `(index + 1, position)`. -/
def findEarlierVar (earlier : List Condition) (v : Nat) : Option (Nat × Fin 3) :=
  (earlier.enum.reverse).findSome? (fun p =>
    p.2.variables.findSome? (fun q =>
      if q.2 = v then some (p.1 + 1, q.1) else none))

/-- `get_join_tests_from_condition` (`lib.rs` lines 429-469): for each variable
of the current condition, find its most recent earlier occurrence and emit a
test with `distance_to_wme = earlier.length - (found_index + 1)`. -/
def get_join_tests_from_condition (c : Condition) (earlier : List Condition) :
    List TestAtJoinNode :=
  let n := earlier.length
  c.variables.filterMap (fun p =>
    (findEarlierVar earlier p.2).map (fun d =>
      { arg_one := p.1, distance_to_wme := n - d.1, arg_two := d.2 }))

/-- `Vec::retain(|e| e != x)` on a list of ids: drop every occurrence of `x`. -/
def retainNe : List Nat → Nat → List Nat
  | [], _ => []
  | y :: rest, x => if y = x then retainNe rest x else y :: retainNe rest x

/-- Modelled from the spec: a token records its (weak) parent token, its WME,
its owning node and its (strong) child tokens (spec section 3).  References are
arena ids; the token's own id is its arena key.  The dummy root token has id 0. -/
structure Token where
  parent : Option Nat
  wme : Nat
  node : Nat
  children : List Nat
deriving DecidableEq

/-- `AlphaMemoryNode` (`node.rs` lines 82-86): items and successors.  An
`AlphaMemoryItem` is the pair of a WME and the containing memory (spec section
3), so an item of a given memory is represented by the id of its WME. -/
structure AlphaMemoryNode where
  items : List Nat
  successors : List Nat
deriving DecidableEq

/-- The `Node` variants of `node.rs`: `BetaMemoryNode` (parent, children,
items = token ids), `JoinNode` (parent, alpha memory, children, tests) and
`ProductionNode` (parent, production id).  Node ids are the arena keys. -/
inductive Node where
  | beta (parent : Option Nat) (children : List Nat) (items : List Nat)
  | join (parent : Nat) (alpha_memory : Nat) (children : List Nat)
      (tests : List TestAtJoinNode)
  | production (parent : Nat) (production_id : Nat)
deriving DecidableEq

/-- `Node::parent` (`node.rs` lines 41-47). -/
def Node.parentOf : Node → Option Nat
  | .beta p _ _ => p
  | .join p _ _ _ => some p
  | .production p _ => some p

/-- The children list of a node (`Node::children` returns `None` exactly when
this list is empty, `node.rs` lines 33-39). -/
def Node.childrenOf : Node → List Nat
  | .beta _ c _ => c
  | .join _ _ c _ => c
  | .production _ _ => []

/-- `Node::add_child` (`node.rs` lines 49-62); `panic!` on a production node is
modelled as `none`. -/
def Node.add_child : Node → Nat → Option Node
  | .beta p c i, n => some (.beta p (c ++ [n]) i)
  | .join p a c t, n => some (.join p a (c ++ [n]) t)
  | .production _ _, _ => none

/-- `Node::add_token` (`node.rs` lines 64-69); `panic!` on a non-beta node is
modelled as `none`. -/
def Node.add_token : Node → Nat → Option Node
  | .beta p c i, t => some (.beta p c (i ++ [t]))
  | _, _ => none

/-- `Node::remove_token` (`node.rs` lines 71-76); `panic!` on a non-beta node
is modelled as `none`. -/
def Node.remove_token : Node → Nat → Option Node
  | .beta p c i, t => some (.beta p c (retainNe i t))
  | _, _ => none

/-- A production: id and conditions (`node.rs` lines 171-175). -/
structure Production where
  id : Nat
  conditions : List Condition
deriving DecidableEq

/-- The `Rete` state (`lib.rs` lines 26-43) together with the monotonic id
counters of the missing `id.rs` (modelled from spec section 6: independent
counters for WME, token, alpha-node and beta/join-node ids) and the arenas
holding all heap cells. -/
structure Rete where
  dummy_top_token : Nat
  dummy_top_node : Nat
  constant_tests : List (ConstantTest × Nat)
  working_memory : List (Nat × Wme)
  wme_alphas : List (Nat × List Nat)
  alphas : List (Nat × AlphaMemoryNode)
  nodes : List (Nat × Node)
  tokens : List (Nat × Token)
  wme_ids : Nat
  token_ids : Nat
  node_ids : Nat
  alpha_ids : Nat
deriving DecidableEq

/-- The WME referenced by an arena id.  Working memory holds every live WME;
the synthetic dummy WME `[0,0,0]` of the dummy top token (id 0) lives outside
it and is the default here. -/
def Rete.wmeAt (s : Rete) (k : Nat) : Wme :=
  (alookup s.working_memory k).getD ⟨0, 0, 0, []⟩

/-- The WME id stored in a token. -/
def Rete.tokenWme (s : Rete) (t : Nat) : Nat :=
  ((alookup s.tokens t).map Token.wme).getD 0

/-- Modelled from the spec: `Token::nth_parent` walks `n` parent links up from
the token (spec sections 3 and 4.4); the walk stops at the dummy root, which
has no parent. -/
def nth_parent (s : Rete) (tok : Nat) : Nat → Nat
  | 0 => tok
  | n + 1 =>
    match alookup s.tokens tok with
    | some t =>
      match t.parent with
      | some p => nth_parent s p n
      | none => tok
    | none => tok

/-- `join_test` (`lib.rs` lines 391-427).  Note the early `return true` for
the whole call when the walked-to token is the dummy root (lines 403-406). -/
def join_test (s : Rete) (tests : List TestAtJoinNode) (tok : Nat) (w : Wme) : Bool :=
  match tests with
  | [] => true
  | test :: rest =>
    let parent := nth_parent s tok test.distance_to_wme
    if parent = 0 then true
    else
      let w2 := s.wmeAt (s.tokenWme parent)
      if w.field test.arg_one != w2.field test.arg_two then false
      else join_test s rest tok w

/-- Modelled from the spec: `Token::new` draws a fresh token id, stores the
new token in the arena, registers it in its parent's children list (tokens own
their children, spec sections 3 and 4.5) and in its WME's back-reference list
(spec section 3).  Returns the new id.  Registration on the dummy WME (id 0,
outside working memory) is a no-op of the arena. -/
def token_new (s : Rete) (node : Nat) (parent : Option Nat) (wme : Nat) : Nat × Rete :=
  let tid := s.token_ids
  let s := { s with token_ids := tid + 1,
                    tokens := s.tokens ++
                      [(tid, { parent := parent, wme := wme, node := node,
                               children := [] : Token })] }
  let s :=
    match parent with
    | some p =>
      { s with tokens :=
          aupdate (fun t => { t with children := t.children ++ [tid] }) p s.tokens }
    | none => s
  let s :=
    { s with working_memory :=
        aupdate (fun w => { w with tokens := w.tokens ++ [tid] }) wme s.working_memory }
  (tid, s)

/-- `activate_left` (`lib.rs` lines 265-301): a beta node creates and stores a
token and propagates it to its children; a join node tests its alpha memory's
items against the token and propagates the matching WMEs; a production node
signals a match and changes no state.  Fuel bounds the recursion depth. -/
def activate_left (fuel : Nat) (s : Rete) (node parent_token wme : Nat) : Rete :=
  match fuel with
  | 0 => s
  | fuel + 1 =>
    match alookup s.nodes node with
    | some (.beta _ children _) =>
      let r := token_new s node (some parent_token) wme
      let s1 := { r.2 with nodes := aupdate (fun n =>
          match n with
          | .beta p c i => .beta p c (i ++ [r.1])
          | other => other) node r.2.nodes }
      children.foldl (fun st c => activate_left fuel st c r.1 wme) s1
    | some (.join _ am children tests) =>
      let items := ((alookup s.alphas am).map AlphaMemoryNode.items).getD []
      items.foldl (fun st item =>
        if join_test st tests parent_token (st.wmeAt item) then
          children.foldl (fun st2 c => activate_left fuel st2 c parent_token item) st
        else st) s
    | some (.production _ _) => s
    | none => s

/-- `activate_right` (`lib.rs` lines 311-331): a join node tests every token
of its parent beta memory against the WME and left-activates its children on
success.  The `unreachable!` arms for beta and production nodes are `none`. -/
def activate_right (fuel : Nat) (s : Rete) (node wme : Nat) : Option Rete :=
  match alookup s.nodes node with
  | some (.join parent _ children tests) =>
    match alookup s.nodes parent with
    | some (.beta _ _ items) =>
      some (items.foldl (fun st tok =>
        if join_test st tests tok (st.wmeAt wme) then
          children.foldl (fun st2 c => activate_left fuel st2 c tok wme) st
        else st) s)
    | _ => some s
  | some (.beta _ _ _) => none
  | some (.production _ _) => none
  | none => none

/-- `activate_alpha_memory` (`lib.rs` lines 243-256): push the new item at the
end of the memory's items, then right-activate every successor. -/
def activate_alpha_memory (fuel : Nat) (s : Rete) (am wme : Nat) : Option Rete :=
  let s := { s with
    alphas := aupdate (fun a => { a with items := a.items ++ [wme] }) am s.alphas }
  let succs := ((alookup s.alphas am).map AlphaMemoryNode.successors).getD []
  succs.foldlM (fun st n => activate_right fuel st n wme) s

/-- The fingerprint loop of `add_wme` (`lib.rs` lines 70-92): at the first
fingerprint present in the constant-test index the WME is registered into that
memory, stored in working memory, the memory is activated, and the function
returns; the remaining fingerprints are never examined. -/
def add_wme_loop (fuel : Nat) (s : Rete) (id : Nat) (w : Wme) :
    List ConstantTest → Option (Nat × Rete)
  | [] =>
    some (id, { s with working_memory := ainsert id w s.working_memory })
  | e :: rest =>
    match alookup s.constant_tests e with
    | none => add_wme_loop fuel s id w rest
    | some memory =>
      let s :=
        match alookup s.wme_alphas id with
        | some _ =>
          { s with wme_alphas := aupdate (fun ms => ms ++ [memory]) id s.wme_alphas }
        | none => { s with wme_alphas := s.wme_alphas ++ [(id, [memory])] }
      let s := { s with working_memory := ainsert id w s.working_memory }
      (activate_alpha_memory fuel s memory id).map (fun s' => (id, s'))

/-- `add_wme` (`lib.rs` lines 64-101): create the WME with a fresh id and run
the fingerprint loop; the WME is stored in working memory in both exits of the
loop. -/
def add_wme (fuel : Nat) (s : Rete) (e0 e1 e2 : Nat) : Option (Nat × Rete) :=
  let id := s.wme_ids
  let w : Wme := ⟨e0, e1, e2, []⟩
  let s := { s with wme_ids := id + 1 }
  add_wme_loop fuel s id w (Wme.permutations w)

/-- Modelled from the spec: `Token::delete_self_and_descendants` (spec section
4.5): detach the token from its parent's children list, delete all
descendants, remove it from its owning beta memory's items
(`Node::remove_token`, whose panic on a non-beta owner is `none`), remove it
from its WME's back-reference list, and free it.  A token no longer in the
arena was already deleted and the call is a no-op. -/
def delete_self_and_descendants (fuel : Nat) (s : Rete) (tid : Nat) : Option Rete :=
  match fuel with
  | 0 => none
  | fuel + 1 =>
    match alookup s.tokens tid with
    | none => some s
    | some t =>
      let s :=
        match t.parent with
        | some p =>
          { s with tokens :=
              aupdate (fun pt => { pt with children := retainNe pt.children tid }) p s.tokens }
        | none => s
      match t.children.foldlM (fun st c => delete_self_and_descendants fuel st c) s with
      | none => none
      | some s =>
        match alookup s.nodes t.node with
        | none => none
        | some owner =>
          match owner.remove_token tid with
          | none => none
          | some owner' =>
            let s := { s with nodes := aupdate (fun _ => owner') t.node s.nodes }
            let s := { s with
              working_memory := aupdate (fun w => { w with tokens := retainNe w.tokens tid })
                t.wme s.working_memory }
            some { s with tokens := aerase tid s.tokens }

/-- The alpha-memory pass of `remove_wme` in isolation: take the `wme_alphas`
entry and delete every item with this WME id from each listed memory. -/
def remove_wme_alphas (s : Rete) (id : Nat) : Rete :=
  match alookup s.wme_alphas id with
  | none => s
  | some memories =>
    let s := { s with wme_alphas := aerase id s.wme_alphas }
    memories.foldl (fun st m =>
      { st with alphas :=
          aupdate (fun a => { a with items := retainNe a.items id }) m st.alphas }) s

/-- The token pass of `remove_wme` in isolation: remove the WME from working
memory, drain its token back-reference list and delete each token (popping
from the end of the drained list) together with its descendants. -/
def remove_wme_tokens (fuel : Nat) (s : Rete) (id : Nat) : Option Rete :=
  match alookup s.working_memory id with
  | none => some s
  | some w =>
    let s := { s with working_memory := aerase id s.working_memory }
    (w.tokens.reverse).foldlM (fun st t => delete_self_and_descendants fuel st t) s

/-- `remove_wme` (`lib.rs` lines 103-128): for each alpha memory recorded in
`wme_alphas[id]`, retain only the items of other WMEs; then, if the WME is in
working memory, remove it, drain its token back-references and delete those
tokens with their descendants. -/
def remove_wme (fuel : Nat) (s : Rete) (id : Nat) : Option Rete :=
  let s :=
    match alookup s.wme_alphas id with
    | none => s
    | some memories =>
      let s := { s with wme_alphas := aerase id s.wme_alphas }
      memories.foldl (fun st m =>
        { st with alphas :=
            aupdate (fun a => { a with items := retainNe a.items id }) m st.alphas }) s
  match alookup s.working_memory id with
  | none => some s
  | some w =>
    let s := { s with working_memory := aerase id s.working_memory }
    (w.tokens.reverse).foldlM (fun st t => delete_self_and_descendants fuel st t) s

/-- Add a child node through the parent's cell
(`parent.borrow_mut().add_child(..)`). -/
def Rete.addChildTo (s : Rete) (parent child : Nat) : Option Rete :=
  match alookup s.nodes parent with
  | none => none
  | some pn =>
    match pn.add_child child with
    | none => none
    | some pn' => some { s with nodes := aupdate (fun _ => pn') parent s.nodes }

/-- Set the children list of a join node, leaving any other node unchanged
(the `let Node::Join(..) = .. else return` idiom of `lib.rs` lines 222-237). -/
def setJoinChildren (s : Rete) (n : Nat) (cs : List Nat) : Rete :=
  { s with nodes := aupdate (fun nd =>
      match nd with
      | .join p a _ t => .join p a cs t
      | other => other) n s.nodes }

/-- `update_new_node_with_matches_from_above` (`lib.rs` lines 208-238): a beta
parent left-activates the new node with each of its tokens; a join parent has
its children temporarily replaced by just the new node, is right-activated
with each item of its alpha memory, and gets its previous children list back;
a production parent is a panic (`none`). -/
def update_new_node_with_matches_from_above (fuel : Nat) (s : Rete) (node : Nat) :
    Option Rete :=
  match (alookup s.nodes node).bind Node.parentOf with
  | none => some s
  | some parent =>
    match alookup s.nodes parent with
    | none => some s
    | some (.beta _ _ items) =>
      some (items.foldl (fun st tok => activate_left fuel st node tok (st.tokenWme tok)) s)
    | some (.production _ _) => none
    | some (.join _ am children _) =>
      let s := setJoinChildren s parent [node]
      let items := ((alookup s.alphas am).map AlphaMemoryNode.items).getD []
      match items.foldlM (fun st item => activate_right fuel st parent item) s with
      | none => none
      | some s => some (setJoinChildren s parent children)

/-- `build_or_share_alpha_memory_node` (`lib.rs` lines 130-169): share the
memory indexed under the condition's fingerprint if it exists; otherwise
create a new memory, index it, and backfill from working memory: for every
matching WME, `wme_alphas.entry(id).or_insert_with(|| vec![am])` and then
activation of every memory in that entry. -/
def build_or_share_alpha_memory_node (fuel : Nat) (s : Rete) (condition : Condition) :
    Option (Nat × Rete) :=
  let constant_test := ConstantTest.fromCondition condition
  match alookup s.constant_tests constant_test with
  | some alpha_mem => some (alpha_mem, s)
  | none =>
    let am := s.alpha_ids
    let s := { s with alpha_ids := am + 1,
                      alphas := s.alphas ++ [(am, { items := [], successors := [] : AlphaMemoryNode })],
                      constant_tests := ainsert constant_test am s.constant_tests }
    let snapshot := s.working_memory
    (snapshot.foldlM (fun (st : Rete) (p : Nat × Wme) =>
      if constant_test.matches p.2 then
        let r : List Nat × Rete :=
          match alookup st.wme_alphas p.1 with
          | some ms => (ms, st)
          | none => ([am], { st with wme_alphas := st.wme_alphas ++ [(p.1, [am])] })
        r.1.foldlM (fun st2 m => activate_alpha_memory fuel st2 m p.1) r.2
      else some st) s).map (fun s' => (am, s'))

/-- Whether the node with this id is a beta memory. -/
def isBetaAt (s : Rete) (n : Nat) : Bool :=
  match alookup s.nodes n with
  | some (.beta _ _ _) => true
  | _ => false

/-- Whether the node with this id is a join node with exactly these tests and
this alpha memory (`AlphaMemoryNode`'s `PartialEq` compares ids). -/
def isSharableJoin (s : Rete) (am : Nat) (tests : List TestAtJoinNode) (c : Nat) : Bool :=
  match alookup s.nodes c with
  | some (.join _ am' _ tests') => decide (tests' = tests ∧ am' = am)
  | _ => false

/-- `build_or_share_beta_memory_node` (`lib.rs` lines 333-353): share the
first beta child of the parent if one exists, else create a new beta node, add
it as a child and run the update from above. -/
def build_or_share_beta_memory_node (fuel : Nat) (s : Rete) (parent : Nat) :
    Option (Nat × Rete) :=
  match alookup s.nodes parent with
  | none => none
  | some pn =>
    match pn.childrenOf.find? (fun c => isBetaAt s c) with
    | some b => some (b, s)
    | none =>
      let nid := s.node_ids
      let s := { s with node_ids := nid + 1,
                        nodes := s.nodes ++ [(nid, Node.beta (some parent) [] [])] }
      match s.addChildTo parent nid with
      | none => none
      | some s =>
        match update_new_node_with_matches_from_above fuel s nid with
        | none => none
        | some s => some (nid, s)

/-- `build_or_share_join_node` (`lib.rs` lines 355-389): share a join child of
the parent with equal tests and the same alpha memory if one exists, else
create a new join node, append it to the alpha memory's successors and add it
as a child of the parent. -/
def build_or_share_join_node (s : Rete) (parent am : Nat)
    (tests : List TestAtJoinNode) : Option (Nat × Rete) :=
  match alookup s.nodes parent with
  | none => none
  | some pn =>
    match pn.childrenOf.find? (fun c => isSharableJoin s am tests c) with
    | some j => some (j, s)
    | none =>
      let nid := s.node_ids
      let s := { s with node_ids := nid + 1,
                        nodes := s.nodes ++ [(nid, Node.join parent am [] tests)] }
      let s := { s with
        alphas := aupdate (fun a => { a with successors := a.successors ++ [nid] }) am
          s.alphas }
      match s.addChildTo parent nid with
      | none => none
      | some s => some (nid, s)

/-- The per-condition loop of `add_production` (`lib.rs` lines 187-198),
carrying the current node, the earlier conditions and the previous condition. -/
def add_production_loop (fuel : Nat) (s : Rete) (current : Nat)
    (earlier : List Condition) (prev : Condition) :
    List Condition → Option (Nat × Rete)
  | [] => some (current, s)
  | c :: rest =>
    match build_or_share_beta_memory_node fuel s current with
    | none => none
    | some (beta, s) =>
      let earlier := earlier ++ [prev]
      let tests := get_join_tests_from_condition c earlier
      match build_or_share_alpha_memory_node fuel s c with
      | none => none
      | some (am, s) =>
        match build_or_share_join_node s beta am tests with
        | none => none
        | some (j, s) => add_production_loop fuel s j earlier c rest

/-- `add_production` (`lib.rs` lines 171-205).  The `assert!` on an empty
condition list aborts before any mutation and is modelled as `none`; on a
non-empty list the conditions are threaded through shared alpha, beta and join
nodes, the production leaf is attached and updated from above. -/
def add_production (fuel : Nat) (s : Rete) (production : Production) : Option Rete :=
  match production.conditions with
  | [] => none
  | c0 :: rest =>
    let tests := get_join_tests_from_condition c0 []
    match build_or_share_alpha_memory_node fuel s c0 with
    | none => none
    | some (am, s) =>
      match build_or_share_join_node s s.dummy_top_node am tests with
      | none => none
      | some (current, s) =>
        match add_production_loop fuel s current [] c0 rest with
        | none => none
        | some (current, s) =>
          let s := { s with
            nodes := ainsert production.id (Node.production current production.id)
              s.nodes }
          match s.addChildTo current production.id with
          | none => none
          | some s => update_new_node_with_matches_from_above fuel s production.id

/-- `Rete::new` (`lib.rs` lines 46-62): dummy top beta node (id 0) holding the
dummy top token (id 0), whose WME is the synthetic `[0,0,0]` (wme id 0, kept
outside working memory). -/
def Rete.new : Rete :=
  { dummy_top_token := 0
    dummy_top_node := 0
    constant_tests := []
    working_memory := []
    wme_alphas := []
    alphas := []
    nodes := [(0, Node.beta none [] [0])]
    tokens := [(0, { parent := none, wme := 0, node := 0, children := [] : Token })]
    wme_ids := 1
    token_ids := 1
    node_ids := 1
    alpha_ids := 0 }



/- =================================================================== -/
/- Association-list lemmas                                             -/
/- =================================================================== -/

theorem alookup_append {κ α : Type} [DecidableEq κ] (l₁ l₂ : List (κ × α)) (k : κ) :
    alookup (l₁ ++ l₂) k = (alookup l₁ k).orElse (fun _ => alookup l₂ k) := by
  induction l₁ with
  | nil => simp [alookup]
  | cons p rest ih => by_cases h : p.1 = k <;> simp [alookup, h, ih]

theorem alookup_aupdate_self {κ α : Type} [DecidableEq κ] (f : α → α) (k : κ)
    (l : List (κ × α)) : alookup (aupdate f k l) k = (alookup l k).map f := by
  induction l with
  | nil => rfl
  | cons p rest ih => by_cases h : p.1 = k <;> simp [aupdate, alookup, h, ih]

theorem alookup_aupdate_ne {κ α : Type} [DecidableEq κ] (f : α → α) (k k' : κ)
    (h : k' ≠ k) (l : List (κ × α)) : alookup (aupdate f k l) k' = alookup l k' := by
  induction l with
  | nil => rfl
  | cons p rest ih =>
    by_cases h1 : p.1 = k
    · have h2 : p.1 ≠ k' := by
        intro hx
        exact h (hx ▸ h1 ▸ rfl)
      simp [aupdate, alookup, h1, h2, ih, h, Ne.symm h]
    · by_cases h2 : p.1 = k' <;> simp [aupdate, alookup, h1, h2, ih, h, Ne.symm h]

theorem alookup_ainsert_self {κ α : Type} [DecidableEq κ] (k : κ) (v : α)
    (l : List (κ × α)) : alookup (ainsert k v l) k = some v := by
  unfold ainsert
  cases hx : alookup l k with
  | none => simp [hx, alookup_append, alookup]
  | some w => simp [hx, alookup_aupdate_self]

theorem alookup_ainsert_ne {κ α : Type} [DecidableEq κ] (k k' : κ) (v : α)
    (h : k' ≠ k) (l : List (κ × α)) : alookup (ainsert k v l) k' = alookup l k' := by
  unfold ainsert
  cases hx : alookup l k with
  | none =>
    simp only [hx, Option.isSome_none, Bool.false_eq_true, if_false, alookup_append]
    have : alookup [(k, v)] k' = none := by simp [alookup, Ne.symm h]
    cases hy : alookup l k' <;> simp [this, hy]
  | some w => simp [hx, alookup_aupdate_ne _ _ _ h]

theorem alookup_aerase_self {κ α : Type} [DecidableEq κ] (k : κ) (l : List (κ × α)) :
    alookup (aerase k l) k = none := by
  induction l with
  | nil => rfl
  | cons p rest ih => by_cases h : p.1 = k <;> simp [aerase, alookup, h, ih]

theorem alookup_aerase_ne {κ α : Type} [DecidableEq κ] (k k' : κ) (h : k' ≠ k)
    (l : List (κ × α)) : alookup (aerase k l) k' = alookup l k' := by
  induction l with
  | nil => rfl
  | cons p rest ih =>
    by_cases h1 : p.1 = k
    · have h2 : p.1 ≠ k' := by
        intro hx
        exact h (hx ▸ h1 ▸ rfl)
      simp [aerase, alookup, h1, h2, ih, h, Ne.symm h]
    · by_cases h2 : p.1 = k' <;> simp [aerase, alookup, h1, h2, ih, h, Ne.symm h]

/- =================================================================== -/
/- List.findSome? helpers                                              -/
/- =================================================================== -/

theorem findSome?_append {α β : Type} (l₁ l₂ : List α) (f : α → Option β) :
    (l₁ ++ l₂).findSome? f = (l₁.findSome? f).orElse (fun _ => l₂.findSome? f) := by
  induction l₁ with
  | nil => simp [List.findSome?]
  | cons a rest ih => cases h : f a <;> simp [List.findSome?_cons, h, ih]

theorem findSome?_option_map {α β γ : Type} (l : List α) (f : α → Option β) (g : β → γ) :
    l.findSome? (fun a => (f a).map g) = (l.findSome? f).map g := by
  induction l with
  | nil => simp [List.findSome?]
  | cons a rest ih => cases h : f a <;> simp [List.findSome?_cons, h, ih]


/- =================================================================== -/
/- C4: get_join_tests_from_condition                                   -/
/- =================================================================== -/

/-- First variable position (in natural order) of a condition holding the
symbol `v`. -/
def firstVarPos (c : Condition) (v : Nat) : Option (Fin 3) :=
  c.variables.findSome? (fun q => if q.2 = v then some q.1 else none)

/-- Index (from the front) of the most recent earlier condition containing the
variable `v`. -/
def lastCondWithVar : List Condition → Nat → Option Nat
  | [], _ => none
  | c :: rest, v =>
    match lastCondWithVar rest v with
    | some i => some (i + 1)
    | none => if (firstVarPos c v).isSome then some 0 else none

/-- Stated from the claim (C4): for each variable position of the current
condition, the most recent earlier condition containing the same variable is
found, and a test with `distance_to_wme = earlier.length - (found_index + 1)`
and `arg_two` the first matched position is emitted. -/
def get_join_tests_described (c : Condition) (earlier : List Condition) :
    List TestAtJoinNode :=
  c.variables.filterMap (fun p =>
    match lastCondWithVar earlier p.2 with
    | none => none
    | some i =>
      match earlier[i]?.bind (fun cond => firstVarPos cond p.2) with
      | none => none
      | some pos =>
        some { arg_one := p.1, distance_to_wme := earlier.length - (i + 1),
               arg_two := pos })

theorem enum_reverse_concat {α : Type} (l : List α) (c : α) :
    ((l ++ [c]).enum).reverse = (l.length, c) :: l.enum.reverse := by
  rw [List.enum_append, List.reverse_append]
  rfl

theorem firstVarPos_shift (c : Condition) (v m : Nat) :
    c.variables.findSome? (fun q => if q.2 = v then some (m, q.1) else none) =
      (firstVarPos c v).map (fun pos => (m, pos)) := by
  unfold firstVarPos
  rw [← findSome?_option_map]
  exact congrArg (fun f => List.findSome? f c.variables)
    (funext fun q => by by_cases hq : q.2 = v <;> simp [hq])

theorem findEarlierVar_concat (l : List Condition) (c : Condition) (v : Nat) :
    findEarlierVar (l ++ [c]) v =
      ((firstVarPos c v).map (fun pos => (l.length + 1, pos))).orElse
        (fun _ => findEarlierVar l v) := by
  unfold findEarlierVar
  show ((l ++ [c]).enum.reverse).findSome? _ = _
  rw [enum_reverse_concat, List.findSome?_cons]
  rw [show ∀ x : Nat × Condition, x.2.variables.findSome? (fun q =>
      if q.2 = v then some (x.1 + 1, q.1) else none) =
      (firstVarPos x.2 v).map (fun pos => (x.1 + 1, pos)) from
    fun x => firstVarPos_shift x.2 v (x.1 + 1)]
  cases hf : firstVarPos c v with
  | none => simp
  | some pos => simp

theorem lastCondWithVar_concat (l : List Condition) (c : Condition) (v : Nat) :
    lastCondWithVar (l ++ [c]) v =
      if (firstVarPos c v).isSome then some l.length else lastCondWithVar l v := by
  induction l with
  | nil =>
    show lastCondWithVar [c] v = _
    unfold lastCondWithVar
    by_cases hf : (firstVarPos c v).isSome = true <;> simp [lastCondWithVar, hf]
  | cons x rest ih =>
    show lastCondWithVar (x :: (rest ++ [c])) v = _
    unfold lastCondWithVar
    rw [ih]
    cases hf : (firstVarPos c v).isSome <;> simp [hf, lastCondWithVar]

theorem lastCondWithVar_isSome (l : List Condition) (v : Nat) (i : Nat)
    (h : lastCondWithVar l v = some i) :
    ∃ c, l[i]? = some c ∧ (firstVarPos c v).isSome = true := by
  induction l generalizing i with
  | nil => simp [lastCondWithVar] at h
  | cons c rest ih =>
    unfold lastCondWithVar at h
    cases hx : lastCondWithVar rest v with
    | some j =>
      rw [hx] at h
      cases h
      obtain ⟨d, hd1, hd2⟩ := ih j hx
      exact ⟨d, by simpa using hd1, hd2⟩
    | none =>
      rw [hx] at h
      by_cases hf : (firstVarPos c v).isSome = true
      · simp only [hf, if_true] at h
        cases h
        exact ⟨c, by simp, hf⟩
      · simp [hf] at h

theorem findEarlierVar_eq (earlier : List Condition) (v : Nat) :
    findEarlierVar earlier v =
      match lastCondWithVar earlier v with
      | none => none
      | some i =>
        (earlier[i]?.bind (fun c => firstVarPos c v)).map
          (fun pos => (i + 1, pos)) := by
  induction earlier using List.reverseRecOn with
  | nil => rfl
  | append_singleton l c ih =>
    rw [findEarlierVar_concat, lastCondWithVar_concat]
    cases hf : firstVarPos c v with
    | some pos =>
      have hg : (l ++ [c])[l.length]? = some c := by simp
      simp [hf, hg]
    | none =>
      simp only [hf, Option.isSome_none, Bool.false_eq_true, if_false,
        Option.map_none, Option.none_orElse]
      rw [ih]
      cases hx : lastCondWithVar l v with
      | none => rfl
      | some i =>
        obtain ⟨d, hd1, _⟩ := lastCondWithVar_isSome l v i hx
        have hi : i < l.length := by
          by_contra hge
          rw [List.getElem?_eq_none (Nat.le_of_not_lt hge)] at hd1
          cases hd1
        have hg : (l ++ [c])[i]? = l[i]? := List.getElem?_append_left hi
        simp [hg]

/-- C4: `get_join_tests_from_condition` emits exactly `[(0,0,2), (2,1,0)]` on
the spec's example, and in general equals the claim's description: for each
variable position of the current condition, the most recent earlier condition
containing the same variable yields one test with
`distance_to_wme = earlier.length - (found_index + 1)` and `arg_two` the
matched position, first occurrence only, in the order of the current
condition's variable positions. -/
theorem get_join_tests_as_described :
    (get_join_tests_from_condition ⟨.var 1, .const 0, .var 2⟩
        [⟨.var 3, .const 1, .var 5⟩, ⟨.var 2, .const 0, .var 7⟩,
         ⟨.var 6, .const 0, .var 1⟩] =
      [⟨0, 0, 2⟩, ⟨2, 1, 0⟩]) ∧
    ∀ (c : Condition) (earlier : List Condition),
      get_join_tests_from_condition c earlier = get_join_tests_described c earlier := by
  constructor
  · decide
  · intro c earlier
    unfold get_join_tests_from_condition get_join_tests_described
    apply congrArg (fun f => List.filterMap f c.variables)
    funext p
    rw [findEarlierVar_eq]
    cases hx : lastCondWithVar earlier p.2 with
    | none => rfl
    | some i =>
      cases hb : earlier[i]?.bind (fun cond => firstVarPos cond p.2) with
      | none => simp [hb]
      | some pos => simp [hb]


/- =================================================================== -/
/- C2: join_test                                                       -/
/- =================================================================== -/

/-- Whether a single test's parent walk from the token reaches the dummy root
(token id 0). -/
def test_reaches_dummy (s : Rete) (tok : Nat) (t : TestAtJoinNode) : Bool :=
  nth_parent s tok t.distance_to_wme == 0

/-- The field comparison of a single join test: `wme[arg_one]` against the
walked-to token's `wme[arg_two]`. -/
def test_compare (s : Rete) (tok : Nat) (w : Wme) (t : TestAtJoinNode) : Bool :=
  w.field t.arg_one ==
    (s.wmeAt (s.tokenWme (nth_parent s tok t.distance_to_wme))).field t.arg_two

/-- Stated from the claim (C2): every test in the list is evaluated; a test
whose walk reaches the dummy root passes unconditionally, and any other test
passes iff the compared fields agree. -/
def join_test_claimed (s : Rete) (tests : List TestAtJoinNode) (tok : Nat)
    (w : Wme) : Bool :=
  tests.all (fun t => test_reaches_dummy s tok t || test_compare s tok w t)

/-- A network with one real token (id 1, child of the dummy root) whose WME is
`[5,6,7]`, used to separate `join_test` from the claimed reading. -/
def joinTestCexState : Rete :=
  { dummy_top_token := 0
    dummy_top_node := 0
    constant_tests := []
    working_memory := [(1, ⟨5, 6, 7, []⟩)]
    wme_alphas := []
    alphas := []
    nodes := [(0, Node.beta none [] [0])]
    tokens := [(0, { parent := none, wme := 0, node := 0, children := [] }),
               (1, { parent := some 0, wme := 1, node := 0, children := [] })]
    wme_ids := 2
    token_ids := 2
    node_ids := 1
    alpha_ids := 0 }

/-- C2 counterexample: on the test list `[(0,1,0), (0,0,0)]`, token 1 and WME
`[9,9,9]`, the first test's walk reaches the dummy root and `join_test`
returns `true` immediately, although the second test is evaluated and fails
under the claimed reading (9 is not equal to 5): `join_test` is not the
claimed conjunction of per-test outcomes. -/
theorem join_test_cex :
    join_test joinTestCexState [⟨0, 1, 0⟩, ⟨0, 0, 0⟩] 1 ⟨9, 9, 9, []⟩ = true ∧
    join_test_claimed joinTestCexState [⟨0, 1, 0⟩, ⟨0, 0, 0⟩] 1 ⟨9, 9, 9, []⟩ = false := by
  constructor
  · decide
  · decide

/-- C2 as amended: `join_test` evaluates the tests in order; a test whose walk
reaches the dummy root makes the whole call return `true` immediately,
skipping every remaining test; any test before the first dummy-reaching one
must pass its field comparison; with no dummy-reaching test all comparisons
must pass.  Equivalently, `join_test` is the conjunction of the comparisons of
the longest prefix of tests that do not reach the dummy root. -/
theorem join_test_amended (s : Rete) (tests : List TestAtJoinNode) (tok : Nat)
    (w : Wme) :
    join_test s tests tok w =
      (tests.takeWhile (fun t => !test_reaches_dummy s tok t)).all
        (test_compare s tok w) := by
  induction tests with
  | nil => rfl
  | cons t rest ih =>
    by_cases hd : nth_parent s tok t.distance_to_wme = 0
    · simp [join_test, hd, List.takeWhile_cons, test_reaches_dummy]
    · by_cases hc : w.field t.arg_one =
          (s.wmeAt (s.tokenWme (nth_parent s tok t.distance_to_wme))).field t.arg_two
      · simp [join_test, hd, hc, List.takeWhile_cons, test_reaches_dummy,
          test_compare, ih]
      · simp [join_test, hd, hc, List.takeWhile_cons, test_reaches_dummy,
          test_compare]


/- =================================================================== -/
/- C10: empty test lists                                               -/
/- =================================================================== -/

/-- C10: `join_test` with an empty test list always succeeds; the join node
built for a production's first condition always has an empty test list
(`get_join_tests_from_condition` against no earlier conditions emits nothing);
and left activation of a join node whose test list is empty propagates every
item of its alpha memory to every child, with no token filtered out. -/
theorem join_test_empty_always_true :
    (∀ (s : Rete) (tok : Nat) (w : Wme), join_test s [] tok w = true) ∧
    (∀ c : Condition, get_join_tests_from_condition c [] = []) ∧
    (∀ (fuel : Nat) (s : Rete) (n p am : Nat) (ch : List Nat) (ptok wme : Nat),
      activate_left (fuel + 1)
          { s with nodes := ainsert n (Node.join p am ch []) s.nodes } n ptok wme =
        (((alookup s.alphas am).map AlphaMemoryNode.items).getD []).foldl
          (fun st item => ch.foldl (fun st2 c2 => activate_left fuel st2 c2 ptok item) st)
          { s with nodes := ainsert n (Node.join p am ch []) s.nodes }) := by
  refine ⟨fun s tok w => rfl, ?_, ?_⟩
  · intro c
    have h : ∀ p : Fin 3 × Nat, findEarlierVar [] p.2 = none := fun p => rfl
    simp [get_join_tests_from_condition, h]
  · intro fuel s n p am ch ptok wme
    have step : activate_left (fuel + 1)
        { s with nodes := ainsert n (Node.join p am ch []) s.nodes } n ptok wme =
        (((alookup s.alphas am).map AlphaMemoryNode.items).getD []).foldl
          (fun st item =>
            if join_test st [] ptok (st.wmeAt item) then
              ch.foldl (fun st2 c2 => activate_left fuel st2 c2 ptok item) st
            else st)
          { s with nodes := ainsert n (Node.join p am ch []) s.nodes } := by
      simp only [activate_left, alookup_ainsert_self]
    rw [step]
    have hfun : (fun (st : Rete) (item : Nat) =>
        if join_test st [] ptok (st.wmeAt item) then
          ch.foldl (fun st2 c2 => activate_left fuel st2 c2 ptok item) st
        else st) =
        (fun (st : Rete) (item : Nat) =>
          ch.foldl (fun st2 c2 => activate_left fuel st2 c2 ptok item) st) := by
      funext st item
      simp [join_test]
    rw [hfun]


/- =================================================================== -/
/- C1: add_wme registers only the first matching fingerprint           -/
/- =================================================================== -/

/-- A network whose constant-test index holds two alpha memories: memory 0
under the fully constant fingerprint `(1,2,3)` and memory 1 under `(*,2,3)`.
Both fingerprints match the WME `[1,2,3]`. -/
def addWmeCexState : Rete :=
  { dummy_top_token := 0
    dummy_top_node := 0
    constant_tests := [(⟨some 1, some 2, some 3⟩, 0), (⟨none, some 2, some 3⟩, 1)]
    working_memory := []
    wme_alphas := []
    alphas := [(0, ⟨[], []⟩), (1, ⟨[], []⟩)]
    nodes := [(0, Node.beta none [] [0])]
    tokens := [(0, { parent := none, wme := 0, node := 0, children := [] })]
    wme_ids := 1
    token_ids := 1
    node_ids := 1
    alpha_ids := 2 }

/-- C1 is violated by the code: adding WME `[1,2,3]` to `addWmeCexState`
registers it only into alpha memory 0 (the first matching fingerprint in
permutation order) and returns early; `wme_alphas[1]` ends up `[0]` and
memory 1 receives no item, although its fingerprint `(*,2,3)` is present in
the constant-test index and matches the WME. -/
theorem add_wme_first_match_only :
    add_wme 5 addWmeCexState 1 2 3 =
      some (1, { addWmeCexState with
                 wme_ids := 2
                 wme_alphas := [(1, [0])]
                 working_memory := [(1, ⟨1, 2, 3, []⟩)]
                 alphas := [(0, ⟨[1], []⟩), (1, ⟨[], []⟩)] }) ∧
    ConstantTest.matches ⟨none, some 2, some 3⟩ ⟨1, 2, 3, []⟩ = true ∧
    alookup addWmeCexState.constant_tests ⟨none, some 2, some 3⟩ = some 1 := by
  exact ⟨by decide, rfl, by decide⟩

/- =================================================================== -/
/- C3: alpha-memory backfill with an existing wme_alphas entry         -/
/- =================================================================== -/

/-- A network holding WME 1 = `[1,2,3]`, already registered in alpha memory 0
(fingerprint `(*,2,3)`), with `wme_alphas[1] = [0]`. -/
def backfillCexState : Rete :=
  { dummy_top_token := 0
    dummy_top_node := 0
    constant_tests := [(⟨none, some 2, some 3⟩, 0)]
    working_memory := [(1, ⟨1, 2, 3, []⟩)]
    wme_alphas := [(1, [0])]
    alphas := [(0, ⟨[1], []⟩)]
    nodes := [(0, Node.beta none [] [0])]
    tokens := [(0, { parent := none, wme := 0, node := 0, children := [] })]
    wme_ids := 2
    token_ids := 1
    node_ids := 1
    alpha_ids := 1 }

/-- C3 is violated by the code: building a new alpha memory for the
fingerprint `(1,2,*)` (condition `(C1, C2, V9)`), which matches WME 1, leaves
the new memory (id 1) empty, appends nothing to `wme_alphas[1]` (the
`or_insert_with` path does not touch an existing entry), and instead
re-activates the old memory 0, giving it a duplicate item for WME 1. -/
theorem backfill_or_insert_bug :
    build_or_share_alpha_memory_node 5 backfillCexState ⟨.const 1, .const 2, .var 9⟩ =
      some (1, { backfillCexState with
                 alpha_ids := 2
                 constant_tests := [(⟨none, some 2, some 3⟩, 0),
                                    (⟨some 1, some 2, none⟩, 1)]
                 alphas := [(0, ⟨[1, 1], []⟩), (1, ⟨[], []⟩)] }) ∧
    ConstantTest.matches ⟨some 1, some 2, none⟩ ⟨1, 2, 3, []⟩ = true := by
  exact ⟨by decide, rfl⟩

/- =================================================================== -/
/- C8: precondition violations abort                                   -/
/- =================================================================== -/

/-- C8: each precondition violation aborts the operation with no state
produced: `add_production` with an empty condition list (the `assert!` fires
before any mutation), `add_child` on a production node, `add_token` and
`remove_token` on join or production nodes, and right activation of a beta or
production node.  In the embedding the abort is the `none` result, so no
partial mutation of the network is observable. -/
theorem precondition_violations_abort :
    (∀ (fuel : Nat) (s : Rete) (i : Nat), add_production fuel s ⟨i, []⟩ = none) ∧
    (∀ (p q c : Nat), Node.add_child (Node.production p q) c = none) ∧
    (∀ (p a : Nat) (c : List Nat) (t : List TestAtJoinNode) (x : Nat),
      Node.add_token (Node.join p a c t) x = none) ∧
    (∀ (p q x : Nat), Node.add_token (Node.production p q) x = none) ∧
    (∀ (p a : Nat) (c : List Nat) (t : List TestAtJoinNode) (x : Nat),
      Node.remove_token (Node.join p a c t) x = none) ∧
    (∀ (p q x : Nat), Node.remove_token (Node.production p q) x = none) ∧
    (∀ (fuel : Nat) (s : Rete) (n w p : Nat) (c i : List Nat),
      activate_right fuel
        { s with nodes := ainsert n (Node.beta (some p) c i) s.nodes } n w = none) ∧
    (∀ (fuel : Nat) (s : Rete) (n w p q : Nat),
      activate_right fuel
        { s with nodes := ainsert n (Node.production p q) s.nodes } n w = none) := by
  refine ⟨fun fuel s i => rfl, fun p q c => rfl, fun p a c t x => rfl,
    fun p q x => rfl, fun p a c t x => rfl, fun p q x => rfl, ?_, ?_⟩
  · intro fuel s n w p c i
    simp only [activate_right, alookup_ainsert_self]
  · intro fuel s n w p q
    simp only [activate_right, alookup_ainsert_self]


/- =================================================================== -/
/- C9: the two cleanups of remove_wme are independent                  -/
/- =================================================================== -/

theorem delete_wme_alphas_frame (fuel : Nat) :
    ∀ (t : Nat) (s : Rete) (A : List (Nat × List Nat)),
    delete_self_and_descendants fuel { s with wme_alphas := A } t =
      (delete_self_and_descendants fuel s t).map
        (fun s2 => { s2 with wme_alphas := A }) := by
  induction fuel with
  | zero => intro t s A; rfl
  | succ fuel ih =>
    have hfold : ∀ (cs : List Nat) (s : Rete) (A : List (Nat × List Nat)),
        cs.foldlM (fun st c => delete_self_and_descendants fuel st c)
            { s with wme_alphas := A } =
          (cs.foldlM (fun st c => delete_self_and_descendants fuel st c) s).map
            (fun s2 => { s2 with wme_alphas := A }) := by
      intro cs
      induction cs with
      | nil => intro s A; rfl
      | cons c rest ihc =>
        intro s A
        simp only [List.foldlM_cons]
        rw [ih c s A]
        cases hx : delete_self_and_descendants fuel s c with
        | none => rfl
        | some s2 => simpa using ihc s2 A
    intro t s A
    simp only [delete_self_and_descendants]
    cases ht : alookup s.tokens t with
    | none => rfl
    | some tk =>
      dsimp only
      cases hp : tk.parent with
      | none =>
        dsimp only
        rw [hfold tk.children s A]
        cases hc : tk.children.foldlM
            (fun st c => delete_self_and_descendants fuel st c) s with
        | none => rfl
        | some s2 =>
          dsimp only [Option.map]
          cases hn : alookup s2.nodes tk.node with
          | none => rfl
          | some owner =>
            dsimp only
            cases hr : owner.remove_token t with
            | none => rfl
            | some owner2 => rfl
      | some pt =>
        dsimp only
        have h2 : tk.children.foldlM
            (fun st c => delete_self_and_descendants fuel st c)
            { s with wme_alphas := A,
                     tokens := aupdate (fun x => { x with children := retainNe x.children t }) pt s.tokens } =
          (tk.children.foldlM (fun st c => delete_self_and_descendants fuel st c)
            { s with tokens := aupdate (fun x => { x with children := retainNe x.children t }) pt s.tokens }).map
            (fun s2 => { s2 with wme_alphas := A }) :=
          hfold tk.children
            { s with tokens := aupdate (fun x => { x with children := retainNe x.children t }) pt s.tokens } A
        rw [h2]
        cases hc : tk.children.foldlM
            (fun st c => delete_self_and_descendants fuel st c)
            { s with tokens := aupdate (fun x => { x with children := retainNe x.children t }) pt s.tokens } with
        | none => rfl
        | some s2 =>
          dsimp only [Option.map]
          cases hn : alookup s2.nodes tk.node with
          | none => rfl
          | some owner =>
            dsimp only
            cases hr : owner.remove_token t with
            | none => rfl
            | some owner2 => rfl

theorem remove_wme_alphas_frame (s : Rete) (id : Nat) :
    (remove_wme_alphas s id).working_memory = s.working_memory ∧
    (remove_wme_alphas s id).tokens = s.tokens ∧
    (remove_wme_alphas s id).nodes = s.nodes := by
  unfold remove_wme_alphas
  cases hx : alookup s.wme_alphas id with
  | none => exact ⟨rfl, rfl, rfl⟩
  | some mems =>
    have h : ∀ (ms : List Nat) (st : Rete),
        ((ms.foldl (fun st2 m =>
          { st2 with alphas := aupdate (fun a => { a with items := retainNe a.items id }) m st2.alphas }) st)).working_memory
            = st.working_memory ∧
        ((ms.foldl (fun st2 m =>
          { st2 with alphas := aupdate (fun a => { a with items := retainNe a.items id }) m st2.alphas }) st)).tokens
            = st.tokens ∧
        ((ms.foldl (fun st2 m =>
          { st2 with alphas := aupdate (fun a => { a with items := retainNe a.items id }) m st2.alphas }) st)).nodes
            = st.nodes := by
      intro ms
      induction ms with
      | nil => intro st; exact ⟨rfl, rfl, rfl⟩
      | cons m rest ihm =>
        intro st
        exact ihm _
    exact h mems _

/-- C9: `remove_wme` is exactly the alpha-memory cleanup pass followed by the
token-retraction pass; the alpha pass neither reads nor writes working memory,
the token tree or the nodes, and the token pass neither reads nor writes
`wme_alphas`.  Hence alpha cleanup happens even when working memory has no
entry for the id, token retraction happens even when `wme_alphas` has no
entry, and the two are independent. -/
theorem remove_wme_independent :
    (∀ (fuel : Nat) (s : Rete) (id : Nat),
      remove_wme fuel s id = remove_wme_tokens fuel (remove_wme_alphas s id) id) ∧
    (∀ (s : Rete) (id : Nat),
      (remove_wme_alphas s id).working_memory = s.working_memory ∧
      (remove_wme_alphas s id).tokens = s.tokens ∧
      (remove_wme_alphas s id).nodes = s.nodes) ∧
    (∀ (fuel : Nat) (s : Rete) (id : Nat) (A : List (Nat × List Nat)),
      remove_wme_tokens fuel { s with wme_alphas := A } id =
        (remove_wme_tokens fuel s id).map (fun s2 => { s2 with wme_alphas := A })) := by
  refine ⟨?_, remove_wme_alphas_frame, ?_⟩
  · intro fuel s id
    unfold remove_wme remove_wme_tokens remove_wme_alphas
    cases hx : alookup s.wme_alphas id <;> rfl
  · intro fuel s id A
    unfold remove_wme_tokens
    cases hx : alookup s.working_memory id with
    | none => rfl
    | some w =>
      have hfold : ∀ (cs : List Nat) (s : Rete) (A : List (Nat × List Nat)),
          cs.foldlM (fun st c => delete_self_and_descendants fuel st c)
              { s with wme_alphas := A } =
            (cs.foldlM (fun st c => delete_self_and_descendants fuel st c) s).map
              (fun s2 => { s2 with wme_alphas := A }) := by
        intro cs
        induction cs with
        | nil => intro s A; rfl
        | cons c rest ihc =>
          intro s A
          simp only [List.foldlM_cons]
          rw [delete_wme_alphas_frame fuel c s A]
          cases hy : delete_self_and_descendants fuel s c with
          | none => rfl
          | some s2 => simpa using ihc s2 A
      show (w.tokens.reverse).foldlM (fun st t => delete_self_and_descendants fuel st t)
          { s with wme_alphas := A, working_memory := aerase id s.working_memory } =
        ((w.tokens.reverse).foldlM (fun st t => delete_self_and_descendants fuel st t)
          { s with working_memory := aerase id s.working_memory }).map
          (fun s2 => { s2 with wme_alphas := A })
      exact hfold w.tokens.reverse { s with working_memory := aerase id s.working_memory } A


/- =================================================================== -/
/- C6: add_wme always stores the WME in working memory                 -/
/- =================================================================== -/

/-- From `s` to `s2`, every working-memory entry is still present with the
same fields; only its token back-reference list may have changed. -/
def wmKeep (s s2 : Rete) : Prop :=
  ∀ (k : Nat) (w : Wme), alookup s.working_memory k = some w →
    ∃ tks, alookup s2.working_memory k = some { w with tokens := tks }

theorem wmKeep_refl (s : Rete) : wmKeep s s :=
  fun _ w h => ⟨w.tokens, h⟩

theorem wmKeep_of_eq {s s2 : Rete} (h : s.working_memory = s2.working_memory) :
    wmKeep s s2 :=
  fun _ w hk => ⟨w.tokens, by rw [← h]; exact hk⟩

theorem wmKeep_trans {s1 s2 s3 : Rete} (h12 : wmKeep s1 s2) (h23 : wmKeep s2 s3) :
    wmKeep s1 s3 := by
  intro k w h
  obtain ⟨t2, h2⟩ := h12 k w h
  obtain ⟨t3, h3⟩ := h23 k _ h2
  exact ⟨t3, h3⟩

theorem wmKeep_update_tokens (s : Rete) (g : List Nat → List Nat) (k0 : Nat)
    (s2 : Rete)
    (h2 : s2.working_memory =
      aupdate (fun x => { x with tokens := g x.tokens }) k0 s.working_memory) :
    wmKeep s s2 := by
  intro k w hk
  by_cases hkk : k = k0
  · subst hkk
    refine ⟨g w.tokens, ?_⟩
    rw [h2, alookup_aupdate_self, hk]
    rfl
  · exact ⟨w.tokens, by rw [h2, alookup_aupdate_ne _ _ _ hkk]; exact hk⟩

theorem wmKeep_foldl {β : Type} (f : Rete → β → Rete)
    (hstep : ∀ st x, wmKeep st (f st x)) :
    ∀ (l : List β) (st : Rete), wmKeep st (l.foldl f st) := by
  intro l
  induction l with
  | nil => intro st; exact wmKeep_refl st
  | cons x rest ihl =>
    intro st
    exact wmKeep_trans (hstep st x) (ihl (f st x))

theorem wmKeep_foldlM {β : Type} (f : Rete → β → Option Rete)
    (hstep : ∀ st x st2, f st x = some st2 → wmKeep st st2) :
    ∀ (l : List β) (st st2 : Rete), l.foldlM f st = some st2 → wmKeep st st2 := by
  intro l
  induction l with
  | nil =>
    intro st st2 h
    cases h
    exact wmKeep_refl st
  | cons x rest ihl =>
    intro st st2 h
    simp only [List.foldlM_cons] at h
    cases hx : f st x with
    | none => rw [hx] at h; cases h
    | some mid =>
      rw [hx] at h
      exact wmKeep_trans (hstep st x mid hx) (ihl mid st2 h)

theorem token_new_working_memory (s : Rete) (n : Nat) (p : Option Nat) (w : Nat) :
    ((token_new s n p w).2).working_memory =
      aupdate (fun x => { x with tokens := x.tokens ++ [s.token_ids] }) w
        s.working_memory := by
  cases p <;> rfl

theorem wmKeep_activate_left (fuel : Nat) :
    ∀ (s : Rete) (n pt w : Nat), wmKeep s (activate_left fuel s n pt w) := by
  induction fuel with
  | zero => intro s n pt w; exact wmKeep_refl s
  | succ fuel ih =>
    intro s n pt w
    simp only [activate_left]
    cases hn : alookup s.nodes n with
    | none => exact wmKeep_refl s
    | some nd =>
      cases nd with
      | production p q => exact wmKeep_refl s
      | beta bp bch bits =>
        dsimp only
        refine @wmKeep_trans s ({ (token_new s n (some pt) w).2 with nodes := aupdate (fun x => match x with | Node.beta p c i => Node.beta p c (i ++ [(token_new s n (some pt) w).1]) | other => other) n (token_new s n (some pt) w).2.nodes }) _ ?_ ?_
        · exact wmKeep_update_tokens s (fun tks => tks ++ [s.token_ids]) w _
            (token_new_working_memory s n (some pt) w)
        · exact wmKeep_foldl _ (fun st c => ih st c (token_new s n (some pt) w).1 w) bch _
      | join jp jam jch jt =>
        dsimp only
        refine wmKeep_foldl _ (fun st item => ?_) _ s
        by_cases hj : join_test st jt pt (st.wmeAt item) = true
        · simp only [hj, if_true]
          exact wmKeep_foldl _ (fun st2 c => ih st2 c pt item) jch st
        · simp only [hj, if_false]
          exact wmKeep_refl st

theorem wmKeep_activate_right (fuel : Nat) (s : Rete) (n w : Nat) (s2 : Rete)
    (h : activate_right fuel s n w = some s2) : wmKeep s s2 := by
  unfold activate_right at h
  cases hn : alookup s.nodes n with
  | none => rw [hn] at h; cases h
  | some nd =>
    rw [hn] at h
    cases nd with
    | beta bp bch bits => cases h
    | production p q => cases h
    | join jp jam jch jt =>
      dsimp only at h
      cases hp : alookup s.nodes jp with
      | none =>
        rw [hp] at h
        dsimp only at h
        cases h
        exact wmKeep_refl s
      | some pn =>
        rw [hp] at h
        cases pn with
        | beta pp pch pits =>
          dsimp only at h
          cases h
          refine wmKeep_foldl _ (fun st tok => ?_) _ s
          by_cases hj : join_test st jt tok (st.wmeAt w) = true
          · simp only [hj, if_true]
            exact wmKeep_foldl _
              (fun st2 c => wmKeep_activate_left fuel st2 c tok w) jch st
          · simp only [hj, if_false]
            exact wmKeep_refl st
        | join qp qam qch qt =>
          dsimp only at h
          cases h
          exact wmKeep_refl s
        | production p q =>
          dsimp only at h
          cases h
          exact wmKeep_refl s

theorem wmKeep_activate_alpha_memory (fuel : Nat) (s : Rete) (am w : Nat)
    (s2 : Rete) (h : activate_alpha_memory fuel s am w = some s2) : wmKeep s s2 := by
  unfold activate_alpha_memory at h
  refine @wmKeep_trans s ({ s with alphas := aupdate (fun a => { a with items := a.items ++ [w] }) am s.alphas }) _ (wmKeep_of_eq rfl) ?_
  exact wmKeep_foldlM _ (fun st x st2 hx => wmKeep_activate_right fuel st x w st2 hx) _ _ _ h

theorem add_wme_loop_stores (fuel id : Nat) (w : Wme) :
    ∀ (l : List ConstantTest) (s : Rete) (id2 : Nat) (s2 : Rete),
    add_wme_loop fuel s id w l = some (id2, s2) →
      id2 = id ∧ ∃ tks, alookup s2.working_memory id = some { w with tokens := tks } := by
  intro l
  induction l with
  | nil =>
    intro s id2 s2 h
    cases h
    exact ⟨rfl, ⟨w.tokens, alookup_ainsert_self id w s.working_memory⟩⟩
  | cons e rest ihl =>
    intro s id2 s2 h
    simp only [add_wme_loop] at h
    cases he : alookup s.constant_tests e with
    | none =>
      rw [he] at h
      exact ihl s id2 s2 h
    | some memory =>
      rw [he] at h
      cases hwa : alookup s.wme_alphas id
      all_goals
        rw [hwa] at h
        dsimp only at h
        rw [Option.map_eq_some'] at h
        obtain ⟨s3, ha, hpair⟩ := h
        have hid2 : id2 = id := (congrArg Prod.fst hpair).symm
        have hs2 : s2 = s3 := (congrArg Prod.snd hpair).symm
        subst id2
        subst s2
        refine ⟨rfl, ?_⟩
        obtain ⟨tks, h3⟩ :=
          wmKeep_activate_alpha_memory fuel _ memory id s3 ha id w
            (alookup_ainsert_self id w s.working_memory)
        exact ⟨tks, h3⟩

/-- C6: whenever `add_wme` returns, the returned id is the fresh WME id, and
the created WME is stored in working memory under that id with exactly the
given fields, whether or not any constant-test fingerprint matched. -/
theorem add_wme_stores (fuel : Nat) (s : Rete) (e0 e1 e2 id : Nat) (s2 : Rete)
    (h : add_wme fuel s e0 e1 e2 = some (id, s2)) :
    id = s.wme_ids ∧
    ∃ tks, alookup s2.working_memory id = some ⟨e0, e1, e2, tks⟩ := by
  unfold add_wme at h
  obtain ⟨hid, tks, h2⟩ :=
    add_wme_loop_stores fuel s.wme_ids ⟨e0, e1, e2, []⟩ _ _ id s2 h
  subst hid
  exact ⟨rfl, ⟨tks, h2⟩⟩

/-- C6 witness: adding `[1,2,3]` to the fresh network stores the WME under the
fresh id 1. -/
theorem add_wme_stores_witness :
    1 = Rete.new.wme_ids ∧
    ∃ tks, alookup ({ Rete.new with
        wme_ids := 2,
        working_memory := [(1, ⟨1, 2, 3, []⟩)] } : Rete).working_memory 1 =
      some ⟨1, 2, 3, tks⟩ :=
  add_wme_stores 1 Rete.new 1 2 3 1 _ (by decide)


/- =================================================================== -/
/- C7: update from above with a join parent                            -/
/- =================================================================== -/

/-- Invariant during the isolated backfill of a new childless beta node `n`
under the join `pid`: the join's children list is exactly `[n]`, node `n` is a
childless beta memory (only its token list grows), and every other node of
the network is untouched relative to `s0`. -/
def soleChildInv (s0 : Rete) (n pid jp jam : Nat) (jt : List TestAtJoinNode)
    (bp : Option Nat) (st : Rete) : Prop :=
  alookup st.nodes pid = some (Node.join jp jam [n] jt) ∧
  (∃ its, alookup st.nodes n = some (Node.beta bp [] its)) ∧
  (∀ m, m ≠ n → m ≠ pid → alookup st.nodes m = alookup s0.nodes m)

theorem soleChildInv_activate_left (fuel : Nat) (s0 : Rete)
    (n pid jp jam : Nat) (jt : List TestAtJoinNode) (bp : Option Nat)
    (hne : n ≠ pid) (st : Rete)
    (hQ : soleChildInv s0 n pid jp jam jt bp st) (tok w : Nat) :
    soleChildInv s0 n pid jp jam jt bp (activate_left fuel st n tok w) := by
  obtain ⟨hpid, ⟨its, hbn⟩, hfr⟩ := hQ
  cases fuel with
  | zero => exact ⟨hpid, ⟨its, hbn⟩, hfr⟩
  | succ fuel =>
    simp only [activate_left]
    rw [hbn]
    dsimp only
    have hnodes : ((token_new st n (some tok) w).2).nodes = st.nodes := rfl
    refine ⟨?_, ⟨its ++ [(token_new st n (some tok) w).1], ?_⟩, ?_⟩
    · show alookup (aupdate _ n _) pid = _
      rw [alookup_aupdate_ne _ _ _ (Ne.symm hne), hnodes]
      exact hpid
    · show alookup (aupdate _ n _) n = _
      rw [alookup_aupdate_self, hnodes, hbn]
      rfl
    · intro m hm1 hm2
      show alookup (aupdate _ n _) m = _
      rw [alookup_aupdate_ne _ _ _ hm1, hnodes]
      exact hfr m hm1 hm2

theorem soleChildInv_activate_right (fuel : Nat) (s0 : Rete)
    (n pid jp jam : Nat) (jt : List TestAtJoinNode) (bp : Option Nat)
    (hne : n ≠ pid) (st : Rete)
    (hQ : soleChildInv s0 n pid jp jam jt bp st) (item : Nat) :
    ∃ st2, activate_right fuel st pid item = some st2 ∧
      soleChildInv s0 n pid jp jam jt bp st2 := by
  have hpid := hQ.1
  unfold activate_right
  rw [hpid]
  dsimp only
  cases hjp : alookup st.nodes jp with
  | none => exact ⟨st, rfl, hQ⟩
  | some pn =>
    cases pn with
    | join qp qam qch qt => exact ⟨st, rfl, hQ⟩
    | production pp pq => exact ⟨st, rfl, hQ⟩
    | beta pp pch pits =>
      dsimp only
      refine ⟨_, rfl, ?_⟩
      have hfold : ∀ (toks : List Nat) (st2 : Rete),
          soleChildInv s0 n pid jp jam jt bp st2 →
          soleChildInv s0 n pid jp jam jt bp
            (toks.foldl (fun a tok =>
              if join_test a jt tok (a.wmeAt item) then
                [n].foldl (fun a2 c => activate_left fuel a2 c tok item) a
              else a) st2) := by
        intro toks
        induction toks with
        | nil => intro st2 hq; exact hq
        | cons tok rest iht =>
          intro st2 hq
          refine iht _ ?_
          by_cases hj : join_test st2 jt tok (st2.wmeAt item) = true
          · simp only [hj, if_true]
            exact soleChildInv_activate_left fuel s0 n pid jp jam jt bp hne st2 hq
              tok item
          · simp only [hj, if_false]
            exact hq
      exact hfold pits st hQ

theorem soleChildInv_backfill (fuel : Nat) (s0 : Rete)
    (n pid jp jam : Nat) (jt : List TestAtJoinNode) (bp : Option Nat)
    (hne : n ≠ pid) :
    ∀ (items : List Nat) (st : Rete),
      soleChildInv s0 n pid jp jam jt bp st →
      ∃ sf, items.foldlM (fun st2 it => activate_right fuel st2 pid it) st = some sf ∧
        soleChildInv s0 n pid jp jam jt bp sf := by
  intro items
  induction items with
  | nil => intro st hq; exact ⟨st, rfl, hq⟩
  | cons it rest ihi =>
    intro st hq
    obtain ⟨st2, h2, hq2⟩ :=
      soleChildInv_activate_right fuel s0 n pid jp jam jt bp hne st hq it
    obtain ⟨sf, hf, hqf⟩ := ihi st2 hq2
    refine ⟨sf, ?_, hqf⟩
    simp only [List.foldlM_cons, h2, Option.some_bind]
    exact hf

theorem activate_left_production_id (fuel : Nat) (st : Rete) (n tok w pp pq : Nat)
    (h : alookup st.nodes n = some (Node.production pp pq)) :
    activate_left fuel st n tok w = st := by
  cases fuel with
  | zero => rfl
  | succ fuel =>
    simp only [activate_left]
    rw [h]

/-- C7: running `update_new_node_with_matches_from_above` on a node `n` whose
parent is the join `pid` restores the join exactly (its children list, parent,
alpha memory and tests are all as before the call), and no node other than `n`
itself changes — in particular no pre-existing sibling of `n` receives any
left activation during the backfill.  `n` is a childless beta memory or a
production leaf, as at both call sites in the source. -/
theorem update_new_node_join_frame (fuel : Nat) (s : Rete) (n pid jp jam : Nat)
    (jch : List Nat) (jt : List TestAtJoinNode) (nd : Node) (s2 : Rete)
    (hn : alookup s.nodes n = some nd)
    (hpar : nd.parentOf = some pid)
    (hne : n ≠ pid)
    (hpid : alookup s.nodes pid = some (Node.join jp jam jch jt))
    (hshape : (∃ bp bi, nd = Node.beta bp [] bi) ∨
      (∃ pp pq, nd = Node.production pp pq))
    (h : update_new_node_with_matches_from_above fuel s n = some s2) :
    alookup s2.nodes pid = some (Node.join jp jam jch jt) ∧
    (∀ m, m ≠ n → alookup s2.nodes m = alookup s.nodes m) := by
  unfold update_new_node_with_matches_from_above at h
  rw [hn] at h
  simp only [Option.some_bind] at h
  rw [hpar] at h
  dsimp only at h
  rw [hpid] at h
  dsimp only at h
  have hpid1 : alookup (setJoinChildren s pid [n]).nodes pid =
      some (Node.join jp jam [n] jt) := by
    show alookup (aupdate _ pid s.nodes) pid = _
    rw [alookup_aupdate_self, hpid]
    rfl
  have hn1 : alookup (setJoinChildren s pid [n]).nodes n = some nd := by
    show alookup (aupdate _ pid s.nodes) n = _
    rw [alookup_aupdate_ne _ _ _ hne]
    exact hn
  have hfr1 : ∀ m, m ≠ n → m ≠ pid →
      alookup (setJoinChildren s pid [n]).nodes m = alookup s.nodes m := by
    intro m hm1 hm2
    show alookup (aupdate _ pid s.nodes) m = _
    rw [alookup_aupdate_ne _ _ _ hm2]
  cases hshape with
  | inl hbeta =>
    obtain ⟨bp, bi, hnd⟩ := hbeta
    subst hnd
    have hq1 : soleChildInv s n pid jp jam jt bp (setJoinChildren s pid [n]) :=
      ⟨hpid1, ⟨bi, hn1⟩, hfr1⟩
    obtain ⟨sf, hfold, hqf⟩ := soleChildInv_backfill fuel s n pid jp jam jt bp hne
      (((alookup (setJoinChildren s pid [n]).alphas jam).map
        AlphaMemoryNode.items).getD []) (setJoinChildren s pid [n]) hq1
    rw [hfold] at h
    dsimp only at h
    cases h
    constructor
    · show alookup (aupdate _ pid sf.nodes) pid = _
      rw [alookup_aupdate_self, hqf.1]
      rfl
    · intro m hm1
      by_cases hm2 : m = pid
      · subst hm2
        show alookup (aupdate _ m sf.nodes) m = _
        rw [alookup_aupdate_self, hqf.1, hpid]
        rfl
      · show alookup (aupdate _ pid sf.nodes) m = _
        rw [alookup_aupdate_ne _ _ _ hm2]
        exact hqf.2.2 m hm1 hm2
  | inr hprod =>
    obtain ⟨pp, pq, hnd⟩ := hprod
    subst hnd
    have hright : ∀ (st : Rete),
        alookup st.nodes pid = some (Node.join jp jam [n] jt) →
        alookup st.nodes n = some (Node.production pp pq) →
        ∀ it, activate_right fuel st pid it = some st := by
      intro st hp1 hn2 it
      unfold activate_right
      rw [hp1]
      dsimp only
      cases hjp : alookup st.nodes jp with
      | none => rfl
      | some pn =>
        cases pn with
        | join qp qam qch qt => rfl
        | production qpp qpq => rfl
        | beta qp qch qits =>
          dsimp only
          have hfold : ∀ (toks : List Nat),
              toks.foldl (fun a tok =>
                if join_test a jt tok (a.wmeAt it) then
                  [n].foldl (fun a2 c => activate_left fuel a2 c tok it) a
                else a) st = st := by
            intro toks
            induction toks with
            | nil => rfl
            | cons tok rest iht =>
              have hstep : (if join_test st jt tok (st.wmeAt it) then
                  [n].foldl (fun a2 c => activate_left fuel a2 c tok it) st
                else st) = st := by
                by_cases hj : join_test st jt tok (st.wmeAt it) = true
                · simp only [hj, if_true]
                  show activate_left fuel st n tok it = st
                  exact activate_left_production_id fuel st n tok it pp pq hn2
                · simp [hj]
              show List.foldl _ ((if join_test st jt tok (st.wmeAt it) then _ else _)) rest = st
              rw [hstep]
              exact iht
          rw [hfold qits]
    have hfold2 : ∀ (items : List Nat),
        items.foldlM (fun st2 it => activate_right fuel st2 pid it)
          (setJoinChildren s pid [n]) = some (setJoinChildren s pid [n]) := by
      intro items
      induction items with
      | nil => rfl
      | cons it rest ihi =>
        simp only [List.foldlM_cons, hright _ hpid1 hn1 it, Option.some_bind]
        exact ihi
    rw [hfold2] at h
    dsimp only at h
    cases h
    constructor
    · show alookup (aupdate _ pid (aupdate _ pid s.nodes)) pid = _
      rw [alookup_aupdate_self, alookup_aupdate_self, hpid]
      rfl
    · intro m hm1
      by_cases hm2 : m = pid
      · subst hm2
        show alookup (aupdate _ m (aupdate _ m s.nodes)) m = _
        rw [alookup_aupdate_self, alookup_aupdate_self, hpid]
        rfl
      · show alookup (aupdate _ pid (aupdate _ pid s.nodes)) m = _
        rw [alookup_aupdate_ne _ _ _ hm2, alookup_aupdate_ne _ _ _ hm2]


/-- A small network: dummy beta 0 (token 0) with join child 1 (alpha memory 0,
one item for WME 3) whose only child is production leaf 2. -/
def updateFrameState : Rete :=
  { dummy_top_token := 0
    dummy_top_node := 0
    constant_tests := []
    working_memory := [(3, ⟨7, 8, 9, []⟩)]
    wme_alphas := []
    alphas := [(0, ⟨[3], [1]⟩)]
    nodes := [(0, Node.beta none [1] [0]), (1, Node.join 0 0 [2] []),
              (2, Node.production 1 9)]
    tokens := [(0, { parent := none, wme := 0, node := 0, children := [] })]
    wme_ids := 4
    token_ids := 1
    node_ids := 3
    alpha_ids := 1 }

/-- C7 witness: updating production leaf 2 under join 1 leaves join 1 exactly
as before and does not touch the dummy beta 0. -/
theorem update_new_node_join_frame_witness :
    alookup updateFrameState.nodes 1 = some (Node.join 0 0 [2] []) ∧
    alookup updateFrameState.nodes 0 = alookup updateFrameState.nodes 0 := by
  have h := update_new_node_join_frame 3 updateFrameState 2 1 0 0 [2] []
    (Node.production 1 9) updateFrameState rfl rfl (by decide) rfl
    (Or.inr ⟨1, 9, rfl⟩) (by decide)
  exact ⟨h.1, h.2 0 (by decide)⟩


/- =================================================================== -/
/- C5: removal is inverse of addition                                  -/
/- =================================================================== -/

/-- Strip from a token every child reference created at or after the token
counter threshold `T0`. -/
def stripTok (T0 : Nat) (t : Token) : Token :=
  { t with children := t.children.filter (fun c => c < T0) }

/-- Strip from a WME every token back-reference at or after `T0`. -/
def stripWme (T0 : Nat) (w : Wme) : Wme :=
  { w with tokens := w.tokens.filter (fun c => c < T0) }

/-- Strip from a beta node every stored token at or after `T0`. -/
def stripNode (T0 : Nat) : Node → Node
  | .beta p c i => .beta p c (i.filter (fun t => t < T0))
  | other => other

/-- The old part of a token arena: entries with keys below `T0`, with new
child references stripped. -/
def cleanToks (T0 : Nat) (l : List (Nat × Token)) : List (Nat × Token) :=
  (l.filter (fun p => p.1 < T0)).map (fun p => (p.1, stripTok T0 p.2))

/-- The old part of working memory (keys never change; only back-references
are stripped). -/
def cleanWms (T0 : Nat) (l : List (Nat × Wme)) : List (Nat × Wme) :=
  l.map (fun p => (p.1, stripWme T0 p.2))

/-- The old part of the node arena (keys never change; only beta token lists
are stripped). -/
def cleanNodes (T0 : Nat) (l : List (Nat × Node)) : List (Nat × Node) :=
  l.map (fun p => (p.1, stripNode T0 p.2))

theorem retainNe_of_not_mem (l : List Nat) (x : Nat) (h : x ∉ l) :
    retainNe l x = l := by
  induction l with
  | nil => rfl
  | cons y rest ih =>
    have hy : y ≠ x := fun he => h (he ▸ List.mem_cons_self y rest)
    have hr : x ∉ rest := fun hm => h (List.mem_cons_of_mem y hm)
    simp [retainNe, hy, ih hr]

theorem retainNe_append (l1 l2 : List Nat) (x : Nat) :
    retainNe (l1 ++ l2) x = retainNe l1 x ++ retainNe l2 x := by
  induction l1 with
  | nil => rfl
  | cons y rest ih => by_cases hy : y = x <;> simp [retainNe, hy, ih]

theorem retainNe_eq_filter (l : List Nat) (x : Nat) :
    retainNe l x = l.filter (fun y => y ≠ x) := by
  induction l with
  | nil => rfl
  | cons y rest ih => by_cases hy : y = x <;> simp [retainNe, hy, ih]

theorem mem_retainNe (l : List Nat) (x y : Nat) :
    y ∈ retainNe l x ↔ y ∈ l ∧ y ≠ x := by
  rw [retainNe_eq_filter]
  simp

theorem filter_retainNe (l : List Nat) (x : Nat) (p : Nat → Bool) :
    (retainNe l x).filter p = retainNe (l.filter p) x := by
  induction l with
  | nil => rfl
  | cons y rest ih =>
    by_cases hy : y = x
    · subst hy
      cases hp : p y <;> simp [retainNe, hp, ih]
    · cases hp : p y <;> simp [retainNe, hy, hp, ih]

theorem alookup_cleanWms (T0 : Nat) (l : List (Nat × Wme)) (k : Nat) :
    alookup (cleanWms T0 l) k = (alookup l k).map (stripWme T0) := by
  induction l with
  | nil => rfl
  | cons p rest ih =>
    by_cases hk : p.1 = k
    · simp [cleanWms, alookup, hk]
    · simpa [cleanWms, alookup, hk] using ih

theorem alookup_cleanNodes (T0 : Nat) (l : List (Nat × Node)) (k : Nat) :
    alookup (cleanNodes T0 l) k = (alookup l k).map (stripNode T0) := by
  induction l with
  | nil => rfl
  | cons p rest ih =>
    by_cases hk : p.1 = k
    · simp [cleanNodes, alookup, hk]
    · simpa [cleanNodes, alookup, hk] using ih

theorem cleanToks_append_new (T0 : Nat) (l : List (Nat × Token)) (k : Nat)
    (t : Token) (h : T0 ≤ k) :
    cleanToks T0 (l ++ [(k, t)]) = cleanToks T0 l := by
  unfold cleanToks
  rw [List.filter_append]
  have : List.filter (fun p => decide (p.1 < T0)) [(k, t)] = [] := by
    simp [Nat.not_lt_of_le h]
  rw [this, List.append_nil]

theorem cleanToks_aerase_new (T0 : Nat) (l : List (Nat × Token)) (k : Nat)
    (h : T0 ≤ k) : cleanToks T0 (aerase k l) = cleanToks T0 l := by
  unfold cleanToks
  induction l with
  | nil => rfl
  | cons p rest ih =>
    obtain ⟨pk, pv⟩ := p
    by_cases hk : pk = k
    · subst hk
      have hnl : ¬ pk < T0 := Nat.not_lt_of_le h
      simp [aerase, hnl, List.filter_cons, ih]
    · by_cases hlt : pk < T0 <;> simp [aerase, hk, hlt, List.filter_cons, ih]

theorem cleanToks_aupdate (T0 : Nat) (l : List (Nat × Token)) (k : Nat)
    (f : Token → Token) (hf : ∀ t, stripTok T0 (f t) = stripTok T0 t) :
    cleanToks T0 (aupdate f k l) = cleanToks T0 l := by
  unfold cleanToks
  induction l with
  | nil => rfl
  | cons p rest ih =>
    obtain ⟨pk, pv⟩ := p
    by_cases hk : pk = k
    · subst hk
      by_cases hlt : pk < T0 <;> simp [aupdate, hlt, hf, List.filter_cons, ih]
    · by_cases hlt : pk < T0 <;> simp [aupdate, hk, hlt, List.filter_cons, ih]

theorem cleanWms_aupdate (T0 : Nat) (l : List (Nat × Wme)) (k : Nat)
    (f : Wme → Wme) (hf : ∀ w, stripWme T0 (f w) = stripWme T0 w) :
    cleanWms T0 (aupdate f k l) = cleanWms T0 l := by
  unfold cleanWms
  induction l with
  | nil => rfl
  | cons p rest ih => by_cases hk : p.1 = k <;> simp [aupdate, hk, hf, ih]

theorem cleanNodes_aupdate (T0 : Nat) (l : List (Nat × Node)) (k : Nat)
    (f : Node → Node) (hf : ∀ n, stripNode T0 (f n) = stripNode T0 n) :
    cleanNodes T0 (aupdate f k l) = cleanNodes T0 l := by
  unfold cleanNodes
  induction l with
  | nil => rfl
  | cons p rest ih => by_cases hk : p.1 = k <;> simp [aupdate, hk, hf, ih]


/-- The token list stored in a beta node. -/
def nodeItems : Node → List Nat
  | .beta _ _ i => i
  | _ => []

/-- Erase a set `D` of token ids from the token arena: drop their entries and
remove them from every children list. -/
def tkErase (D : List Nat) : List (Nat × Token) → List (Nat × Token)
  | [] => []
  | p :: rest =>
    if p.1 ∈ D then tkErase D rest
    else (p.1, { p.2 with children := p.2.children.filter (fun c => c ∉ D) }) :: tkErase D rest

/-- Erase a set `D` of token ids from every WME back-reference list. -/
def wmErase (D : List Nat) : List (Nat × Wme) → List (Nat × Wme)
  | [] => []
  | p :: rest =>
    (p.1, { p.2 with tokens := p.2.tokens.filter (fun c => c ∉ D) }) :: wmErase D rest

/-- Erase a set `D` of token ids from every beta node's item list. -/
def nodeErase (D : List Nat) : Node → Node
  | .beta p c i => .beta p c (i.filter (fun t => t ∉ D))
  | other => other

def ndErase (D : List Nat) : List (Nat × Node) → List (Nat × Node)
  | [] => []
  | p :: rest => (p.1, nodeErase D p.2) :: ndErase D rest

/-- All counters and the alpha-side state agree, and the token-side state of
`u1` is exactly `u` with the token set `D` (all of them new, i.e. at or above
`T0`, and closed under children) erased everywhere. -/
def ShrinksD (T0 : Nat) (u u1 : Rete) (D : List Nat) : Prop :=
  u1.dummy_top_token = u.dummy_top_token ∧
  u1.dummy_top_node = u.dummy_top_node ∧
  u1.constant_tests = u.constant_tests ∧
  u1.wme_alphas = u.wme_alphas ∧
  u1.alphas = u.alphas ∧
  u1.wme_ids = u.wme_ids ∧
  u1.token_ids = u.token_ids ∧
  u1.node_ids = u.node_ids ∧
  u1.alpha_ids = u.alpha_ids ∧
  (∀ d ∈ D, T0 ≤ d) ∧
  u1.tokens = tkErase D u.tokens ∧
  u1.working_memory = wmErase D u.working_memory ∧
  u1.nodes = ndErase D u.nodes ∧
  (∀ p ∈ u.tokens, p.1 ∈ D → ∀ c ∈ (p.2 : Token).children, c ∈ D)

/-- Every token key is below the token counter. -/
def keysB (u : Rete) : Prop := ∀ p ∈ u.tokens, p.1 < u.token_ids

/-- New tokens have only new children and a strictly older parent. -/
def tokOK (T0 : Nat) (u : Rete) : Prop :=
  ∀ p ∈ u.tokens, T0 ≤ p.1 →
    (∀ c ∈ (p.2 : Token).children, T0 ≤ c) ∧
    (∀ q, (p.2 : Token).parent = some q → q < p.1)

/-- Every occurrence of a new token id in a children list, a beta item list or
a WME back-reference list belongs to a live token whose parent, owner node or
WME respectively is the entry holding the occurrence. -/
def occOK (T0 : Nat) (u : Rete) : Prop :=
  (∀ p ∈ u.tokens, ∀ c ∈ (p.2 : Token).children, T0 ≤ c →
    ∃ t, alookup u.tokens c = some t ∧ t.parent = some p.1) ∧
  (∀ p ∈ u.nodes, ∀ i ∈ nodeItems p.2, T0 ≤ i →
    ∃ t, alookup u.tokens i = some t ∧ t.node = p.1) ∧
  (∀ p ∈ u.working_memory, ∀ i ∈ (p.2 : Wme).tokens, T0 ≤ i →
    ∃ t, alookup u.tokens i = some t ∧ t.wme = p.1)

/-- Every live new token with a new parent is registered in that parent's
children list, and that parent is live. -/
def regOK (T0 : Nat) (u : Rete) : Prop :=
  ∀ p ∈ u.tokens, T0 ≤ p.1 → ∀ q, (p.2 : Token).parent = some q → T0 ≤ q →
    ∃ t, alookup u.tokens q = some t ∧ p.1 ∈ t.children

/-- Drain coverage: every live new token is still pending or has a live new
parent. -/
def covOK (T0 : Nat) (u : Rete) (pending : List Nat) : Prop :=
  ∀ p ∈ u.tokens, T0 ≤ p.1 →
    p.1 ∈ pending ∨ ∃ q, (p.2 : Token).parent = some q ∧ T0 ≤ q ∧
      (alookup u.tokens q).isSome = true


theorem alookup_map_val {α β : Type} (f : α → β) (l : List (Nat × α)) (k : Nat) :
    alookup (l.map (fun p => (p.1, f p.2))) k = (alookup l k).map f := by
  induction l with
  | nil => rfl
  | cons p l ih =>
    obtain ⟨pk, pv⟩ := p
    by_cases h : pk = k <;> simp [alookup, h, ih]

theorem aerase_eq_filter {κ α : Type} [DecidableEq κ] (k : κ) (l : List (κ × α)) :
    aerase k l = l.filter (fun p => !(decide (p.1 = k))) := by
  induction l with
  | nil => rfl
  | cons p l ih =>
    by_cases h : p.1 = k <;> simp [aerase, h, ih, List.filter_cons]

theorem filter_notin_nil {α : Type} [DecidableEq α] (l : List α) :
    l.filter (fun c => c ∉ ([] : List α)) = l :=
  List.filter_eq_self.mpr (fun a _ => by simp)

theorem filter_notin_append {α : Type} [DecidableEq α] (D1 D2 : List α) (l : List α) :
    (l.filter (fun c => c ∉ D1)).filter (fun c => c ∉ D2) =
    l.filter (fun c => c ∉ D1 ++ D2) := by
  rw [List.filter_filter]
  exact List.filter_congr (fun a _ => by
    by_cases h1 : a ∈ D1 <;> by_cases h2 : a ∈ D2 <;> simp [h1, h2, List.mem_append])

theorem tkErase_nil (l : List (Nat × Token)) : tkErase [] l = l := by
  induction l with
  | nil => rfl
  | cons p l ih => simp [tkErase, filter_notin_nil, ih]

theorem wmErase_nil (l : List (Nat × Wme)) : wmErase [] l = l := by
  induction l with
  | nil => rfl
  | cons p l ih => simp [wmErase, filter_notin_nil, ih]

theorem nodeErase_nil (n : Node) : nodeErase [] n = n := by
  cases n <;> simp [nodeErase, filter_notin_nil]

theorem ndErase_nil (l : List (Nat × Node)) : ndErase [] l = l := by
  induction l with
  | nil => rfl
  | cons p l ih => simp [ndErase, nodeErase_nil, ih]

theorem alookup_tkErase (D : List Nat) (l : List (Nat × Token)) (k : Nat) :
    alookup (tkErase D l) k =
      if k ∈ D then none
      else (alookup l k).map
        (fun t => { t with children := t.children.filter (fun c => c ∉ D) }) := by
  induction l with
  | nil => by_cases hk : k ∈ D <;> simp [tkErase, alookup, hk]
  | cons p l ih =>
    obtain ⟨pk, pv⟩ := p
    by_cases hp : pk ∈ D
    · rw [show tkErase D ((pk, pv) :: l) = tkErase D l by simp [tkErase, hp], ih]
      by_cases hk : k ∈ D
      · simp [hk]
      · have hne : pk ≠ k := fun he => hk (he ▸ hp)
        simp [hk, alookup, hne]
    · rw [show tkErase D ((pk, pv) :: l) =
        (pk, { pv with children := pv.children.filter (fun c => c ∉ D) }) :: tkErase D l by
          simp [tkErase, hp]]
      by_cases hke : pk = k
      · subst pk
        simp [alookup, hp]
      · simp [alookup, hke, ih]

theorem alookup_wmErase (D : List Nat) (l : List (Nat × Wme)) (k : Nat) :
    alookup (wmErase D l) k =
      (alookup l k).map
        (fun w => { w with tokens := w.tokens.filter (fun c => c ∉ D) }) := by
  induction l with
  | nil => rfl
  | cons p l ih =>
    obtain ⟨pk, pv⟩ := p
    by_cases hke : pk = k <;> simp [wmErase, alookup, hke, ih]

theorem alookup_ndErase (D : List Nat) (l : List (Nat × Node)) (k : Nat) :
    alookup (ndErase D l) k = (alookup l k).map (nodeErase D) := by
  induction l with
  | nil => rfl
  | cons p l ih =>
    obtain ⟨pk, pv⟩ := p
    by_cases hke : pk = k <;> simp [ndErase, alookup, hke, ih]

theorem nodeErase_nodeErase (D1 D2 : List Nat) (n : Node) :
    nodeErase D2 (nodeErase D1 n) = nodeErase (D1 ++ D2) n := by
  cases n with
  | beta p c i =>
    simp only [nodeErase]
    rw [filter_notin_append]
  | join p a c t => rfl
  | production p pid => rfl

theorem tkErase_tkErase (D1 D2 : List Nat) (l : List (Nat × Token)) :
    tkErase D2 (tkErase D1 l) = tkErase (D1 ++ D2) l := by
  induction l with
  | nil => rfl
  | cons p l ih =>
    by_cases h1 : p.1 ∈ D1
    · have h12 : p.1 ∈ D1 ++ D2 := List.mem_append_left _ h1
      rw [show tkErase D1 (p :: l) = tkErase D1 l by simp [tkErase, h1],
        show tkErase (D1 ++ D2) (p :: l) = tkErase (D1 ++ D2) l by simp [tkErase, h12], ih]
    · by_cases h2 : p.1 ∈ D2
      · have h12 : p.1 ∈ D1 ++ D2 := List.mem_append_right _ h2
        rw [show tkErase D1 (p :: l) =
            (p.1, { p.2 with children := p.2.children.filter (fun c => c ∉ D1) }) ::
              tkErase D1 l by simp [tkErase, h1],
          show tkErase (D1 ++ D2) (p :: l) = tkErase (D1 ++ D2) l by simp [tkErase, h12]]
        rw [show tkErase D2
            ((p.1, { p.2 with children := p.2.children.filter (fun c => c ∉ D1) }) ::
              tkErase D1 l) = tkErase D2 (tkErase D1 l) by simp [tkErase, h2], ih]
      · have h12 : p.1 ∉ D1 ++ D2 := by simp [List.mem_append, h1, h2]
        rw [show tkErase D1 (p :: l) =
            (p.1, { p.2 with children := p.2.children.filter (fun c => c ∉ D1) }) ::
              tkErase D1 l by simp [tkErase, h1],
          show tkErase (D1 ++ D2) (p :: l) =
            (p.1, { p.2 with children := p.2.children.filter (fun c => c ∉ D1 ++ D2) }) ::
              tkErase (D1 ++ D2) l by simp [tkErase, h12]]
        rw [show tkErase D2
            ((p.1, { p.2 with children := p.2.children.filter (fun c => c ∉ D1) }) ::
              tkErase D1 l) =
            (p.1, { p.2 with children :=
              (p.2.children.filter (fun c => c ∉ D1)).filter (fun c => c ∉ D2) }) ::
              tkErase D2 (tkErase D1 l) by simp [tkErase, h2], ih,
          filter_notin_append]

theorem wmErase_wmErase (D1 D2 : List Nat) (l : List (Nat × Wme)) :
    wmErase D2 (wmErase D1 l) = wmErase (D1 ++ D2) l := by
  induction l with
  | nil => rfl
  | cons p l ih =>
    simp only [wmErase]
    rw [filter_notin_append, ih]

theorem ndErase_ndErase (D1 D2 : List Nat) (l : List (Nat × Node)) :
    ndErase D2 (ndErase D1 l) = ndErase (D1 ++ D2) l := by
  induction l with
  | nil => rfl
  | cons p l ih => simp [ndErase, nodeErase_nodeErase, ih]


theorem mem_tkErase_of_mem {D : List Nat} {l : List (Nat × Token)} {p : Nat × Token}
    (hp : p ∈ l) (hne : p.1 ∉ D) :
    (p.1, { p.2 with children := p.2.children.filter (fun c => c ∉ D) }) ∈ tkErase D l := by
  induction l with
  | nil => cases hp
  | cons q l ih =>
    rcases List.mem_cons.mp hp with he | hp2
    · subst he
      rw [show tkErase D (p :: l) =
          (p.1, { p.2 with children := p.2.children.filter (fun c => c ∉ D) }) ::
            tkErase D l by simp [tkErase, hne]]
      exact List.mem_cons_self _ _
    · by_cases hq : q.1 ∈ D
      · rw [show tkErase D (q :: l) = tkErase D l by simp [tkErase, hq]]
        exact ih hp2
      · rw [show tkErase D (q :: l) =
          (q.1, { q.2 with children := q.2.children.filter (fun c => c ∉ D) }) ::
            tkErase D l by simp [tkErase, hq]]
        exact List.mem_cons_of_mem _ (ih hp2)

theorem mem_tkErase_iff {D : List Nat} {l : List (Nat × Token)} {q : Nat × Token} :
    q ∈ tkErase D l ↔ ∃ p ∈ l, p.1 ∉ D ∧
      q = (p.1, { p.2 with children := p.2.children.filter (fun c => c ∉ D) }) := by
  constructor
  · intro hq
    induction l with
    | nil => cases hq
    | cons r l ih =>
      by_cases hr : r.1 ∈ D
      · rw [show tkErase D (r :: l) = tkErase D l by simp [tkErase, hr]] at hq
        obtain ⟨p, hp, h1, h2⟩ := ih hq
        exact ⟨p, List.mem_cons_of_mem _ hp, h1, h2⟩
      · rw [show tkErase D (r :: l) =
          (r.1, { r.2 with children := r.2.children.filter (fun c => c ∉ D) }) ::
            tkErase D l by simp [tkErase, hr]] at hq
        rcases List.mem_cons.mp hq with he | hq2
        · exact ⟨r, List.mem_cons_self _ _, hr, he⟩
        · obtain ⟨p, hp, h1, h2⟩ := ih hq2
          exact ⟨p, List.mem_cons_of_mem _ hp, h1, h2⟩
  · rintro ⟨p, hp, h1, rfl⟩
    exact mem_tkErase_of_mem hp h1

theorem mem_wmErase_iff {D : List Nat} {l : List (Nat × Wme)} {q : Nat × Wme} :
    q ∈ wmErase D l ↔ ∃ p ∈ l,
      q = (p.1, { p.2 with tokens := p.2.tokens.filter (fun c => c ∉ D) }) := by
  constructor
  · intro hq
    induction l with
    | nil => cases hq
    | cons r l ih =>
      rcases List.mem_cons.mp hq with he | hq2
      · exact ⟨r, List.mem_cons_self _ _, he⟩
      · obtain ⟨p, hp, h2⟩ := ih hq2
        exact ⟨p, List.mem_cons_of_mem _ hp, h2⟩
  · rintro ⟨p, hp, rfl⟩
    induction l with
    | nil => cases hp
    | cons r l ih =>
      rcases List.mem_cons.mp hp with he | hp2
      · subst he
        exact List.mem_cons_self _ _
      · exact List.mem_cons_of_mem _ (ih hp2)

theorem mem_ndErase_iff {D : List Nat} {l : List (Nat × Node)} {q : Nat × Node} :
    q ∈ ndErase D l ↔ ∃ p ∈ l, q = (p.1, nodeErase D p.2) := by
  constructor
  · intro hq
    induction l with
    | nil => cases hq
    | cons r l ih =>
      rcases List.mem_cons.mp hq with he | hq2
      · exact ⟨r, List.mem_cons_self _ _, he⟩
      · obtain ⟨p, hp, h2⟩ := ih hq2
        exact ⟨p, List.mem_cons_of_mem _ hp, h2⟩
  · rintro ⟨p, hp, rfl⟩
    induction l with
    | nil => cases hp
    | cons r l ih =>
      rcases List.mem_cons.mp hp with he | hp2
      · subst he
        exact List.mem_cons_self _ _
      · exact List.mem_cons_of_mem _ (ih hp2)

theorem ShrinksD_nil (T0 : Nat) (u : Rete) : ShrinksD T0 u u [] := by
  refine ⟨rfl, rfl, rfl, rfl, rfl, rfl, rfl, rfl, rfl, ?_, ?_, ?_, ?_, ?_⟩
  · intro d hd; cases hd
  · exact (tkErase_nil _).symm
  · exact (wmErase_nil _).symm
  · exact (ndErase_nil _).symm
  · intro p hp hmem; cases hmem

theorem ShrinksD_trans {T0 : Nat} {u u1 u2 : Rete} {D1 D2 : List Nat}
    (h1 : ShrinksD T0 u u1 D1) (h2 : ShrinksD T0 u1 u2 D2) :
    ShrinksD T0 u u2 (D1 ++ D2) := by
  obtain ⟨a1, b1, c1, d1, e1, f1, g1, t1, n1, hD1, htk1, hwm1, hnd1, hcl1⟩ := h1
  obtain ⟨a2, b2, c2, d2, e2, f2, g2, t2, n2, hD2, htk2, hwm2, hnd2, hcl2⟩ := h2
  refine ⟨a2.trans a1, b2.trans b1, c2.trans c1, d2.trans d1, e2.trans e1, f2.trans f1,
    g2.trans g1, t2.trans t1, n2.trans n1, ?_, ?_, ?_, ?_, ?_⟩
  · intro d hd
    rcases List.mem_append.mp hd with h | h
    exacts [hD1 d h, hD2 d h]
  · rw [htk2, htk1, tkErase_tkErase]
  · rw [hwm2, hwm1, wmErase_wmErase]
  · rw [hnd2, hnd1, ndErase_ndErase]
  · intro p hp hmem c hc
    rcases List.mem_append.mp hmem with h | h
    · exact List.mem_append_left _ (hcl1 p hp h c hc)
    · by_cases h1m : p.1 ∈ D1
      · exact List.mem_append_left _ (hcl1 p hp h1m c hc)
      · have hp1 : (p.1, { p.2 with children := p.2.children.filter (fun x => x ∉ D1) })
            ∈ u1.tokens := by
          rw [htk1]
          exact mem_tkErase_of_mem hp h1m
        by_cases hc1 : c ∈ D1
        · exact List.mem_append_left _ hc1
        · have hcf : c ∈ p.2.children.filter (fun x => x ∉ D1) :=
            List.mem_filter.mpr ⟨hc, by simp [hc1]⟩
          exact List.mem_append_right _ (hcl2 _ hp1 h _ hcf)


theorem alookup_mem {κ α : Type} [DecidableEq κ] {l : List (κ × α)} {k : κ} {v : α}
    (h : alookup l k = some v) : (k, v) ∈ l := by
  induction l with
  | nil => cases h
  | cons p l ih =>
    simp only [alookup] at h
    by_cases hk : p.1 = k
    · rw [if_pos hk] at h
      injection h with h2
      subst hk
      subst h2
      exact List.mem_cons_self _ _
    · rw [if_neg hk] at h
      exact List.mem_cons_of_mem _ (ih h)

theorem alookup_isSome_of_mem {κ α : Type} [DecidableEq κ] {l : List (κ × α)} {p : κ × α}
    (h : p ∈ l) : (alookup l p.1).isSome = true := by
  induction l with
  | nil => cases h
  | cons q l ih =>
    rcases List.mem_cons.mp h with he | h2
    · subst he
      simp [alookup]
    · by_cases hk : q.1 = p.1 <;> simp [alookup, hk, ih h2]

theorem mem_aupdate_of_mem {κ α : Type} [DecidableEq κ] (f : α → α) (k : κ)
    {l : List (κ × α)} {p : κ × α} (h : p ∈ l) :
    (if p.1 = k then (p.1, f p.2) else p) ∈ aupdate f k l := by
  induction l with
  | nil => cases h
  | cons q l ih =>
    rcases List.mem_cons.mp h with he | h2
    · subst he
      by_cases hk : p.1 = k <;> simp [aupdate, hk]
    · by_cases hk : q.1 = k <;> simp only [aupdate, if_pos, if_neg, hk, if_true, if_false] <;>
        exact List.mem_cons_of_mem _ (ih h2)

theorem mem_aupdate_iff {κ α : Type} [DecidableEq κ] (f : α → α) (k : κ)
    {l : List (κ × α)} {q : κ × α} :
    q ∈ aupdate f k l ↔ ∃ p ∈ l, q = if p.1 = k then (p.1, f p.2) else p := by
  constructor
  · intro hq
    induction l with
    | nil => cases hq
    | cons r l ih =>
      by_cases hk : r.1 = k
      · rw [show aupdate f k (r :: l) = (r.1, f r.2) :: aupdate f k l by
          simp [aupdate, hk]] at hq
        rcases List.mem_cons.mp hq with he | h2
        · exact ⟨r, List.mem_cons_self _ _, by rw [if_pos hk]; exact he⟩
        · obtain ⟨p, hp, hpe⟩ := ih h2
          exact ⟨p, List.mem_cons_of_mem _ hp, hpe⟩
      · rw [show aupdate f k (r :: l) = r :: aupdate f k l by simp [aupdate, hk]] at hq
        rcases List.mem_cons.mp hq with he | h2
        · exact ⟨r, List.mem_cons_self _ _, by rw [if_neg hk]; exact he⟩
        · obtain ⟨p, hp, hpe⟩ := ih h2
          exact ⟨p, List.mem_cons_of_mem _ hp, hpe⟩
  · rintro ⟨p, hp, rfl⟩
    exact mem_aupdate_of_mem f k hp

theorem aupdate_keys {κ α : Type} [DecidableEq κ] (f : α → α) (k : κ) (l : List (κ × α)) :
    (aupdate f k l).map Prod.fst = l.map Prod.fst := by
  induction l with
  | nil => rfl
  | cons q l ih => by_cases hk : q.1 = k <;> simp [aupdate, hk, ih]

theorem tkErase_keys (D : List Nat) (l : List (Nat × Token)) :
    (tkErase D l).map Prod.fst = (l.map Prod.fst).filter (fun k => decide (k ∉ D)) := by
  induction l with
  | nil => rfl
  | cons q l ih =>
    by_cases hk : q.1 ∈ D
    · rw [show tkErase D (q :: l) = tkErase D l by simp [tkErase, hk]]
      simp [List.filter_cons, hk, ih]
    · rw [show tkErase D (q :: l) =
        (q.1, { q.2 with children := q.2.children.filter (fun c => c ∉ D) }) ::
          tkErase D l by simp [tkErase, hk]]
      simp [List.filter_cons, hk, ih]

theorem ndErase_keys (D : List Nat) (l : List (Nat × Node)) :
    (ndErase D l).map Prod.fst = l.map Prod.fst := by
  induction l with
  | nil => rfl
  | cons q l ih => simp [ndErase, ih]

theorem nodeItems_nodeErase (D : List Nat) (n : Node) :
    nodeItems (nodeErase D n) = (nodeItems n).filter (fun c => c ∉ D) := by
  cases n <;> simp [nodeItems, nodeErase]

theorem filter_retain_singleton (tid : Nat) (D : List Nat) (ch : List Nat) :
    (retainNe ch tid).filter (fun c => c ∉ D) = ch.filter (fun c => c ∉ D ++ [tid]) := by
  rw [retainNe_eq_filter, List.filter_filter]
  exact List.filter_congr (fun a _ => by
    by_cases h1 : a = tid <;> by_cases h2 : a ∈ D <;> simp [h1, h2, List.mem_append])

theorem retain_filter_singleton (tid : Nat) (D : List Nat) (ch : List Nat) :
    retainNe (ch.filter (fun c => c ∉ D)) tid = ch.filter (fun c => c ∉ D ++ [tid]) := by
  rw [retainNe_eq_filter, List.filter_filter]
  exact List.filter_congr (fun a _ => by
    by_cases h1 : a = tid <;> by_cases h2 : a ∈ D <;> simp [h1, h2, List.mem_append])

theorem filter_snoc_of_not_mem (tid : Nat) (D : List Nat) (ch : List Nat) (h : tid ∉ ch) :
    ch.filter (fun c => c ∉ D ++ [tid]) = ch.filter (fun c => c ∉ D) :=
  List.filter_congr (fun a ha => by
    have hne : a ≠ tid := fun he => h (he ▸ ha)
    simp [List.mem_append, hne])

theorem tokOK_of_ShrinksD {T0 : Nat} {u u1 : Rete} {D : List Nat}
    (h : ShrinksD T0 u u1 D) (ht : tokOK T0 u) : tokOK T0 u1 := by
  obtain ⟨-, -, -, -, -, -, -, -, -, -, htk, -, -, -⟩ := h
  intro p hp hT
  rw [htk] at hp
  obtain ⟨p0, hp0, hnot, he⟩ := mem_tkErase_iff.mp hp
  subst he
  obtain ⟨hch, hpar⟩ := ht p0 hp0 hT
  refine ⟨?_, hpar⟩
  intro c hc
  exact hch c (List.mem_filter.mp hc).1

theorem occOK_of_ShrinksD {T0 : Nat} {u u1 : Rete} {D : List Nat}
    (h : ShrinksD T0 u u1 D) (ho : occOK T0 u) : occOK T0 u1 := by
  obtain ⟨-, -, -, -, -, -, -, -, -, -, htk, hwm, hnd, -⟩ := h
  obtain ⟨ho1, ho2, ho3⟩ := ho
  refine ⟨?_, ?_, ?_⟩
  · intro p hp c hc hT
    rw [htk] at hp
    obtain ⟨p0, hp0, hnot, he⟩ := mem_tkErase_iff.mp hp
    subst he
    have hc2 := List.mem_filter.mp hc
    obtain ⟨t, hlt, htp⟩ := ho1 p0 hp0 c hc2.1 hT
    refine ⟨{ t with children := t.children.filter (fun x => x ∉ D) }, ?_, htp⟩
    rw [htk, alookup_tkErase, if_neg (by simpa using hc2.2), hlt]
    rfl
  · intro p hp i hi hT
    rw [hnd] at hp
    obtain ⟨p0, hp0, he⟩ := mem_ndErase_iff.mp hp
    subst he
    rw [nodeItems_nodeErase] at hi
    have hi2 := List.mem_filter.mp hi
    obtain ⟨t, hlt, htn⟩ := ho2 p0 hp0 i hi2.1 hT
    refine ⟨{ t with children := t.children.filter (fun x => x ∉ D) }, ?_, htn⟩
    rw [htk, alookup_tkErase, if_neg (by simpa using hi2.2), hlt]
    rfl
  · intro p hp i hi hT
    rw [hwm] at hp
    obtain ⟨p0, hp0, he⟩ := mem_wmErase_iff.mp hp
    subst he
    have hi2 := List.mem_filter.mp hi
    obtain ⟨t, hlt, htw⟩ := ho3 p0 hp0 i hi2.1 hT
    refine ⟨{ t with children := t.children.filter (fun x => x ∉ D) }, ?_, htw⟩
    rw [htk, alookup_tkErase, if_neg (by simpa using hi2.2), hlt]
    rfl

theorem tokens_nodup_of_ShrinksD {T0 : Nat} {u u1 : Rete} {D : List Nat}
    (h : ShrinksD T0 u u1 D) (hn : (u.tokens.map Prod.fst).Nodup) :
    (u1.tokens.map Prod.fst).Nodup := by
  obtain ⟨-, -, -, -, -, -, -, -, -, -, htk, -, -, -⟩ := h
  rw [htk, tkErase_keys]
  exact hn.filter _

theorem nodes_nodup_of_ShrinksD {T0 : Nat} {u u1 : Rete} {D : List Nat}
    (h : ShrinksD T0 u u1 D) (hn : (u.nodes.map Prod.fst).Nodup) :
    (u1.nodes.map Prod.fst).Nodup := by
  obtain ⟨-, -, -, -, -, -, -, -, -, -, -, -, hnd, -⟩ := h
  rw [hnd, ndErase_keys]
  exact hn


theorem aupdate_of_not_mem {κ α : Type} [DecidableEq κ] (f : α → α) (k : κ)
    (l : List (κ × α)) (h : k ∉ l.map Prod.fst) : aupdate f k l = l := by
  induction l with
  | nil => rfl
  | cons p l ih =>
    have h1 : p.1 ≠ k := fun he => h (by simp [he])
    have h2 : k ∉ l.map Prod.fst := fun hm => h (by simp [hm])
    simp [aupdate, h1, ih h2]

theorem nodeErase_snoc_of_not_mem (tid : Nat) (D : List Nat) (n : Node)
    (h : tid ∉ nodeItems n) : nodeErase (D ++ [tid]) n = nodeErase D n := by
  cases n with
  | beta p c i =>
    simp only [nodeErase]
    rw [filter_snoc_of_not_mem tid D i (by simpa [nodeItems] using h)]
  | join p a c t => rfl
  | production p pid => rfl

theorem ndErase_congr_snoc (tid : Nat) (D : List Nat) (l : List (Nat × Node))
    (h : ∀ p ∈ l, tid ∉ nodeItems p.2) : ndErase (D ++ [tid]) l = ndErase D l := by
  induction l with
  | nil => rfl
  | cons p l ih =>
    simp only [ndErase]
    rw [nodeErase_snoc_of_not_mem tid D p.2 (h p (List.mem_cons_self _ _)),
      ih (fun q hq => h q (List.mem_cons_of_mem _ hq))]

theorem tkErase_delete_root (D : List Nat) (tid q : Nat) (l : List (Nat × Token))
    (htid : tid ∉ D)
    (hocc : ∀ p ∈ l, p.1 ≠ q → tid ∉ (p.2 : Token).children) :
    aerase tid (tkErase D (aupdate (fun pt => { pt with children := retainNe pt.children tid }) q l)) = tkErase (D ++ [tid]) l := by
  induction l with
  | nil => rfl
  | cons p l ih =>
    have ihl := ih (fun r hr => hocc r (List.mem_cons_of_mem _ hr))
    by_cases hq : p.1 = q
    · rw [show aupdate (fun pt => { pt with children := retainNe pt.children tid }) q (p :: l) = (p.1, { p.2 with children := retainNe p.2.children tid }) :: aupdate (fun pt => { pt with children := retainNe pt.children tid }) q l by simp [aupdate, hq]]
      by_cases hD : p.1 ∈ D
      · have hmem : p.1 ∈ D ++ [tid] := List.mem_append_left _ hD
        rw [show tkErase D ((p.1, { p.2 with children := retainNe p.2.children tid }) :: aupdate (fun pt => { pt with children := retainNe pt.children tid }) q l) = tkErase D (aupdate (fun pt => { pt with children := retainNe pt.children tid }) q l) by simp [tkErase, hD],
          show tkErase (D ++ [tid]) (p :: l) = tkErase (D ++ [tid]) l by simp [tkErase, hmem]]
        exact ihl
      · rw [show tkErase D ((p.1, { p.2 with children := retainNe p.2.children tid }) :: aupdate (fun pt => { pt with children := retainNe pt.children tid }) q l) = (p.1, { p.2 with children := (retainNe p.2.children tid).filter (fun c => c ∉ D) }) :: tkErase D (aupdate (fun pt => { pt with children := retainNe pt.children tid }) q l) by simp [tkErase, hD]]
        by_cases ht : p.1 = tid
        · have hmem : p.1 ∈ D ++ [tid] := List.mem_append_right D (by simp [ht])
          rw [show aerase tid ((p.1, { p.2 with children := (retainNe p.2.children tid).filter (fun c => c ∉ D) }) :: tkErase D (aupdate (fun pt => { pt with children := retainNe pt.children tid }) q l)) = aerase tid (tkErase D (aupdate (fun pt => { pt with children := retainNe pt.children tid }) q l)) by simp [aerase, ht],
            show tkErase (D ++ [tid]) (p :: l) = tkErase (D ++ [tid]) l by simp [tkErase, hmem]]
          exact ihl
        · have hmem : p.1 ∉ D ++ [tid] := by simp [List.mem_append, hD, ht]
          rw [show aerase tid ((p.1, { p.2 with children := (retainNe p.2.children tid).filter (fun c => c ∉ D) }) :: tkErase D (aupdate (fun pt => { pt with children := retainNe pt.children tid }) q l)) = (p.1, { p.2 with children := (retainNe p.2.children tid).filter (fun c => c ∉ D) }) :: aerase tid (tkErase D (aupdate (fun pt => { pt with children := retainNe pt.children tid }) q l)) by simp [aerase, ht],
            show tkErase (D ++ [tid]) (p :: l) = (p.1, { p.2 with children := p.2.children.filter (fun c => c ∉ D ++ [tid]) }) :: tkErase (D ++ [tid]) l by simp [tkErase, hmem],
            ihl, filter_retain_singleton]
    · rw [show aupdate (fun pt => { pt with children := retainNe pt.children tid }) q (p :: l) = p :: aupdate (fun pt => { pt with children := retainNe pt.children tid }) q l by simp [aupdate, hq]]
      by_cases hD : p.1 ∈ D
      · have hmem : p.1 ∈ D ++ [tid] := List.mem_append_left _ hD
        rw [show tkErase D (p :: aupdate (fun pt => { pt with children := retainNe pt.children tid }) q l) = tkErase D (aupdate (fun pt => { pt with children := retainNe pt.children tid }) q l) by simp [tkErase, hD],
          show tkErase (D ++ [tid]) (p :: l) = tkErase (D ++ [tid]) l by simp [tkErase, hmem]]
        exact ihl
      · rw [show tkErase D (p :: aupdate (fun pt => { pt with children := retainNe pt.children tid }) q l) = (p.1, { p.2 with children := p.2.children.filter (fun c => c ∉ D) }) :: tkErase D (aupdate (fun pt => { pt with children := retainNe pt.children tid }) q l) by simp [tkErase, hD]]
        by_cases ht : p.1 = tid
        · have hmem : p.1 ∈ D ++ [tid] := List.mem_append_right D (by simp [ht])
          rw [show aerase tid ((p.1, { p.2 with children := p.2.children.filter (fun c => c ∉ D) }) :: tkErase D (aupdate (fun pt => { pt with children := retainNe pt.children tid }) q l)) = aerase tid (tkErase D (aupdate (fun pt => { pt with children := retainNe pt.children tid }) q l)) by simp [aerase, ht],
            show tkErase (D ++ [tid]) (p :: l) = tkErase (D ++ [tid]) l by simp [tkErase, hmem]]
          exact ihl
        · have hmem : p.1 ∉ D ++ [tid] := by simp [List.mem_append, hD, ht]
          rw [show aerase tid ((p.1, { p.2 with children := p.2.children.filter (fun c => c ∉ D) }) :: tkErase D (aupdate (fun pt => { pt with children := retainNe pt.children tid }) q l)) = (p.1, { p.2 with children := p.2.children.filter (fun c => c ∉ D) }) :: aerase tid (tkErase D (aupdate (fun pt => { pt with children := retainNe pt.children tid }) q l)) by simp [aerase, ht],
            show tkErase (D ++ [tid]) (p :: l) = (p.1, { p.2 with children := p.2.children.filter (fun c => c ∉ D ++ [tid]) }) :: tkErase (D ++ [tid]) l by simp [tkErase, hmem],
            ihl,
            filter_snoc_of_not_mem tid D p.2.children (hocc p (List.mem_cons_self _ _) hq)]

theorem tkErase_delete_root_noparent (D : List Nat) (tid : Nat) (l : List (Nat × Token))
    (hocc : ∀ p ∈ l, tid ∉ (p.2 : Token).children) :
    aerase tid (tkErase D l) = tkErase (D ++ [tid]) l := by
  induction l with
  | nil => rfl
  | cons p l ih =>
    have ihl := ih (fun r hr => hocc r (List.mem_cons_of_mem _ hr))
    by_cases hD : p.1 ∈ D
    · have hmem : p.1 ∈ D ++ [tid] := List.mem_append_left _ hD
      rw [show tkErase D (p :: l) = tkErase D l by simp [tkErase, hD],
        show tkErase (D ++ [tid]) (p :: l) = tkErase (D ++ [tid]) l by simp [tkErase, hmem]]
      exact ihl
    · rw [show tkErase D (p :: l) = (p.1, { p.2 with children := p.2.children.filter (fun c => c ∉ D) }) :: tkErase D l by simp [tkErase, hD]]
      by_cases ht : p.1 = tid
      · have hmem : p.1 ∈ D ++ [tid] := List.mem_append_right D (by simp [ht])
        rw [show aerase tid ((p.1, { p.2 with children := p.2.children.filter (fun c => c ∉ D) }) :: tkErase D l) = aerase tid (tkErase D l) by simp [aerase, ht],
          show tkErase (D ++ [tid]) (p :: l) = tkErase (D ++ [tid]) l by simp [tkErase, hmem]]
        exact ihl
      · have hmem : p.1 ∉ D ++ [tid] := by simp [List.mem_append, hD, ht]
        rw [show aerase tid ((p.1, { p.2 with children := p.2.children.filter (fun c => c ∉ D) }) :: tkErase D l) = (p.1, { p.2 with children := p.2.children.filter (fun c => c ∉ D) }) :: aerase tid (tkErase D l) by simp [aerase, ht],
          show tkErase (D ++ [tid]) (p :: l) = (p.1, { p.2 with children := p.2.children.filter (fun c => c ∉ D ++ [tid]) }) :: tkErase (D ++ [tid]) l by simp [tkErase, hmem],
          ihl,
          filter_snoc_of_not_mem tid D p.2.children (hocc p (List.mem_cons_self _ _))]

theorem wmErase_delete_root (D : List Nat) (tid kw : Nat) (l : List (Nat × Wme))
    (hocc : ∀ p ∈ l, p.1 ≠ kw → tid ∉ (p.2 : Wme).tokens) :
    aupdate (fun w => { w with tokens := retainNe w.tokens tid }) kw (wmErase D l) = wmErase (D ++ [tid]) l := by
  induction l with
  | nil => rfl
  | cons p l ih =>
    have ihl := ih (fun r hr => hocc r (List.mem_cons_of_mem _ hr))
    simp only [wmErase]
    by_cases hk : p.1 = kw
    · rw [show aupdate (fun w => { w with tokens := retainNe w.tokens tid }) kw ((p.1, { p.2 with tokens := p.2.tokens.filter (fun c => c ∉ D) }) :: wmErase D l) = (p.1, { p.2 with tokens := retainNe (p.2.tokens.filter (fun c => c ∉ D)) tid }) :: aupdate (fun w => { w with tokens := retainNe w.tokens tid }) kw (wmErase D l) by simp [aupdate, hk],
        ihl, retain_filter_singleton]
    · rw [show aupdate (fun w => { w with tokens := retainNe w.tokens tid }) kw ((p.1, { p.2 with tokens := p.2.tokens.filter (fun c => c ∉ D) }) :: wmErase D l) = (p.1, { p.2 with tokens := p.2.tokens.filter (fun c => c ∉ D) }) :: aupdate (fun w => { w with tokens := retainNe w.tokens tid }) kw (wmErase D l) by simp [aupdate, hk],
        ihl,
        filter_snoc_of_not_mem tid D p.2.tokens (hocc p (List.mem_cons_self _ _) hk)]

theorem ndErase_delete_root (D : List Nat) (tid kn : Nat) (l : List (Nat × Node))
    (bp : Option Nat) (bc bi : List Nat)
    (hnd : (l.map Prod.fst).Nodup)
    (hocc : ∀ p ∈ l, p.1 ≠ kn → tid ∉ nodeItems p.2)
    (hn0 : alookup l kn = some (Node.beta bp bc bi)) :
    aupdate (fun _ => Node.beta bp bc (retainNe (bi.filter (fun c => c ∉ D)) tid)) kn (ndErase D l) = ndErase (D ++ [tid]) l := by
  induction l with
  | nil => cases hn0
  | cons p l ih =>
    simp only [ndErase]
    by_cases hk : p.1 = kn
    · have hp2 : p.2 = Node.beta bp bc bi := by
        simp only [alookup, if_pos hk] at hn0
        injection hn0
      have hkeys : kn ∉ l.map Prod.fst := by
        intro hm
        exact (List.nodup_cons.mp (by simpa using hnd)).1 (hk ▸ hm)
      have htail : ∀ r ∈ l, tid ∉ nodeItems r.2 := by
        intro r hr
        have hrk : r.1 ≠ kn := fun he => hkeys (he ▸ List.mem_map_of_mem Prod.fst hr)
        exact hocc r (List.mem_cons_of_mem _ hr) hrk
      have hkeys2 : kn ∉ (ndErase D l).map Prod.fst := by
        rw [ndErase_keys]
        exact hkeys
      rw [show aupdate (fun _ => Node.beta bp bc (retainNe (bi.filter (fun c => c ∉ D)) tid)) kn ((p.1, nodeErase D p.2) :: ndErase D l) = (p.1, Node.beta bp bc (retainNe (bi.filter (fun c => c ∉ D)) tid)) :: aupdate (fun _ => Node.beta bp bc (retainNe (bi.filter (fun c => c ∉ D)) tid)) kn (ndErase D l) by simp [aupdate, hk],
        aupdate_of_not_mem _ _ _ hkeys2, ndErase_congr_snoc tid D l htail, hp2]
      simp only [nodeErase]
      rw [retain_filter_singleton]
    · have hn0t : alookup l kn = some (Node.beta bp bc bi) := by
        simpa [alookup, hk] using hn0
      rw [show aupdate (fun _ => Node.beta bp bc (retainNe (bi.filter (fun c => c ∉ D)) tid)) kn ((p.1, nodeErase D p.2) :: ndErase D l) = (p.1, nodeErase D p.2) :: aupdate (fun _ => Node.beta bp bc (retainNe (bi.filter (fun c => c ∉ D)) tid)) kn (ndErase D l) by simp [aupdate, hk],
        ih (List.Nodup.of_cons (by simpa using hnd))
          (fun r hr => hocc r (List.mem_cons_of_mem _ hr)) hn0t,
        nodeErase_snoc_of_not_mem tid D p.2 (hocc p (List.mem_cons_self _ _) hk)]


theorem alookup_aupdate_cases {κ α : Type} [DecidableEq κ] (f : α → α) (k k' : κ)
    (l : List (κ × α)) :
    alookup (aupdate f k l) k' = alookup l k' ∨
    alookup (aupdate f k l) k' = (alookup l k').map f := by
  by_cases h : k' = k
  · subst h
    exact Or.inr (alookup_aupdate_self f k' l)
  · exact Or.inl (alookup_aupdate_ne f k k' h l)

theorem alookup_eq_of_mem_nodup {κ α : Type} [DecidableEq κ] {l : List (κ × α)} {p : κ × α}
    (hnd : (l.map Prod.fst).Nodup) (hp : p ∈ l) : alookup l p.1 = some p.2 := by
  induction l with
  | nil => cases hp
  | cons q l ih =>
    rcases List.mem_cons.mp hp with he | h2
    · subst he
      simp [alookup]
    · have hq : q.1 ≠ p.1 := by
        intro he
        exact (List.nodup_cons.mp (by simpa using hnd)).1
          (he ▸ List.mem_map_of_mem Prod.fst h2)
      simp [alookup, hq, ih (List.Nodup.of_cons (by simpa using hnd)) h2]

theorem occOK_detach (T0 tid q : Nat) (u : Rete) (ho : occOK T0 u) :
    occOK T0 { u with tokens := aupdate (fun pt => { pt with children := retainNe pt.children tid }) q u.tokens } := by
  obtain ⟨h1, h2, h3⟩ := ho
  have hlk : ∀ c : Nat, ∀ t : Token, alookup u.tokens c = some t →
      ∃ t2 : Token,
        alookup (aupdate (fun pt => { pt with children := retainNe pt.children tid }) q u.tokens) c = some t2 ∧
        t2.parent = t.parent ∧ t2.node = t.node ∧ t2.wme = t.wme := by
    intro c t hc
    rcases alookup_aupdate_cases
        (fun pt => { pt with children := retainNe pt.children tid }) q c u.tokens with he | he
    · exact ⟨t, by rw [he, hc], rfl, rfl, rfl⟩
    · refine ⟨{ t with children := retainNe t.children tid }, ?_, rfl, rfl, rfl⟩
      rw [he, hc]
      rfl
  refine ⟨?_, ?_, ?_⟩
  · intro p hp c hc hT
    obtain ⟨p0, hp0, he⟩ := (mem_aupdate_iff _ _).mp hp
    by_cases hq : p0.1 = q
    · rw [if_pos hq] at he
      subst he
      have hc2 : c ∈ retainNe p0.2.children tid := hc
      have hc0 : c ∈ p0.2.children := ((mem_retainNe _ _ _).mp hc2).1
      obtain ⟨t, hlt, htp⟩ := h1 p0 hp0 c hc0 hT
      obtain ⟨t2, hl2, hp2, -, -⟩ := hlk c t hlt
      exact ⟨t2, hl2, by rw [hp2, htp]⟩
    · rw [if_neg hq] at he
      subst he
      obtain ⟨t, hlt, htp⟩ := h1 p hp0 c hc hT
      obtain ⟨t2, hl2, hp2, -, -⟩ := hlk c t hlt
      exact ⟨t2, hl2, by rw [hp2, htp]⟩
  · intro p hp i hi hT
    obtain ⟨t, hlt, htn⟩ := h2 p hp i hi hT
    obtain ⟨t2, hl2, -, hn2, -⟩ := hlk i t hlt
    exact ⟨t2, hl2, by rw [hn2, htn]⟩
  · intro p hp i hi hT
    obtain ⟨t, hlt, htw⟩ := h3 p hp i hi hT
    obtain ⟨t2, hl2, -, -, hw2⟩ := hlk i t hlt
    exact ⟨t2, hl2, by rw [hw2, htw]⟩

theorem tokOK_detach (T0 tid q : Nat) (u : Rete) (ht : tokOK T0 u) :
    tokOK T0 { u with tokens := aupdate (fun pt => { pt with children := retainNe pt.children tid }) q u.tokens } := by
  intro p hp hT
  obtain ⟨p0, hp0, he⟩ := (mem_aupdate_iff _ _).mp hp
  by_cases hq : p0.1 = q
  · rw [if_pos hq] at he
    subst he
    obtain ⟨hch, hpar⟩ := ht p0 hp0 hT
    refine ⟨?_, hpar⟩
    intro c hc
    have hc2 : c ∈ retainNe p0.2.children tid := hc
    exact hch c ((mem_retainNe _ _ _).mp hc2).1
  · rw [if_neg hq] at he
    subst he
    exact ht p hp0 hT


theorem delete_shrinks (T0 : Nat) : ∀ (fuel : Nat) (u : Rete) (r : Nat) (u1 : Rete),
    delete_self_and_descendants fuel u r = some u1 →
    T0 ≤ r → tokOK T0 u → occOK T0 u →
    (u.tokens.map Prod.fst).Nodup → (u.nodes.map Prod.fst).Nodup →
    ∃ D, ShrinksD T0 u u1 D ∧ alookup u1.tokens r = none ∧ ∀ d ∈ D, r ≤ d := by
  intro fuel
  induction fuel with
  | zero =>
    intro u r u1 h _ _ _ _ _
    exact Option.noConfusion h
  | succ fuel IH =>
    have FOLD : ∀ (cs : List Nat) (v v1 : Rete),
        cs.foldlM (fun st c => delete_self_and_descendants fuel st c) v = some v1 →
        (∀ c ∈ cs, T0 ≤ c) →
        tokOK T0 v → occOK T0 v →
        (v.tokens.map Prod.fst).Nodup → (v.nodes.map Prod.fst).Nodup →
        ∃ D, ShrinksD T0 v v1 D ∧ (∀ c ∈ cs, alookup v1.tokens c = none) ∧
          ∀ d ∈ D, ∃ c ∈ cs, c ≤ d := by
      intro cs
      induction cs with
      | nil =>
        intro v v1 h _ _ _ _ _
        have hv : v = v1 := by injection h
        subst hv
        exact ⟨[], ShrinksD_nil T0 v, fun c hc => absurd hc (List.not_mem_nil c),
          fun d hd => absurd hd (List.not_mem_nil d)⟩
      | cons c cs ihc =>
        intro v v1 h hTall htok hocc hndt hndn
        rw [List.foldlM_cons] at h
        cases hd : delete_self_and_descendants fuel v c with
        | none =>
          rw [hd] at h
          simp at h
        | some vm =>
          rw [hd] at h
          have h2 : cs.foldlM (fun st c => delete_self_and_descendants fuel st c) vm
              = some v1 := h
          obtain ⟨Dc, hShc, hdeadc, hbc⟩ :=
            IH v c vm hd (hTall c (List.mem_cons_self _ _)) htok hocc hndt hndn
          obtain ⟨Dr, hShr, hdeadr, hbr⟩ := ihc vm v1 h2
            (fun x hx => hTall x (List.mem_cons_of_mem _ hx))
            (tokOK_of_ShrinksD hShc htok) (occOK_of_ShrinksD hShc hocc)
            (tokens_nodup_of_ShrinksD hShc hndt) (nodes_nodup_of_ShrinksD hShc hndn)
          refine ⟨Dc ++ Dr, ShrinksD_trans hShc hShr, ?_, ?_⟩
          · intro x hx
            rcases List.mem_cons.mp hx with he | hx2
            · subst he
              obtain ⟨-, -, -, -, -, -, -, -, -, -, htk, -, -, -⟩ := hShr
              rw [htk, alookup_tkErase]
              by_cases hmem : x ∈ Dr
              · rw [if_pos hmem]
              · rw [if_neg hmem, hdeadc]
                rfl
            · exact hdeadr x hx2
          · intro d hd2
            rcases List.mem_append.mp hd2 with h1 | h1
            · exact ⟨c, List.mem_cons_self _ _, hbc d h1⟩
            · obtain ⟨x, hx, hxd⟩ := hbr d h1
              exact ⟨x, List.mem_cons_of_mem _ hx, hxd⟩
    intro u r u1 h hT0 htok hocc hndt hndn
    have hoccd := hocc
    unfold occOK at hoccd
    obtain ⟨ho1, ho2, ho3⟩ := hoccd
    simp only [delete_self_and_descendants] at h
    cases hl : alookup u.tokens r with
    | none =>
      rw [hl] at h
      dsimp only at h
      have hv : u = u1 := by injection h
      subst hv
      exact ⟨[], ShrinksD_nil T0 u, hl, fun d hd => absurd hd (List.not_mem_nil d)⟩
    | some t =>
      rw [hl] at h
      dsimp only at h
      have hmemt : (r, t) ∈ u.tokens := alookup_mem hl
      have htokt := htok (r, t) hmemt hT0
      have hchT0 : ∀ c ∈ t.children, T0 ≤ c := htokt.1
      have hchgt : ∀ c ∈ t.children, r < c := by
        intro c hc
        obtain ⟨tc, hltc, htcp⟩ := ho1 (r, t) hmemt c hc (hchT0 c hc)
        exact (htok (c, tc) (alookup_mem hltc) (hchT0 c hc)).2 r htcp
      have hocc_nd : ∀ p ∈ u.nodes, p.1 ≠ t.node → r ∉ nodeItems p.2 := by
        intro p hp hne hmem
        obtain ⟨tc, hltc, htcn⟩ := ho2 p hp r hmem hT0
        rw [hl] at hltc
        injection hltc with he
        subst he
        exact hne (htcn ▸ rfl)
      have hocc_wm : ∀ p ∈ u.working_memory, p.1 ≠ t.wme → r ∉ (p.2 : Wme).tokens := by
        intro p hp hne hmem
        obtain ⟨tc, hltc, htcw⟩ := ho3 p hp r hmem hT0
        rw [hl] at hltc
        injection hltc with he
        subst he
        exact hne (htcw ▸ rfl)
      cases hpar : t.parent with
      | some q =>
        rw [hpar] at h
        dsimp only at h
        have hocc_tk : ∀ p ∈ u.tokens, p.1 ≠ q → r ∉ (p.2 : Token).children := by
          intro p hp hne hmem
          obtain ⟨tc, hltc, htcp⟩ := ho1 p hp r hmem hT0
          rw [hl] at hltc
          injection hltc with he
          subst he
          rw [hpar] at htcp
          injection htcp with he2
          exact hne he2.symm
        have hndtA : ((aupdate (fun pt => { pt with children := retainNe pt.children r }) q u.tokens).map Prod.fst).Nodup := by
          rw [aupdate_keys]
          exact hndt
        cases hfold : t.children.foldlM (fun st c => delete_self_and_descendants fuel st c)
            { u with tokens := aupdate (fun pt => { pt with children := retainNe pt.children r }) q u.tokens } with
        | none =>
          rw [hfold] at h
          cases h
        | some ub =>
          rw [hfold] at h
          dsimp only at h
          obtain ⟨Dch, hShA, hdeadch, hbnd⟩ :=
            FOLD t.children { u with tokens := aupdate (fun pt => { pt with children := retainNe pt.children r }) q u.tokens } ub hfold hchT0
              (tokOK_detach T0 r q u htok) (occOK_detach T0 r q u hocc) hndtA hndn
          obtain ⟨sA1, sA2, sA3, sA4, sA5, sA6, sA7, sA8, sA9, hDnewA, htkA, hwmA, hndA, hclA⟩ :=
            hShA
          have htkA2 : ub.tokens = tkErase Dch (aupdate (fun pt => { pt with children := retainNe pt.children r }) q u.tokens) := htkA
          have hwmA2 : ub.working_memory = wmErase Dch u.working_memory := hwmA
          have hndA2 : ub.nodes = ndErase Dch u.nodes := hndA
          have hclA2 : ∀ p ∈ (aupdate (fun pt => { pt with children := retainNe pt.children r }) q u.tokens), p.1 ∈ Dch → ∀ c ∈ (p.2 : Token).children, c ∈ Dch :=
            hclA
          have hrD : r ∉ Dch := by
            intro hm
            obtain ⟨c, hc, hcd⟩ := hbnd r hm
            exact absurd (lt_of_lt_of_le (hchgt c hc) hcd) (lt_irrefl r)
          cases howner : alookup ub.nodes t.node with
          | none =>
            rw [howner] at h
            cases h
          | some owner =>
            rw [howner] at h
            dsimp only at h
            have howner2 : (alookup u.nodes t.node).map (nodeErase Dch) = some owner := by
              rw [← alookup_ndErase, ← hndA2]
              exact howner
            obtain ⟨n0, hn0, hn0e⟩ := Option.map_eq_some'.mp howner2
            cases hrm : owner.remove_token r with
            | none =>
              rw [hrm] at h
              cases h
            | some owner2 =>
              rw [hrm] at h
              dsimp only at h
              injection h with h1
              subst h1
              cases n0 with
              | join a b c d =>
                rw [← hn0e] at hrm
                simp [nodeErase, Node.remove_token] at hrm
              | production a b =>
                rw [← hn0e] at hrm
                simp [nodeErase, Node.remove_token] at hrm
              | beta bp bc bi =>
                have howe : owner = Node.beta bp bc (bi.filter (fun c => c ∉ Dch)) := by
                  rw [← hn0e]
                  rfl
                rw [howe] at hrm
                simp only [Node.remove_token] at hrm
                injection hrm with how2
                refine ⟨Dch ++ [r], ⟨sA1, sA2, sA3, sA4, sA5, sA6, sA7, sA8, sA9, ?_, ?_, ?_, ?_, ?_⟩, ?_, ?_⟩
                · intro d hd
                  rcases List.mem_append.mp hd with h1 | h1
                  · exact hDnewA d h1
                  · rw [List.mem_singleton.mp h1]
                    exact hT0
                · show aerase r ub.tokens = tkErase (Dch ++ [r]) u.tokens
                  rw [htkA2]
                  exact tkErase_delete_root Dch r q u.tokens hrD hocc_tk
                · show aupdate (fun w => { w with tokens := retainNe w.tokens r }) t.wme
                      ub.working_memory = wmErase (Dch ++ [r]) u.working_memory
                  rw [hwmA2]
                  exact wmErase_delete_root Dch r t.wme u.working_memory hocc_wm
                · show aupdate (fun _ => owner2) t.node ub.nodes
                      = ndErase (Dch ++ [r]) u.nodes
                  rw [← how2, hndA2]
                  exact ndErase_delete_root Dch r t.node u.nodes bp bc bi hndn hocc_nd hn0
                · intro p hp hmem c hc
                  rcases List.mem_append.mp hmem with h1 | h1
                  · have hpA := mem_aupdate_of_mem (fun pt => { pt with children := retainNe pt.children r }) q hp
                    by_cases hpq : p.1 = q
                    · rw [if_pos hpq] at hpA
                      by_cases hcr : c = r
                      · exact List.mem_append_right _ (by simp [hcr])
                      · have hcm : c ∈ retainNe p.2.children r :=
                          (mem_retainNe _ _ _).mpr ⟨hc, hcr⟩
                        exact List.mem_append_left _ (hclA2 _ hpA h1 c hcm)
                    · rw [if_neg hpq] at hpA
                      exact List.mem_append_left _ (hclA2 p hpA h1 c hc)
                  · have hpr : p.1 = r := List.mem_singleton.mp h1
                    have hlp := alookup_eq_of_mem_nodup hndt hp
                    rw [hpr, hl] at hlp
                    injection hlp with hpt
                    have hct : c ∈ t.children := by
                      rw [hpt]
                      exact hc
                    have hdead := hdeadch c hct
                    obtain ⟨tc, hltc, -⟩ := ho1 (r, t) hmemt c hct (hchT0 c hct)
                    rw [htkA2, alookup_tkErase] at hdead
                    by_cases hcD : c ∈ Dch
                    · exact List.mem_append_left _ hcD
                    · exfalso
                      rw [if_neg hcD] at hdead
                      rcases alookup_aupdate_cases (fun pt => { pt with children := retainNe pt.children r }) q c u.tokens with he | he <;>
                        rw [he, hltc] at hdead <;> exact Option.noConfusion hdead
                · show alookup (aerase r ub.tokens) r = none
                  rw [htkA2, tkErase_delete_root Dch r q u.tokens hrD hocc_tk,
                    alookup_tkErase, if_pos (List.mem_append_right Dch (by simp))]
                · intro d hd
                  rcases List.mem_append.mp hd with h1 | h1
                  · obtain ⟨c, hc, hcd⟩ := hbnd d h1
                    exact le_of_lt (lt_of_lt_of_le (hchgt c hc) hcd)
                  · rw [List.mem_singleton.mp h1]
      | none =>
        rw [hpar] at h
        dsimp only at h
        have hocc_tk : ∀ p ∈ u.tokens, r ∉ (p.2 : Token).children := by
          intro p hp hmem
          obtain ⟨tc, hltc, htcp⟩ := ho1 p hp r hmem hT0
          rw [hl] at hltc
          injection hltc with he
          subst he
          rw [hpar] at htcp
          exact Option.noConfusion htcp
        cases hfold : t.children.foldlM (fun st c => delete_self_and_descendants fuel st c)
            u with
        | none =>
          rw [hfold] at h
          cases h
        | some ub =>
          rw [hfold] at h
          dsimp only at h
          obtain ⟨Dch, hShA, hdeadch, hbnd⟩ :=
            FOLD t.children u ub hfold hchT0 htok hocc hndt hndn
          obtain ⟨sA1, sA2, sA3, sA4, sA5, sA6, sA7, sA8, sA9, hDnewA, htkA, hwmA, hndA, hclA⟩ :=
            hShA
          have hrD : r ∉ Dch := by
            intro hm
            obtain ⟨c, hc, hcd⟩ := hbnd r hm
            exact absurd (lt_of_lt_of_le (hchgt c hc) hcd) (lt_irrefl r)
          cases howner : alookup ub.nodes t.node with
          | none =>
            rw [howner] at h
            cases h
          | some owner =>
            rw [howner] at h
            dsimp only at h
            have howner2 : (alookup u.nodes t.node).map (nodeErase Dch) = some owner := by
              rw [← alookup_ndErase, ← hndA]
              exact howner
            obtain ⟨n0, hn0, hn0e⟩ := Option.map_eq_some'.mp howner2
            cases hrm : owner.remove_token r with
            | none =>
              rw [hrm] at h
              cases h
            | some owner2 =>
              rw [hrm] at h
              dsimp only at h
              injection h with h1
              subst h1
              cases n0 with
              | join a b c d =>
                rw [← hn0e] at hrm
                simp [nodeErase, Node.remove_token] at hrm
              | production a b =>
                rw [← hn0e] at hrm
                simp [nodeErase, Node.remove_token] at hrm
              | beta bp bc bi =>
                have howe : owner = Node.beta bp bc (bi.filter (fun c => c ∉ Dch)) := by
                  rw [← hn0e]
                  rfl
                rw [howe] at hrm
                simp only [Node.remove_token] at hrm
                injection hrm with how2
                refine ⟨Dch ++ [r], ⟨sA1, sA2, sA3, sA4, sA5, sA6, sA7, sA8, sA9, ?_, ?_, ?_, ?_, ?_⟩, ?_, ?_⟩
                · intro d hd
                  rcases List.mem_append.mp hd with h1 | h1
                  · exact hDnewA d h1
                  · rw [List.mem_singleton.mp h1]
                    exact hT0
                · show aerase r ub.tokens = tkErase (Dch ++ [r]) u.tokens
                  rw [htkA]
                  exact tkErase_delete_root_noparent Dch r u.tokens hocc_tk
                · show aupdate (fun w => { w with tokens := retainNe w.tokens r }) t.wme
                      ub.working_memory = wmErase (Dch ++ [r]) u.working_memory
                  rw [hwmA]
                  exact wmErase_delete_root Dch r t.wme u.working_memory hocc_wm
                · show aupdate (fun _ => owner2) t.node ub.nodes
                      = ndErase (Dch ++ [r]) u.nodes
                  rw [← how2, hndA]
                  exact ndErase_delete_root Dch r t.node u.nodes bp bc bi hndn hocc_nd hn0
                · intro p hp hmem c hc
                  rcases List.mem_append.mp hmem with h1 | h1
                  · exact List.mem_append_left _ (hclA p hp h1 c hc)
                  · have hpr : p.1 = r := List.mem_singleton.mp h1
                    have hlp := alookup_eq_of_mem_nodup hndt hp
                    rw [hpr, hl] at hlp
                    injection hlp with hpt
                    have hct : c ∈ t.children := by
                      rw [hpt]
                      exact hc
                    have hdead := hdeadch c hct
                    obtain ⟨tc, hltc, -⟩ := ho1 (r, t) hmemt c hct (hchT0 c hct)
                    rw [htkA, alookup_tkErase] at hdead
                    by_cases hcD : c ∈ Dch
                    · exact List.mem_append_left _ hcD
                    · exfalso
                      rw [if_neg hcD, hltc] at hdead
                      exact Option.noConfusion hdead
                · show alookup (aerase r ub.tokens) r = none
                  rw [htkA, tkErase_delete_root_noparent Dch r u.tokens hocc_tk,
                    alookup_tkErase, if_pos (List.mem_append_right Dch (by simp))]
                · intro d hd
                  rcases List.mem_append.mp hd with h1 | h1
                  · obtain ⟨c, hc, hcd⟩ := hbnd d h1
                    exact le_of_lt (lt_of_lt_of_le (hchgt c hc) hcd)
                  · rw [List.mem_singleton.mp h1]


/-- The token back-reference list of the working-memory entry for `id`. -/
def wTokens (v : Rete) (id : Nat) : List Nat :=
  ((alookup v.working_memory id).map Wme.tokens).getD []

/-- No join node has a join node among its children (true of networks built
by `add_production`, where join children are beta memories or productions). -/
def joinFree (v : Rete) : Prop :=
  ∀ p ∈ v.nodes, ∀ pa am cs ts, p.2 = Node.join pa am cs ts →
    ∀ c ∈ cs, ∀ pa2 am2 cs2 ts2, alookup v.nodes c ≠ some (Node.join pa2 am2 cs2 ts2)

/-- Invariant maintained by the activation cascade of `add_wme`: counters
bound all keys, token keys are distinct, new tokens are well-shaped
(`tokOK`), every new occurrence is backed by a live token (`occOK`), new
child tokens are registered at their parents (`regOK`), beta items are
bounded, the new WME entry is present with only new back-references, and
every live new token either is a back-reference of the new WME or has a
live new parent. -/
def CInv (T0 id : Nat) (v : Rete) : Prop :=
  T0 ≤ v.token_ids ∧
  (∀ p ∈ v.tokens, p.1 < v.token_ids) ∧
  (v.tokens.map Prod.fst).Nodup ∧
  tokOK T0 v ∧ occOK T0 v ∧ regOK T0 v ∧
  (∀ p ∈ v.nodes, ∀ i ∈ nodeItems p.2, i < v.token_ids) ∧
  (alookup v.working_memory id).isSome = true ∧
  (∀ c ∈ wTokens v id, T0 ≤ c) ∧
  (∀ p ∈ v.tokens, T0 ≤ p.1 →
    ((p.2 : Token).wme = id ∧ p.1 ∈ wTokens v id) ∨
    (∃ q, (p.2 : Token).parent = some q ∧ T0 ≤ q ∧ (alookup v.tokens q).isSome = true)) ∧
  joinFree v

/-- What one cascade step changes: nothing outside tokens, working-memory
back-references, beta items and the token counter; and nothing at all below
the threshold `T0`. -/
def CONC (T0 id0 : Nat) (v v1 : Rete) : Prop :=
  v1.dummy_top_token = v.dummy_top_token ∧
  v1.dummy_top_node = v.dummy_top_node ∧
  v1.constant_tests = v.constant_tests ∧
  v1.wme_alphas = v.wme_alphas ∧
  v1.alphas = v.alphas ∧
  v1.wme_ids = v.wme_ids ∧
  v1.node_ids = v.node_ids ∧
  v1.alpha_ids = v.alpha_ids ∧
  v.token_ids ≤ v1.token_ids ∧
  cleanToks T0 v1.tokens = cleanToks T0 v.tokens ∧
  cleanWms T0 v1.working_memory = cleanWms T0 v.working_memory ∧
  cleanNodes T0 v1.nodes = cleanNodes T0 v.nodes ∧
  (∀ k, (alookup v.tokens k).isSome = true → (alookup v1.tokens k).isSome = true) ∧
  (∀ k, (alookup v1.working_memory k).isSome = (alookup v.working_memory k).isSome) ∧
  (∀ c ∈ wTokens v id0, c ∈ wTokens v1 id0)

theorem CONC_refl (T0 id0 : Nat) (v : Rete) : CONC T0 id0 v v :=
  ⟨rfl, rfl, rfl, rfl, rfl, rfl, rfl, rfl, le_refl _, rfl, rfl, rfl,
    fun _ h => h, fun _ => rfl, fun _ hc => hc⟩

theorem CONC_trans {T0 id0 : Nat} {v v1 v2 : Rete}
    (h1 : CONC T0 id0 v v1) (h2 : CONC T0 id0 v1 v2) : CONC T0 id0 v v2 := by
  obtain ⟨a1, b1, c1, d1, e1, f1, g1, i1, j1, k1, l1, m1, n1, o1, p1⟩ := h1
  obtain ⟨a2, b2, c2, d2, e2, f2, g2, i2, j2, k2, l2, m2, n2, o2, p2⟩ := h2
  exact ⟨a2.trans a1, b2.trans b1, c2.trans c1, d2.trans d1, e2.trans e1, f2.trans f1,
    g2.trans g1, i2.trans i1, le_trans j1 j2, k2.trans k1, l2.trans l1, m2.trans m1,
    fun k h => n2 k (n1 k h), fun k => (o2 k).trans (o1 k), fun c h => p2 c (p1 c h)⟩

theorem aupdate_isSome {κ α : Type} [DecidableEq κ] (f : α → α) (k k' : κ)
    (l : List (κ × α)) :
    (alookup (aupdate f k l) k').isSome = (alookup l k').isSome := by
  rcases alookup_aupdate_cases f k k' l with he | he <;> rw [he] <;>
    cases alookup l k' <;> rfl

theorem alookup_append_of_isSome {κ α : Type} [DecidableEq κ] {l₁ : List (κ × α)}
    (l₂ : List (κ × α)) {k : κ} (h : (alookup l₁ k).isSome = true) :
    alookup (l₁ ++ l₂) k = alookup l₁ k := by
  rw [alookup_append]
  cases hx : alookup l₁ k
  · rw [hx] at h
    exact Bool.noConfusion h
  · rfl

theorem alookup_append_of_none {κ α : Type} [DecidableEq κ] {l₁ : List (κ × α)}
    (l₂ : List (κ × α)) {k : κ} (h : alookup l₁ k = none) :
    alookup (l₁ ++ l₂) k = alookup l₂ k := by
  rw [alookup_append, h]
  rfl


theorem alookup_none_of_bound {α : Type} {l : List (Nat × α)} {n : Nat}
    (h : ∀ p ∈ l, p.1 < n) : alookup l n = none := by
  induction l with
  | nil => rfl
  | cons p l ih =>
    have h1 : p.1 ≠ n := Nat.ne_of_lt (h p (List.mem_cons_self _ _))
    simp [alookup, h1, ih (fun q hq => h q (List.mem_cons_of_mem _ hq))]

theorem token_new_eq (v : Rete) (node pt wid : Nat) :
    token_new v node (some pt) wid = (v.token_ids, ({ v with token_ids := v.token_ids + 1, tokens := (aupdate (fun t => { t with children := t.children ++ [v.token_ids] }) pt (v.tokens ++ [(v.token_ids, { parent := some pt, wme := wid, node := node, children := ([] : List Nat) })])), working_memory := aupdate (fun w => { w with tokens := w.tokens ++ [v.token_ids] }) wid v.working_memory } : Rete)) := rfl

theorem token_new_cinv (T0 id : Nat) (v : Rete) (node pt wid : Nat)
    (hInv : CInv T0 id v)
    (hpt : pt < v.token_ids)
    (hreglive : T0 ≤ pt → (alookup v.tokens pt).isSome = true)
    (hcv : wid = id ∨ (T0 ≤ pt ∧ (alookup v.tokens pt).isSome = true)) :
    CONC T0 id v ({ v with token_ids := v.token_ids + 1, tokens := (aupdate (fun t => { t with children := t.children ++ [v.token_ids] }) pt (v.tokens ++ [(v.token_ids, { parent := some pt, wme := wid, node := node, children := ([] : List Nat) })])), working_memory := aupdate (fun w => { w with tokens := w.tokens ++ [v.token_ids] }) wid v.working_memory } : Rete) ∧ CInv T0 id ({ v with token_ids := v.token_ids + 1, tokens := (aupdate (fun t => { t with children := t.children ++ [v.token_ids] }) pt (v.tokens ++ [(v.token_ids, { parent := some pt, wme := wid, node := node, children := ([] : List Nat) })])), working_memory := aupdate (fun w => { w with tokens := w.tokens ++ [v.token_ids] }) wid v.working_memory } : Rete) ∧
    alookup (({ v with token_ids := v.token_ids + 1, tokens := (aupdate (fun t => { t with children := t.children ++ [v.token_ids] }) pt (v.tokens ++ [(v.token_ids, { parent := some pt, wme := wid, node := node, children := ([] : List Nat) })])), working_memory := aupdate (fun w => { w with tokens := w.tokens ++ [v.token_ids] }) wid v.working_memory } : Rete)).tokens v.token_ids = some { parent := some pt, wme := wid, node := node, children := ([] : List Nat) } := by
  obtain ⟨hi1, hi2, hi3, hi4, hi5, hi6, hi7, hi8, hi9, hi10, hi11⟩ := hInv
  have hT0tid : T0 ≤ v.token_ids := hi1
  have hnotid : alookup v.tokens v.token_ids = none := alookup_none_of_bound hi2
  have htidne : v.token_ids ≠ pt := fun he => absurd (he ▸ hpt) (lt_irrefl _)
  have hstrip : ∀ t : Token, stripTok T0 ((fun t => { t with children := t.children ++ [v.token_ids] }) t) = stripTok T0 t := by
    intro t
    simp [stripTok, List.filter_append, Nat.not_lt.mpr hT0tid]
  have hstripw : ∀ w : Wme, stripWme T0 ((fun w => { w with tokens := w.tokens ++ [v.token_ids] }) w) = stripWme T0 w := by
    intro w
    simp [stripWme, List.filter_append, Nat.not_lt.mpr hT0tid]
  have hlknew : alookup ((aupdate (fun t => { t with children := t.children ++ [v.token_ids] }) pt (v.tokens ++ [(v.token_ids, { parent := some pt, wme := wid, node := node, children := ([] : List Nat) })]))) v.token_ids = some { parent := some pt, wme := wid, node := node, children := ([] : List Nat) } := by
    rw [alookup_aupdate_ne _ _ _ htidne, alookup_append_of_none _ hnotid]
    simp [alookup]
  have hlkold : ∀ k t, alookup v.tokens k = some t →
      ∃ t2, alookup ((aupdate (fun t => { t with children := t.children ++ [v.token_ids] }) pt (v.tokens ++ [(v.token_ids, { parent := some pt, wme := wid, node := node, children := ([] : List Nat) })]))) k = some t2 ∧ t2.parent = t.parent ∧ t2.node = t.node ∧
        t2.wme = t.wme ∧ t.children ⊆ t2.children := by
    intro k t hk
    have hk0 : alookup ((v.tokens ++ [(v.token_ids, { parent := some pt, wme := wid, node := node, children := ([] : List Nat) })])) k = some t := by
      rw [alookup_append_of_isSome _ (by rw [hk]; rfl), hk]
    rcases alookup_aupdate_cases (fun t => { t with children := t.children ++ [v.token_ids] }) pt k ((v.tokens ++ [(v.token_ids, { parent := some pt, wme := wid, node := node, children := ([] : List Nat) })])) with he | he
    · exact ⟨t, by rw [he, hk0], rfl, rfl, rfl, fun c hc => hc⟩
    · refine ⟨(fun t => { t with children := t.children ++ [v.token_ids] }) t, by rw [he, hk0]; rfl, rfl, rfl, rfl, ?_⟩
      intro c hc
      exact List.mem_append_left _ hc
  have hlive : ∀ k, (alookup v.tokens k).isSome = true →
      (alookup ((aupdate (fun t => { t with children := t.children ++ [v.token_ids] }) pt (v.tokens ++ [(v.token_ids, { parent := some pt, wme := wid, node := node, children := ([] : List Nat) })]))) k).isSome = true := by
    intro k hk
    cases hx : alookup v.tokens k with
    | none => rw [hx] at hk; exact Bool.noConfusion hk
    | some t =>
      obtain ⟨t2, hl2, -⟩ := hlkold k t hx
      rw [hl2]
      rfl
  have hwtok : ∀ c ∈ wTokens v id, c ∈ wTokens (({ v with token_ids := v.token_ids + 1, tokens := (aupdate (fun t => { t with children := t.children ++ [v.token_ids] }) pt (v.tokens ++ [(v.token_ids, { parent := some pt, wme := wid, node := node, children := ([] : List Nat) })])), working_memory := aupdate (fun w => { w with tokens := w.tokens ++ [v.token_ids] }) wid v.working_memory } : Rete)) id := by
    intro c hc
    show c ∈ ((alookup (aupdate (fun w => { w with tokens := w.tokens ++ [v.token_ids] }) wid v.working_memory) id).map Wme.tokens).getD []
    unfold wTokens at hc
    by_cases hw : wid = id
    · subst hw
      rw [alookup_aupdate_self]
      cases hx : alookup v.working_memory wid with
      | none =>
        rw [hx] at hc
        simp at hc
      | some w =>
        rw [hx] at hc
        simp only [Option.map, Option.getD] at hc ⊢
        exact List.mem_append_left _ hc
    · rw [alookup_aupdate_ne _ _ _ (fun he => hw he.symm)]
      exact hc
  have hwtid : wid = id → v.token_ids ∈ wTokens (({ v with token_ids := v.token_ids + 1, tokens := (aupdate (fun t => { t with children := t.children ++ [v.token_ids] }) pt (v.tokens ++ [(v.token_ids, { parent := some pt, wme := wid, node := node, children := ([] : List Nat) })])), working_memory := aupdate (fun w => { w with tokens := w.tokens ++ [v.token_ids] }) wid v.working_memory } : Rete)) id := by
    intro hw
    subst hw
    show v.token_ids ∈ ((alookup (aupdate (fun w => { w with tokens := w.tokens ++ [v.token_ids] }) wid v.working_memory) wid).map Wme.tokens).getD []
    rw [alookup_aupdate_self]
    cases hx : alookup v.working_memory wid with
    | none =>
      rw [hx] at hi8
      exact Bool.noConfusion hi8
    | some w =>
      simp only [Option.map, Option.getD]
      exact List.mem_append_right _ (List.mem_singleton.mpr rfl)
  have hmem1 : ∀ p : Nat × Token, p ∈ ((aupdate (fun t => { t with children := t.children ++ [v.token_ids] }) pt (v.tokens ++ [(v.token_ids, { parent := some pt, wme := wid, node := node, children := ([] : List Nat) })]))) →
      (∃ p0 : Nat × Token, p0 ∈ v.tokens ∧
        ((p0.1 = pt ∧ p = (p0.1, (fun t => { t with children := t.children ++ [v.token_ids] }) p0.2)) ∨ (p0.1 ≠ pt ∧ p = p0))) ∨
      p = (v.token_ids, { parent := some pt, wme := wid, node := node, children := ([] : List Nat) }) := by
    intro p hp
    obtain ⟨p0, hp0, he⟩ := (mem_aupdate_iff _ _).mp hp
    rcases List.mem_append.mp hp0 with hin | hone
    · left
      refine ⟨p0, hin, ?_⟩
      by_cases hq : p0.1 = pt
      · rw [if_pos hq] at he
        exact Or.inl ⟨hq, he⟩
      · rw [if_neg hq] at he
        exact Or.inr ⟨hq, he⟩
    · right
      have he2 : p0 = (v.token_ids, { parent := some pt, wme := wid, node := node, children := ([] : List Nat) }) := List.mem_singleton.mp hone
      rw [he2] at he
      dsimp only at he
      rw [if_neg htidne] at he
      exact he
  refine ⟨⟨rfl, rfl, rfl, rfl, rfl, rfl, rfl, rfl, Nat.le_succ _, ?_, ?_, rfl, hlive, ?_, hwtok⟩,
    ⟨le_trans hi1 (Nat.le_succ _), ?_, ?_, ?_, ?_, ?_, ?_, ?_, ?_, ?_, hi11⟩, hlknew⟩
  · show cleanToks T0 ((aupdate (fun t => { t with children := t.children ++ [v.token_ids] }) pt (v.tokens ++ [(v.token_ids, { parent := some pt, wme := wid, node := node, children := ([] : List Nat) })]))) = cleanToks T0 v.tokens
    rw [cleanToks_aupdate T0 _ pt (fun t => { t with children := t.children ++ [v.token_ids] }) hstrip, cleanToks_append_new T0 v.tokens _ _ hT0tid]
  · show cleanWms T0 (aupdate (fun w => { w with tokens := w.tokens ++ [v.token_ids] }) wid v.working_memory) = cleanWms T0 v.working_memory
    exact cleanWms_aupdate T0 _ wid (fun w => { w with tokens := w.tokens ++ [v.token_ids] }) hstripw
  · intro k
    exact aupdate_isSome (fun w => { w with tokens := w.tokens ++ [v.token_ids] }) wid k v.working_memory
  · intro p hp
    rcases hmem1 p hp with ⟨p0, hp0, hcase⟩ | hnew
    · have hb : p0.1 < v.token_ids := hi2 p0 hp0
      rcases hcase with ⟨-, he⟩ | ⟨-, he⟩
      · rw [he]
        exact lt_trans hb (Nat.lt_succ_self _)
      · rw [he]
        exact lt_trans hb (Nat.lt_succ_self _)
    · rw [hnew]
      exact Nat.lt_succ_self _
  · show (((aupdate (fun t => { t with children := t.children ++ [v.token_ids] }) pt (v.tokens ++ [(v.token_ids, { parent := some pt, wme := wid, node := node, children := ([] : List Nat) })]))).map Prod.fst).Nodup
    rw [aupdate_keys, List.map_append]
    simp only [List.map]
    rw [List.nodup_append]
    refine ⟨hi3, List.nodup_singleton _, ?_⟩
    intro a ha hb
    rw [List.mem_singleton.mp hb] at ha
    obtain ⟨p0, hp0, he⟩ := List.mem_map.mp ha
    exact absurd (he ▸ hi2 p0 hp0) (lt_irrefl _)
  · intro p hp hT
    rcases hmem1 p hp with ⟨p0, hp0, hcase⟩ | hnew
    · rcases hcase with ⟨hq, he⟩ | ⟨-, he⟩
      · rw [he] at hT ⊢
        obtain ⟨hch, hpar⟩ := hi4 p0 hp0 hT
        refine ⟨?_, hpar⟩
        intro c hc
        rcases List.mem_append.mp hc with hcin | hcone
        · exact hch c hcin
        · rw [List.mem_singleton.mp hcone]
          exact hT0tid
      · rw [he] at hT ⊢
        exact hi4 p0 hp0 hT
    · rw [hnew]
      refine ⟨fun c hc => absurd hc (List.not_mem_nil c), ?_⟩
      intro q hq
      injection hq with hq2
      rw [← hq2]
      exact hpt
  · refine ⟨?_, ?_, ?_⟩
    · intro p hp c hc hT
      rcases hmem1 p hp with ⟨p0, hp0, hcase⟩ | hnew
      · rcases hcase with ⟨hq, he⟩ | ⟨-, he⟩
        · rw [he] at hc
          rcases List.mem_append.mp hc with hcin | hcone
          · obtain ⟨t, hlt, htp⟩ := hi5.1 p0 hp0 c hcin hT
            obtain ⟨t2, hl2, hpp, -, -, -⟩ := hlkold c t hlt
            rw [he]
            exact ⟨t2, hl2, by rw [hpp, htp]⟩
          · rw [List.mem_singleton.mp hcone]
            rw [he]
            refine ⟨{ parent := some pt, wme := wid, node := node, children := ([] : List Nat) }, hlknew, ?_⟩
            rw [hq]
        · rw [he] at hc
          obtain ⟨t, hlt, htp⟩ := hi5.1 p0 hp0 c hc hT
          obtain ⟨t2, hl2, hpp, -, -, -⟩ := hlkold c t hlt
          rw [he]
          exact ⟨t2, hl2, by rw [hpp, htp]⟩
      · rw [hnew] at hc
        cases hc
    · intro p hp i hi hT
      obtain ⟨t, hlt, htn⟩ := hi5.2.1 p hp i hi hT
      obtain ⟨t2, hl2, -, hnn, -, -⟩ := hlkold i t hlt
      exact ⟨t2, hl2, by rw [hnn, htn]⟩
    · intro p hp i hi hT
      obtain ⟨p0, hp0, he⟩ := (mem_aupdate_iff _ _).mp hp
      by_cases hw : p0.1 = wid
      · rw [if_pos hw] at he
        rw [he] at hi ⊢
        rcases List.mem_append.mp hi with hiin | hione
        · obtain ⟨t, hlt, htw⟩ := hi5.2.2 p0 hp0 i hiin hT
          obtain ⟨t2, hl2, -, -, hww, -⟩ := hlkold i t hlt
          exact ⟨t2, hl2, by rw [hww, htw]⟩
        · rw [List.mem_singleton.mp hione]
          refine ⟨{ parent := some pt, wme := wid, node := node, children := ([] : List Nat) }, hlknew, ?_⟩
          rw [hw]
      · rw [if_neg hw] at he
        rw [he] at hi ⊢
        obtain ⟨t, hlt, htw⟩ := hi5.2.2 p0 hp0 i hi hT
        obtain ⟨t2, hl2, -, -, hww, -⟩ := hlkold i t hlt
        exact ⟨t2, hl2, by rw [hww, htw]⟩
  · intro p hp hT q hq hqT
    rcases hmem1 p hp with ⟨p0, hp0, hcase⟩ | hnew
    · have hreg0 : ∃ tq, alookup v.tokens q = some tq ∧ p0.1 ∈ tq.children := by
        rcases hcase with ⟨-, he⟩ | ⟨-, he⟩
        · rw [he] at hT hq
          exact hi6 p0 hp0 hT q hq hqT
        · rw [he] at hT hq
          exact hi6 p0 hp0 hT q hq hqT
      obtain ⟨tq, hltq, hmq⟩ := hreg0
      obtain ⟨t2, hl2, -, -, -, hsub⟩ := hlkold q tq hltq
      have hkey : p.1 = p0.1 := by
        rcases hcase with ⟨-, he⟩ | ⟨-, he⟩ <;> rw [he]
      rw [hkey]
      exact ⟨t2, hl2, hsub hmq⟩
    · rw [hnew] at hq ⊢
      injection hq with hq2
      subst hq2
      have hql := hreglive hqT
      cases hx : alookup v.tokens pt with
      | none => rw [hx] at hql; exact Bool.noConfusion hql
      | some tq =>
        have hk0 : alookup ((v.tokens ++ [(v.token_ids, { parent := some pt, wme := wid, node := node, children := ([] : List Nat) })])) pt = some tq := by
          rw [alookup_append_of_isSome _ (by rw [hx]; rfl), hx]
        refine ⟨(fun t => { t with children := t.children ++ [v.token_ids] }) tq, ?_, ?_⟩
        · show alookup ((aupdate (fun t => { t with children := t.children ++ [v.token_ids] }) pt (v.tokens ++ [(v.token_ids, { parent := some pt, wme := wid, node := node, children := ([] : List Nat) })]))) pt = some ((fun t => { t with children := t.children ++ [v.token_ids] }) tq)
          rw [alookup_aupdate_self, hk0]
          rfl
        · exact List.mem_append_right _ (List.mem_singleton.mpr rfl)
  · intro p hp i hi
    exact lt_trans (hi7 p hp i hi) (Nat.lt_succ_self _)
  · show (alookup (aupdate (fun w => { w with tokens := w.tokens ++ [v.token_ids] }) wid v.working_memory) id).isSome = true
    rw [aupdate_isSome]
    exact hi8
  · intro c hc
    have hc2 : c ∈ ((alookup (aupdate (fun w => { w with tokens := w.tokens ++ [v.token_ids] }) wid v.working_memory) id).map Wme.tokens).getD [] :=
      hc
    by_cases hw : wid = id
    · subst hw
      rw [alookup_aupdate_self] at hc2
      cases hx : alookup v.working_memory wid with
      | none =>
        rw [hx] at hc2
        simp at hc2
      | some w =>
        rw [hx] at hc2
        simp only [Option.map, Option.getD] at hc2
        rcases List.mem_append.mp hc2 with hcin | hcone
        · refine hi9 c ?_
          unfold wTokens
          rw [hx]
          exact hcin
        · rw [List.mem_singleton.mp hcone]
          exact hT0tid
    · rw [alookup_aupdate_ne _ _ _ (fun he => hw he.symm)] at hc2
      exact hi9 c hc2
  · intro p hp hT
    rcases hmem1 p hp with ⟨p0, hp0, hcase⟩ | hnew
    · have hT0 : T0 ≤ p0.1 := by
        rcases hcase with ⟨-, he⟩ | ⟨-, he⟩ <;> rw [he] at hT <;> exact hT
      have hflds : (p.2 : Token).wme = (p0.2 : Token).wme ∧
          (p.2 : Token).parent = (p0.2 : Token).parent ∧ p.1 = p0.1 := by
        rcases hcase with ⟨-, he⟩ | ⟨-, he⟩ <;> rw [he] <;> exact ⟨rfl, rfl, rfl⟩
      rcases hi10 p0 hp0 hT0 with ⟨hw, hmem⟩ | ⟨q, hq, hqT, hqlive⟩
      · left
        refine ⟨hflds.1.trans hw, ?_⟩
        rw [hflds.2.2]
        exact hwtok p0.1 hmem
      · right
        exact ⟨q, hflds.2.1.trans hq, hqT, hlive q hqlive⟩
    · rw [hnew]
      rcases hcv with hw | ⟨hptT, hptl⟩
      · left
        exact ⟨hw, hwtid hw⟩
      · right
        exact ⟨pt, rfl, hptT, hlive pt hptl⟩


theorem join_lookup_of_CONC {T0 id0 : Nat} {w w1 : Rete} (h : CONC T0 id0 w w1) (c : Nat)
    (pa : Nat) (am : Nat) (cs : List Nat) (ts : List TestAtJoinNode)
    (hj : alookup w1.nodes c = some (Node.join pa am cs ts)) :
    alookup w.nodes c = some (Node.join pa am cs ts) := by
  obtain ⟨-, -, -, -, -, -, -, -, -, -, -, hnd, -, -, -⟩ := h
  have h1 := alookup_cleanNodes T0 w1.nodes c
  rw [hnd, alookup_cleanNodes, hj] at h1
  obtain ⟨n, hn, hne⟩ := Option.map_eq_some'.mp h1
  cases n with
  | beta a b d =>
    exact absurd hne (by simp [stripNode])
  | production a b =>
    exact absurd hne (by simp [stripNode])
  | join a b d e =>
    rw [hn]
    simp only [stripNode] at hne
    rw [hne]


theorem activate_left_cinv (T0 id : Nat) : ∀ (fuel : Nat) (v : Rete) (node pt wid : Nat),
    CInv T0 id v →
    pt < v.token_ids →
    (T0 ≤ pt → (alookup v.tokens pt).isSome = true) →
    (wid = id ∨ (T0 ≤ pt ∧ (alookup v.tokens pt).isSome = true)) →
    (∀ pa am cs ts, alookup v.nodes node = some (Node.join pa am cs ts) →
      T0 ≤ pt ∧ (alookup v.tokens pt).isSome = true) →
    CONC T0 id v (activate_left fuel v node pt wid) ∧
    CInv T0 id (activate_left fuel v node pt wid) := by
  intro fuel
  induction fuel with
  | zero =>
    intro v node pt wid hInv _ _ _ _
    exact ⟨CONC_refl T0 id v, hInv⟩
  | succ fuel IH =>
    intro v node pt wid hInv hpt hlivept hcv hjoin
    have hInvc := hInv
    unfold CInv at hInvc
    obtain ⟨hT0tid, hkb, -, -, -, -, -, -, -, -, hjf⟩ := hInvc
    cases hn : alookup v.nodes node with
    | none =>
      rw [show activate_left (fuel + 1) v node pt wid = v from by
        simp only [activate_left]
        rw [hn]]
      exact ⟨CONC_refl T0 id v, hInv⟩
    | some nd =>
      cases nd with
      | production a b =>
        rw [show activate_left (fuel + 1) v node pt wid = v from by
          simp only [activate_left]
          rw [hn]]
        exact ⟨CONC_refl T0 id v, hInv⟩
      | beta bp bch bi =>
        rw [show activate_left (fuel + 1) v node pt wid =
            bch.foldl (fun st c => activate_left fuel st c v.token_ids wid) ({ ({ v with token_ids := v.token_ids + 1, tokens := (aupdate (fun t => { t with children := t.children ++ [v.token_ids] }) pt (v.tokens ++ [(v.token_ids, { parent := some pt, wme := wid, node := node, children := ([] : List Nat) })])), working_memory := aupdate (fun w => { w with tokens := w.tokens ++ [v.token_ids] }) wid v.working_memory } : Rete) with nodes := aupdate (fun n => match n with | Node.beta p c i => Node.beta p c (i ++ [v.token_ids]) | other => other) node v.nodes } : Rete) from by
          simp only [activate_left]
          rw [hn]
          rfl]
        obtain ⟨hC1, hI1, hlktid⟩ := token_new_cinv T0 id v node pt wid hInv hpt hlivept hcv
        have hstripn : ∀ n : Node, stripNode T0 ((fun n => match n with | Node.beta p c i => Node.beta p c (i ++ [v.token_ids]) | other => other) n) = stripNode T0 n := by
          intro n
          cases n with
          | beta p c i =>
            simp [stripNode, List.filter_append, Nat.not_lt.mpr hT0tid]
          | join p a c t => rfl
          | production p q => rfl
        have hfb_join : ∀ (n : Node) (pa2 : Nat) (am2 : Nat) (cs2 : List Nat)
            (ts2 : List TestAtJoinNode), (fun n => match n with | Node.beta p c i => Node.beta p c (i ++ [v.token_ids]) | other => other) n = Node.join pa2 am2 cs2 ts2 →
            n = Node.join pa2 am2 cs2 ts2 := by
          intro n pa2 am2 cs2 ts2 hn2
          cases n with
          | beta p c i => exact absurd hn2 (by simp)
          | join p a c t => exact hn2
          | production p q => exact absurd hn2 (by simp)
        have hC2 : CONC T0 id ({ v with token_ids := v.token_ids + 1, tokens := (aupdate (fun t => { t with children := t.children ++ [v.token_ids] }) pt (v.tokens ++ [(v.token_ids, { parent := some pt, wme := wid, node := node, children := ([] : List Nat) })])), working_memory := aupdate (fun w => { w with tokens := w.tokens ++ [v.token_ids] }) wid v.working_memory } : Rete) ({ ({ v with token_ids := v.token_ids + 1, tokens := (aupdate (fun t => { t with children := t.children ++ [v.token_ids] }) pt (v.tokens ++ [(v.token_ids, { parent := some pt, wme := wid, node := node, children := ([] : List Nat) })])), working_memory := aupdate (fun w => { w with tokens := w.tokens ++ [v.token_ids] }) wid v.working_memory } : Rete) with nodes := aupdate (fun n => match n with | Node.beta p c i => Node.beta p c (i ++ [v.token_ids]) | other => other) node v.nodes } : Rete) := by
          refine ⟨rfl, rfl, rfl, rfl, rfl, rfl, rfl, rfl, le_refl _, rfl, rfl, ?_,
            fun _ h => h, fun _ => rfl, fun _ hc => hc⟩
          show cleanNodes T0 (aupdate (fun n => match n with | Node.beta p c i => Node.beta p c (i ++ [v.token_ids]) | other => other) node v.nodes) = cleanNodes T0 v.nodes
          exact cleanNodes_aupdate T0 v.nodes node (fun n => match n with | Node.beta p c i => Node.beta p c (i ++ [v.token_ids]) | other => other) hstripn
        have hI2 : CInv T0 id ({ ({ v with token_ids := v.token_ids + 1, tokens := (aupdate (fun t => { t with children := t.children ++ [v.token_ids] }) pt (v.tokens ++ [(v.token_ids, { parent := some pt, wme := wid, node := node, children := ([] : List Nat) })])), working_memory := aupdate (fun w => { w with tokens := w.tokens ++ [v.token_ids] }) wid v.working_memory } : Rete) with nodes := aupdate (fun n => match n with | Node.beta p c i => Node.beta p c (i ++ [v.token_ids]) | other => other) node v.nodes } : Rete) := by
          have hI1c := hI1
          unfold CInv at hI1c
          obtain ⟨j1, j2, j3, j4, j5, j6, j7, j8, j9, j10, j11⟩ := hI1c
          refine ⟨j1, j2, j3, j4, ⟨j5.1, ?_, j5.2.2⟩, j6, ?_, j8, j9, j10, ?_⟩
          · intro p hp i hi hT
            obtain ⟨p0, hp0, he⟩ := (mem_aupdate_iff _ _).mp hp
            by_cases hk : p0.1 = node
            · rw [if_pos hk] at he
              cases hn0 : p0.2 with
              | beta p2 c2 i2 =>
                rw [he, hn0] at hi
                simp only [nodeItems] at hi
                rcases List.mem_append.mp hi with hiin | hione
                · have := j5.2.1 p0 hp0 i (by rw [hn0]; exact hiin) hT
                  obtain ⟨t, hlt, htn⟩ := this
                  refine ⟨t, hlt, ?_⟩
                  rw [htn, he]
                · rw [List.mem_singleton.mp hione]
                  refine ⟨{ parent := some pt, wme := wid, node := node, children := ([] : List Nat) }, hlktid, ?_⟩
                  rw [he]
                  show node = p0.1
                  rw [hk]
              | join p2 a2 c2 t2 =>
                rw [he, hn0] at hi
                simp only [nodeItems] at hi
                cases hi
              | production p2 q2 =>
                rw [he, hn0] at hi
                simp only [nodeItems] at hi
                cases hi
            · rw [if_neg hk] at he
              rw [he] at hi
              obtain ⟨t, hlt, htn⟩ := j5.2.1 p0 hp0 i hi hT
              refine ⟨t, hlt, ?_⟩
              rw [htn, he]
          · intro p hp i hi
            obtain ⟨p0, hp0, he⟩ := (mem_aupdate_iff _ _).mp hp
            by_cases hk : p0.1 = node
            · rw [if_pos hk] at he
              cases hn0 : p0.2 with
              | beta p2 c2 i2 =>
                rw [he, hn0] at hi
                simp only [nodeItems] at hi
                rcases List.mem_append.mp hi with hiin | hione
                · exact j7 p0 hp0 i (by rw [hn0]; exact hiin)
                · rw [List.mem_singleton.mp hione]
                  exact Nat.lt_succ_self _
              | join p2 a2 c2 t2 =>
                rw [he, hn0] at hi
                simp only [nodeItems] at hi
                cases hi
              | production p2 q2 =>
                rw [he, hn0] at hi
                simp only [nodeItems] at hi
                cases hi
            · rw [if_neg hk] at he
              rw [he] at hi
              exact j7 p0 hp0 i hi
          · intro p hp pa am cs ts hpj c hc pa2 am2 cs2 ts2 hlc
            obtain ⟨p0, hp0, he⟩ := (mem_aupdate_iff _ _).mp hp
            have hp0j : p0.2 = Node.join pa am cs ts := by
              by_cases hk : p0.1 = node
              · rw [if_pos hk] at he
                have : (fun n => match n with | Node.beta p c i => Node.beta p c (i ++ [v.token_ids]) | other => other) p0.2 = Node.join pa am cs ts := by
                  rw [show (fun n => match n with | Node.beta p c i => Node.beta p c (i ++ [v.token_ids]) | other => other) p0.2 = (p.2 : Node) from by rw [he], hpj]
                exact hfb_join p0.2 pa am cs ts this
              · rw [if_neg hk] at he
                rw [he] at hpj
                exact hpj
            rcases alookup_aupdate_cases (fun n => match n with | Node.beta p c i => Node.beta p c (i ++ [v.token_ids]) | other => other) node c v.nodes with hcc | hcc
            · rw [hcc] at hlc
              exact hjf p0 hp0 pa am cs ts hp0j c hc pa2 am2 cs2 ts2 hlc
            · rw [hcc] at hlc
              obtain ⟨n2, hn2, hne2⟩ := Option.map_eq_some'.mp hlc
              have := hfb_join n2 pa2 am2 cs2 ts2 hne2
              rw [this] at hn2
              exact hjf p0 hp0 pa am cs ts hp0j c hc pa2 am2 cs2 ts2 hn2
        have hlive1 : (alookup (({ ({ v with token_ids := v.token_ids + 1, tokens := (aupdate (fun t => { t with children := t.children ++ [v.token_ids] }) pt (v.tokens ++ [(v.token_ids, { parent := some pt, wme := wid, node := node, children := ([] : List Nat) })])), working_memory := aupdate (fun w => { w with tokens := w.tokens ++ [v.token_ids] }) wid v.working_memory } : Rete) with nodes := aupdate (fun n => match n with | Node.beta p c i => Node.beta p c (i ++ [v.token_ids]) | other => other) node v.nodes } : Rete)).tokens v.token_ids).isSome = true := by
          show (alookup ((aupdate (fun t => { t with children := t.children ++ [v.token_ids] }) pt (v.tokens ++ [(v.token_ids, { parent := some pt, wme := wid, node := node, children := ([] : List Nat) })]))) v.token_ids).isSome = true
          rw [hlktid]
          rfl
        have FOLDB : ∀ (cs : List Nat) (w : Rete), CInv T0 id w →
            v.token_ids < w.token_ids →
            (alookup w.tokens v.token_ids).isSome = true →
            CONC T0 id w (cs.foldl (fun st c => activate_left fuel st c v.token_ids wid) w) ∧
            CInv T0 id (cs.foldl (fun st c => activate_left fuel st c v.token_ids wid) w) := by
          intro cs
          induction cs with
          | nil =>
            intro w hw _ _
            exact ⟨CONC_refl T0 id w, hw⟩
          | cons c cs ihc =>
            intro w hw hbound hlivew
            rw [List.foldl_cons]
            obtain ⟨hCs, hIs⟩ := IH w c v.token_ids wid hw hbound (fun _ => hlivew)
              (Or.inr ⟨hT0tid, hlivew⟩) (fun _ _ _ _ _ => ⟨hT0tid, hlivew⟩)
            obtain ⟨hCr, hIr⟩ := ihc (activate_left fuel w c v.token_ids wid) hIs
              (lt_of_lt_of_le hbound hCs.2.2.2.2.2.2.2.2.1)
              (hCs.2.2.2.2.2.2.2.2.2.2.2.2.1 v.token_ids hlivew)
            exact ⟨CONC_trans hCs hCr, hIr⟩
        obtain ⟨hC3, hI3⟩ := FOLDB bch ({ ({ v with token_ids := v.token_ids + 1, tokens := (aupdate (fun t => { t with children := t.children ++ [v.token_ids] }) pt (v.tokens ++ [(v.token_ids, { parent := some pt, wme := wid, node := node, children := ([] : List Nat) })])), working_memory := aupdate (fun w => { w with tokens := w.tokens ++ [v.token_ids] }) wid v.working_memory } : Rete) with nodes := aupdate (fun n => match n with | Node.beta p c i => Node.beta p c (i ++ [v.token_ids]) | other => other) node v.nodes } : Rete) hI2 (Nat.lt_succ_self _) hlive1
        exact ⟨CONC_trans (CONC_trans hC1 hC2) hC3, hI3⟩
      | join jp jam jch jts =>
        rw [show activate_left (fuel + 1) v node pt wid =
            (((alookup v.alphas jam).map AlphaMemoryNode.items).getD []).foldl
              (fun st item => if join_test st jts pt (st.wmeAt item) then
                jch.foldl (fun st2 c => activate_left fuel st2 c pt item) st else st) v from by
          simp only [activate_left]
          rw [hn]]
        obtain ⟨hptT0, hptlive⟩ := hjoin jp jam jch jts hn
        have hnjch : ∀ c ∈ jch, ∀ pa2 am2 cs2 ts2,
            alookup v.nodes c ≠ some (Node.join pa2 am2 cs2 ts2) :=
          hjf (node, Node.join jp jam jch jts) (alookup_mem hn) jp jam jch jts rfl
        have FOLDJC : ∀ (cs : List Nat) (item : Nat) (w : Rete), CInv T0 id w →
            (∀ c ∈ cs, ∀ pa2 am2 cs2 ts2,
              alookup w.nodes c ≠ some (Node.join pa2 am2 cs2 ts2)) →
            pt < w.token_ids →
            (alookup w.tokens pt).isSome = true →
            CONC T0 id w (cs.foldl (fun st2 c => activate_left fuel st2 c pt item) w) ∧
            CInv T0 id (cs.foldl (fun st2 c => activate_left fuel st2 c pt item) w) := by
          intro cs item
          induction cs with
          | nil =>
            intro w hw _ _ _
            exact ⟨CONC_refl T0 id w, hw⟩
          | cons c cs ihc =>
            intro w hw hnj hbound hlivew
            rw [List.foldl_cons]
            obtain ⟨hCs, hIs⟩ := IH w c pt item hw hbound (fun _ => hlivew)
              (Or.inr ⟨hptT0, hlivew⟩)
              (fun pa2 am2 cs2 ts2 hlc =>
                absurd hlc (hnj c (List.mem_cons_self _ _) pa2 am2 cs2 ts2))
            obtain ⟨hCr, hIr⟩ := ihc (activate_left fuel w c pt item) hIs
              (fun c2 hc2 pa2 am2 cs2 ts2 hlc =>
                (hnj c2 (List.mem_cons_of_mem _ hc2) pa2 am2 cs2 ts2)
                  (join_lookup_of_CONC hCs c2 pa2 am2 cs2 ts2 hlc))
              (lt_of_lt_of_le hbound hCs.2.2.2.2.2.2.2.2.1)
              (hCs.2.2.2.2.2.2.2.2.2.2.2.2.1 pt hlivew)
            exact ⟨CONC_trans hCs hCr, hIr⟩
        have FOLDJ : ∀ (its : List Nat) (w : Rete), CInv T0 id w →
            (∀ c ∈ jch, ∀ pa2 am2 cs2 ts2,
              alookup w.nodes c ≠ some (Node.join pa2 am2 cs2 ts2)) →
            pt < w.token_ids →
            (alookup w.tokens pt).isSome = true →
            CONC T0 id w (its.foldl (fun st item => if join_test st jts pt (st.wmeAt item) then
              jch.foldl (fun st2 c => activate_left fuel st2 c pt item) st else st) w) ∧
            CInv T0 id (its.foldl (fun st item => if join_test st jts pt (st.wmeAt item) then
              jch.foldl (fun st2 c => activate_left fuel st2 c pt item) st else st) w) := by
          intro its
          induction its with
          | nil =>
            intro w hw _ _ _
            exact ⟨CONC_refl T0 id w, hw⟩
          | cons item its ihi =>
            intro w hw hnj hbound hlivew
            rw [List.foldl_cons]
            cases hjt : join_test w jts pt (w.wmeAt item) with
            | true =>
              rw [if_pos rfl]
              obtain ⟨hCs, hIs⟩ := FOLDJC jch item w hw hnj hbound hlivew
              obtain ⟨hCr, hIr⟩ := ihi
                (jch.foldl (fun st2 c => activate_left fuel st2 c pt item) w) hIs
                (fun c2 hc2 pa2 am2 cs2 ts2 hlc =>
                  (hnj c2 hc2 pa2 am2 cs2 ts2)
                    (join_lookup_of_CONC hCs c2 pa2 am2 cs2 ts2 hlc))
                (lt_of_lt_of_le hbound hCs.2.2.2.2.2.2.2.2.1)
                (hCs.2.2.2.2.2.2.2.2.2.2.2.2.1 pt hlivew)
              exact ⟨CONC_trans hCs hCr, hIr⟩
            | false =>
              rw [if_neg (by simp)]
              exact ihi w hw hnj hbound hlivew
        exact FOLDJ (((alookup v.alphas jam).map AlphaMemoryNode.items).getD []) v hInv
          hnjch hpt hptlive


theorem activate_right_cinv (T0 id : Nat) (fuel : Nat) (v : Rete) (node : Nat) (v1 : Rete)
    (h : activate_right fuel v node id = some v1)
    (hInv : CInv T0 id v) :
    CONC T0 id v v1 ∧ CInv T0 id v1 := by
  have hInvc := hInv
  unfold CInv at hInvc
  obtain ⟨-, -, -, -, hocc, -, hitb, -, -, -, hjf⟩ := hInvc
  unfold activate_right at h
  cases hn : alookup v.nodes node with
  | none =>
    rw [hn] at h
    cases h
  | some nd =>
    rw [hn] at h
    cases nd with
    | beta a b c =>
      cases h
    | production a b =>
      cases h
    | join jp jam jch jts =>
      dsimp only at h
      have hnjch : ∀ c ∈ jch, ∀ pa2 am2 cs2 ts2,
          alookup v.nodes c ≠ some (Node.join pa2 am2 cs2 ts2) :=
        hjf (node, Node.join jp jam jch jts) (alookup_mem hn) jp jam jch jts rfl
      cases hp : alookup v.nodes jp with
      | none =>
        rw [hp] at h
        injection h with h1
        subst h1
        exact ⟨CONC_refl T0 id v, hInv⟩
      | some nd2 =>
        rw [hp] at h
        cases nd2 with
        | join a2 b2 c2 d2 =>
          injection h with h1
          subst h1
          exact ⟨CONC_refl T0 id v, hInv⟩
        | production a2 b2 =>
          injection h with h1
          subst h1
          exact ⟨CONC_refl T0 id v, hInv⟩
        | beta bpar bch bitems =>
          injection h with h1
          subst h1
          have hitems : ∀ i ∈ bitems, i < v.token_ids := by
            intro i hi
            exact hitb (jp, Node.beta bpar bch bitems) (alookup_mem hp) i
              (by simpa [nodeItems] using hi)
          have hlivev : ∀ i ∈ bitems, T0 ≤ i → (alookup v.tokens i).isSome = true := by
            intro i hi hT
            obtain ⟨t, hlt, -⟩ := hocc.2.1 (jp, Node.beta bpar bch bitems) (alookup_mem hp) i
              (by simpa [nodeItems] using hi) hT
            rw [hlt]
            rfl
          have FOLDC : ∀ (cs : List Nat) (tok : Nat) (w : Rete), CInv T0 id w →
              (∀ c ∈ cs, ∀ pa2 am2 cs2 ts2,
                alookup w.nodes c ≠ some (Node.join pa2 am2 cs2 ts2)) →
              tok < w.token_ids →
              (T0 ≤ tok → (alookup w.tokens tok).isSome = true) →
              CONC T0 id w (cs.foldl (fun st2 c => activate_left fuel st2 c tok id) w) ∧
              CInv T0 id (cs.foldl (fun st2 c => activate_left fuel st2 c tok id) w) := by
            intro cs tok
            induction cs with
            | nil =>
              intro w hw _ _ _
              exact ⟨CONC_refl T0 id w, hw⟩
            | cons c cs ihc =>
              intro w hw hnj hbound hlivew
              rw [List.foldl_cons]
              obtain ⟨hCs, hIs⟩ := activate_left_cinv T0 id fuel w c tok id hw hbound hlivew
                (Or.inl rfl)
                (fun pa2 am2 cs2 ts2 hlc =>
                  absurd hlc (hnj c (List.mem_cons_self _ _) pa2 am2 cs2 ts2))
              obtain ⟨hCr, hIr⟩ := ihc (activate_left fuel w c tok id) hIs
                (fun c2 hc2 pa2 am2 cs2 ts2 hlc =>
                  (hnj c2 (List.mem_cons_of_mem _ hc2) pa2 am2 cs2 ts2)
                    (join_lookup_of_CONC hCs c2 pa2 am2 cs2 ts2 hlc))
                (lt_of_lt_of_le hbound hCs.2.2.2.2.2.2.2.2.1)
                (fun hT => hCs.2.2.2.2.2.2.2.2.2.2.2.2.1 tok (hlivew hT))
              exact ⟨CONC_trans hCs hCr, hIr⟩
          have FOLDR : ∀ (its : List Nat) (w : Rete), CInv T0 id w →
              (∀ c ∈ jch, ∀ pa2 am2 cs2 ts2,
                alookup w.nodes c ≠ some (Node.join pa2 am2 cs2 ts2)) →
              v.token_ids ≤ w.token_ids →
              (∀ k, (alookup v.tokens k).isSome = true →
                (alookup w.tokens k).isSome = true) →
              (∀ i ∈ its, i < v.token_ids) →
              (∀ i ∈ its, T0 ≤ i → (alookup v.tokens i).isSome = true) →
              CONC T0 id w (its.foldl (fun st tok =>
                if join_test st jts tok (st.wmeAt id) then
                  jch.foldl (fun st2 c => activate_left fuel st2 c tok id) st else st) w) ∧
              CInv T0 id (its.foldl (fun st tok =>
                if join_test st jts tok (st.wmeAt id) then
                  jch.foldl (fun st2 c => activate_left fuel st2 c tok id) st else st) w) := by
            intro its
            induction its with
            | nil =>
              intro w hw _ _ _ _ _
              exact ⟨CONC_refl T0 id w, hw⟩
            | cons tok its ihi =>
              intro w hw hnj hcnt hmono hib hil
              rw [List.foldl_cons]
              cases hjt : join_test w jts tok (w.wmeAt id) with
              | true =>
                rw [if_pos rfl]
                obtain ⟨hCs, hIs⟩ := FOLDC jch tok w hw hnj
                  (lt_of_lt_of_le (hib tok (List.mem_cons_self _ _)) hcnt)
                  (fun hT => hmono tok (hil tok (List.mem_cons_self _ _) hT))
                obtain ⟨hCr, hIr⟩ := ihi
                  (jch.foldl (fun st2 c => activate_left fuel st2 c tok id) w) hIs
                  (fun c2 hc2 pa2 am2 cs2 ts2 hlc =>
                    (hnj c2 hc2 pa2 am2 cs2 ts2)
                      (join_lookup_of_CONC hCs c2 pa2 am2 cs2 ts2 hlc))
                  (le_trans hcnt hCs.2.2.2.2.2.2.2.2.1)
                  (fun k hk => hCs.2.2.2.2.2.2.2.2.2.2.2.2.1 k (hmono k hk))
                  (fun i hi => hib i (List.mem_cons_of_mem _ hi))
                  (fun i hi => hil i (List.mem_cons_of_mem _ hi))
                exact ⟨CONC_trans hCs hCr, hIr⟩
              | false =>
                rw [if_neg (by simp)]
                exact ihi w hw hnj hcnt hmono
                  (fun i hi => hib i (List.mem_cons_of_mem _ hi))
                  (fun i hi => hil i (List.mem_cons_of_mem _ hi))
          exact FOLDR bitems v hInv hnjch (le_refl _) (fun _ hk => hk) hitems hlivev


theorem activate_alpha_cinv (T0 id : Nat) (fuel : Nat) (v : Rete) (am : Nat) (v1 : Rete)
    (h : activate_alpha_memory fuel v am id = some v1)
    (hInv : CInv T0 id v) :
    CONC T0 id
      ({ v with alphas := aupdate (fun a => { a with items := a.items ++ [id] }) am v.alphas } : Rete)
      v1 ∧
    CInv T0 id v1 := by
  unfold activate_alpha_memory at h
  have hIA : CInv T0 id
      ({ v with alphas := aupdate (fun a => { a with items := a.items ++ [id] }) am v.alphas } : Rete) :=
    hInv
  have FOLDM : ∀ (ns : List Nat) (w w1 : Rete),
      ns.foldlM (fun st n => activate_right fuel st n id) w = some w1 →
      CInv T0 id w →
      CONC T0 id w w1 ∧ CInv T0 id w1 := by
    intro ns
    induction ns with
    | nil =>
      intro w w1 hf hw
      have hv : w = w1 := by injection hf
      subst hv
      exact ⟨CONC_refl T0 id w, hw⟩
    | cons n ns ihn =>
      intro w w1 hf hw
      rw [List.foldlM_cons] at hf
      cases ha : activate_right fuel w n id with
      | none =>
        rw [ha] at hf
        simp at hf
      | some w2 =>
        rw [ha] at hf
        have hf2 : ns.foldlM (fun st n => activate_right fuel st n id) w2 = some w1 := hf
        obtain ⟨hC1, hI1⟩ := activate_right_cinv T0 id fuel w n w2 ha hw
        obtain ⟨hC2, hI2⟩ := ihn w2 w1 hf2 hI1
        exact ⟨CONC_trans hC1 hC2, hI2⟩
  exact FOLDM _ _ v1 h hIA


theorem add_wme_loop_cases (T0 id : Nat) (fuel : Nat) (w : Wme) :
    ∀ (es : List ConstantTest) (s2 : Rete) (id2 : Nat) (s1 : Rete),
    add_wme_loop fuel s2 id w es = some (id2, s1) →
    alookup s2.wme_alphas id = none →
    CInv T0 id ({ s2 with working_memory := ainsert id w s2.working_memory } : Rete) →
    id2 = id ∧
    (s1 = ({ s2 with working_memory := ainsert id w s2.working_memory } : Rete) ∨
      ∃ m : Nat, CONC T0 id
        ({ s2 with wme_alphas := s2.wme_alphas ++ [(id, [m])],
                   working_memory := ainsert id w s2.working_memory,
                   alphas := aupdate (fun a => { a with items := a.items ++ [id] }) m s2.alphas } : Rete)
        s1 ∧
        CInv T0 id s1) := by
  intro es
  induction es with
  | nil =>
    intro s2 id2 s1 h hwa hCI
    simp only [add_wme_loop] at h
    injection h with h1
    injection h1 with h2 h3
    exact ⟨h2.symm, Or.inl h3.symm⟩
  | cons e rest ih =>
    intro s2 id2 s1 h hwa hCI
    simp only [add_wme_loop] at h
    cases hct : alookup s2.constant_tests e with
    | none =>
      rw [hct] at h
      exact ih s2 id2 s1 h hwa hCI
    | some m =>
      rw [hct] at h
      dsimp only at h
      rw [hwa] at h
      dsimp only at h
      cases hact : activate_alpha_memory fuel
          ({ s2 with wme_alphas := s2.wme_alphas ++ [(id, [m])],
                     working_memory := ainsert id w s2.working_memory } : Rete) m id with
      | none =>
        rw [hact] at h
        cases h
      | some sa =>
        rw [hact] at h
        dsimp only [Option.map] at h
        injection h with h1
        injection h1 with h2 h3
        refine ⟨h2.symm, Or.inr ⟨m, ?_⟩⟩
        have hCI2 : CInv T0 id
            ({ s2 with wme_alphas := s2.wme_alphas ++ [(id, [m])],
                       working_memory := ainsert id w s2.working_memory } : Rete) := hCI
        obtain ⟨hC, hI⟩ := activate_alpha_cinv T0 id fuel _ m sa hact hCI2
        rw [← h3]
        exact ⟨hC, hI⟩


theorem regOK_of_ShrinksD {T0 : Nat} {u u1 : Rete} {D : List Nat}
    (h : ShrinksD T0 u u1 D) (hreg : regOK T0 u) : regOK T0 u1 := by
  obtain ⟨-, -, -, -, -, -, -, -, -, -, htk, -, -, hcl⟩ := h
  intro p hp hT q hq hqT
  rw [htk] at hp
  obtain ⟨p0, hp0, hnot, he⟩ := mem_tkErase_iff.mp hp
  subst he
  obtain ⟨tq, hltq, hmem⟩ := hreg p0 hp0 hT q hq hqT
  by_cases hqD : q ∈ D
  · exact absurd (hcl (q, tq) (alookup_mem hltq) hqD p0.1 hmem) hnot
  · refine ⟨{ tq with children := tq.children.filter (fun c => c ∉ D) }, ?_, ?_⟩
    · rw [htk, alookup_tkErase, if_neg hqD, hltq]
      rfl
    · exact List.mem_filter.mpr ⟨hmem, by simp [hnot]⟩

theorem covOK_step {T0 : Nat} {u u1 : Rete} {D : List Nat} {r : Nat} {rest : List Nat}
    (hSh : ShrinksD T0 u u1 D) (hreg : regOK T0 u)
    (hdead : alookup u1.tokens r = none)
    (hcov : covOK T0 u (r :: rest)) : covOK T0 u1 rest := by
  obtain ⟨-, -, -, -, -, -, -, -, -, -, htk, -, -, hcl⟩ := hSh
  intro p hp hT
  have hpmem := hp
  rw [htk] at hp
  obtain ⟨p0, hp0, hnot, he⟩ := mem_tkErase_iff.mp hp
  subst he
  rcases hcov p0 hp0 hT with hpend | ⟨q, hq, hqT, hqlive⟩
  · rcases List.mem_cons.mp hpend with he2 | h2
    · exfalso
      have hsome := alookup_isSome_of_mem hpmem
      dsimp only at hsome
      rw [he2, hdead] at hsome
      exact Bool.noConfusion hsome
    · exact Or.inl h2
  · right
    refine ⟨q, hq, hqT, ?_⟩
    by_cases hqD : q ∈ D
    · exfalso
      obtain ⟨tq, hltq, hmem⟩ := hreg p0 hp0 hT q hq hqT
      exact hnot (hcl (q, tq) (alookup_mem hltq) hqD p0.1 hmem)
    · rw [htk, alookup_tkErase, if_neg hqD]
      cases hlv : alookup u.tokens q with
      | none =>
        rw [hlv] at hqlive
        exact Bool.noConfusion hqlive
      | some tq => rfl

theorem no_live_new_of_cov (T0 : Nat) (v : Rete) (htok : tokOK T0 v)
    (hcov : covOK T0 v []) : ∀ p ∈ v.tokens, p.1 < T0 := by
  have H : ∀ n, ∀ p ∈ v.tokens, p.1 ≤ n → p.1 < T0 := by
    intro n
    induction n with
    | zero =>
      intro p hp hle
      by_contra hge
      push_neg at hge
      rcases hcov p hp hge with hpend | ⟨q, hq, -, -⟩
      · exact absurd hpend (List.not_mem_nil _)
      · have := (htok p hp hge).2 q hq
        exact absurd (lt_of_lt_of_le this hle) (Nat.not_lt_zero q)
    | succ n ihn =>
      intro p hp hle
      by_contra hge
      push_neg at hge
      rcases hcov p hp hge with hpend | ⟨q, hq, hqT, hqlive⟩
      · exact absurd hpend (List.not_mem_nil _)
      · have hqlt : q < p.1 := (htok p hp hge).2 q hq
        cases hlq : alookup v.tokens q with
        | none =>
          rw [hlq] at hqlive
          exact Bool.noConfusion hqlive
        | some tq =>
          have hqle : q ≤ n := Nat.lt_succ_iff.mp (lt_of_lt_of_le hqlt hle)
          have := ihn (q, tq) (alookup_mem hlq) hqle
          exact absurd hqT (Nat.not_le_of_lt this)
  intro p hp
  exact H p.1 p hp (le_refl _)

theorem drain_shrinks (T0 fuel : Nat) :
    ∀ (pending : List Nat) (v v1 : Rete),
    pending.foldlM (fun st c => delete_self_and_descendants fuel st c) v = some v1 →
    (∀ c ∈ pending, T0 ≤ c) →
    tokOK T0 v → occOK T0 v → regOK T0 v →
    (v.tokens.map Prod.fst).Nodup → (v.nodes.map Prod.fst).Nodup →
    covOK T0 v pending →
    ∃ D, ShrinksD T0 v v1 D ∧ covOK T0 v1 [] := by
  intro pending
  induction pending with
  | nil =>
    intro v v1 h _ _ _ _ _ _ hcov
    have hv : v = v1 := by injection h
    subst hv
    exact ⟨[], ShrinksD_nil T0 v, hcov⟩
  | cons r rest ih =>
    intro v v1 h hTall htok hocc hreg hndt hndn hcov
    rw [List.foldlM_cons] at h
    cases hd : delete_self_and_descendants fuel v r with
    | none =>
      rw [hd] at h
      simp at h
    | some vm =>
      rw [hd] at h
      have h2 : rest.foldlM (fun st c => delete_self_and_descendants fuel st c) vm
          = some v1 := h
      obtain ⟨Dc, hShc, hdeadc, -⟩ := delete_shrinks T0 fuel v r vm hd
        (hTall r (List.mem_cons_self _ _)) htok hocc hndt hndn
      have hcov2 : covOK T0 vm rest := covOK_step hShc hreg hdeadc hcov
      obtain ⟨Dr, hShr, hcovfin⟩ := ih vm v1 h2
        (fun x hx => hTall x (List.mem_cons_of_mem _ hx))
        (tokOK_of_ShrinksD hShc htok) (occOK_of_ShrinksD hShc hocc)
        (regOK_of_ShrinksD hShc hreg)
        (tokens_nodup_of_ShrinksD hShc hndt) (nodes_nodup_of_ShrinksD hShc hndn)
        hcov2
      exact ⟨Dc ++ Dr, ShrinksD_trans hShc hShr, hcovfin⟩


theorem aerase_append {κ α : Type} [DecidableEq κ] (k : κ) (l1 l2 : List (κ × α)) :
    aerase k (l1 ++ l2) = aerase k l1 ++ aerase k l2 := by
  induction l1 with
  | nil => rfl
  | cons p l1 ih =>
    by_cases h : p.1 = k <;> simp [aerase, h, ih]

theorem aerase_of_not_mem {κ α : Type} [DecidableEq κ] (k : κ) (l : List (κ × α))
    (h : k ∉ l.map Prod.fst) : aerase k l = l := by
  induction l with
  | nil => rfl
  | cons p l ih =>
    have h1 : p.1 ≠ k := fun he => h (by simp [he])
    have h2 : k ∉ l.map Prod.fst := fun hm => h (by simp [hm])
    simp [aerase, h1, ih h2]

theorem aupdate_aupdate {κ α : Type} [DecidableEq κ] (f g : α → α) (k : κ)
    (l : List (κ × α)) :
    aupdate f k (aupdate g k l) = aupdate (fun a => f (g a)) k l := by
  induction l with
  | nil => rfl
  | cons p l ih =>
    by_cases h : p.1 = k <;> simp [aupdate, h, ih]

theorem aupdate_id_of {κ α : Type} [DecidableEq κ] (f : α → α) (k : κ)
    (l : List (κ × α)) (h : ∀ p ∈ l, p.1 = k → f p.2 = p.2) :
    aupdate f k l = l := by
  induction l with
  | nil => rfl
  | cons p l ih =>
    have ih2 := ih (fun q hq => h q (List.mem_cons_of_mem _ hq))
    by_cases hk : p.1 = k
    · rw [show aupdate f k (p :: l) = (p.1, f p.2) :: aupdate f k l by simp [aupdate, hk],
        h p (List.mem_cons_self _ _) hk, ih2]
    · rw [show aupdate f k (p :: l) = p :: aupdate f k l by simp [aupdate, hk], ih2]

theorem cleanToks_eq_self (T0 : Nat) (l : List (Nat × Token))
    (hk : ∀ p ∈ l, p.1 < T0) (hc : ∀ p ∈ l, ∀ c ∈ (p.2 : Token).children, c < T0) :
    cleanToks T0 l = l := by
  unfold cleanToks
  induction l with
  | nil => rfl
  | cons p l ih =>
    rw [List.filter_cons, if_pos (by simpa using hk p (List.mem_cons_self _ _)), List.map_cons]
    rw [ih (fun q hq => hk q (List.mem_cons_of_mem _ hq))
      (fun q hq => hc q (List.mem_cons_of_mem _ hq))]
    have : stripTok T0 p.2 = p.2 := by
      unfold stripTok
      rw [List.filter_eq_self.mpr
        (fun c hcm => by simpa using hc p (List.mem_cons_self _ _) c hcm)]
    rw [this]

theorem cleanWms_eq_self (T0 : Nat) (l : List (Nat × Wme))
    (hc : ∀ p ∈ l, ∀ c ∈ (p.2 : Wme).tokens, c < T0) :
    cleanWms T0 l = l := by
  unfold cleanWms
  induction l with
  | nil => rfl
  | cons p l ih =>
    rw [List.map_cons, ih (fun q hq => hc q (List.mem_cons_of_mem _ hq))]
    have : stripWme T0 p.2 = p.2 := by
      unfold stripWme
      rw [List.filter_eq_self.mpr
        (fun c hcm => by simpa using hc p (List.mem_cons_self _ _) c hcm)]
    rw [this]

theorem cleanNodes_eq_self (T0 : Nat) (l : List (Nat × Node))
    (hc : ∀ p ∈ l, ∀ i ∈ nodeItems p.2, i < T0) :
    cleanNodes T0 l = l := by
  unfold cleanNodes
  induction l with
  | nil => rfl
  | cons p l ih =>
    rw [List.map_cons, ih (fun q hq => hc q (List.mem_cons_of_mem _ hq))]
    have : stripNode T0 p.2 = p.2 := by
      cases hn : p.2 with
      | beta a b i =>
        simp only [stripNode]
        have hfi : i.filter (fun t => decide (t < T0)) = i :=
          List.filter_eq_self.mpr (fun c hcm => by
            simpa using hc p (List.mem_cons_self _ _) c (by simp [nodeItems, hn, hcm]))
        rw [hfi]
      | join a b c d => rfl
      | production a b => rfl
    rw [this]

theorem cleanWms_aerase (T0 : Nat) (k : Nat) (l : List (Nat × Wme)) :
    cleanWms T0 (aerase k l) = aerase k (cleanWms T0 l) := by
  unfold cleanWms
  induction l with
  | nil => rfl
  | cons p l ih =>
    by_cases h : p.1 = k <;> simp [aerase, h, ih]

theorem cleanWms_keys (T0 : Nat) (l : List (Nat × Wme)) :
    (cleanWms T0 l).map Prod.fst = l.map Prod.fst := by
  unfold cleanWms
  induction l with
  | nil => rfl
  | cons p l ih => simp [ih]

theorem tkErase_eq_cleanToks (T0 : Nat) (D : List Nat) (l : List (Nat × Token))
    (hD : ∀ d ∈ D, T0 ≤ d)
    (hkeys : ∀ p ∈ l, T0 ≤ p.1 → p.1 ∈ D)
    (hch : ∀ p ∈ l, ∀ c ∈ (p.2 : Token).children, T0 ≤ c → c ∈ D) :
    tkErase D l = cleanToks T0 l := by
  unfold cleanToks
  induction l with
  | nil => rfl
  | cons p l ih =>
    have ih2 := ih (fun q hq => hkeys q (List.mem_cons_of_mem _ hq))
      (fun q hq => hch q (List.mem_cons_of_mem _ hq))
    have hchp : p.2.children.filter (fun c => c ∉ D) =
        p.2.children.filter (fun c => c < T0) := by
      apply List.filter_congr
      intro c hcm
      by_cases hcT : c < T0
      · have : c ∉ D := fun hcd => absurd (hD c hcd) (Nat.not_le_of_lt hcT)
        simp [hcT, this]
      · have : c ∈ D := hch p (List.mem_cons_self _ _) c hcm (Nat.le_of_not_lt hcT)
        simp [hcT, this]
    by_cases hk : p.1 ∈ D
    · have hkT : ¬ p.1 < T0 := Nat.not_lt.mpr (hD p.1 hk)
      rw [show tkErase D (p :: l) = tkErase D l by simp [tkErase, hk],
        List.filter_cons, if_neg (by simpa using hkT), ih2]
    · have hkT : p.1 < T0 := by
        by_contra hc2
        exact hk (hkeys p (List.mem_cons_self _ _) (Nat.le_of_not_lt hc2))
      rw [show tkErase D (p :: l) =
          (p.1, { p.2 with children := p.2.children.filter (fun c => c ∉ D) }) ::
            tkErase D l by simp [tkErase, hk],
        List.filter_cons, if_pos (by simpa using hkT), List.map_cons, ih2, hchp]
      rfl

theorem wmErase_eq_cleanWms (T0 : Nat) (D : List Nat) (l : List (Nat × Wme))
    (hD : ∀ d ∈ D, T0 ≤ d)
    (hch : ∀ p ∈ l, ∀ c ∈ (p.2 : Wme).tokens, T0 ≤ c → c ∈ D) :
    wmErase D l = cleanWms T0 l := by
  unfold cleanWms
  induction l with
  | nil => rfl
  | cons p l ih =>
    have ih2 := ih (fun q hq => hch q (List.mem_cons_of_mem _ hq))
    have hchp : p.2.tokens.filter (fun c => c ∉ D) =
        p.2.tokens.filter (fun c => c < T0) := by
      apply List.filter_congr
      intro c hcm
      by_cases hcT : c < T0
      · have : c ∉ D := fun hcd => absurd (hD c hcd) (Nat.not_le_of_lt hcT)
        simp [hcT, this]
      · have : c ∈ D := hch p (List.mem_cons_self _ _) c hcm (Nat.le_of_not_lt hcT)
        simp [hcT, this]
    rw [show wmErase D (p :: l) =
        (p.1, { p.2 with tokens := p.2.tokens.filter (fun c => c ∉ D) }) :: wmErase D l
        from rfl, List.map_cons, ih2, hchp]
    rfl

theorem ndErase_eq_cleanNodes (T0 : Nat) (D : List Nat) (l : List (Nat × Node))
    (hD : ∀ d ∈ D, T0 ≤ d)
    (hch : ∀ p ∈ l, ∀ i ∈ nodeItems p.2, T0 ≤ i → i ∈ D) :
    ndErase D l = cleanNodes T0 l := by
  unfold cleanNodes
  induction l with
  | nil => rfl
  | cons p l ih =>
    have ih2 := ih (fun q hq => hch q (List.mem_cons_of_mem _ hq))
    rw [show ndErase D (p :: l) = (p.1, nodeErase D p.2) :: ndErase D l from rfl,
      List.map_cons, ih2]
    have : nodeErase D p.2 = stripNode T0 p.2 := by
      cases hn : p.2 with
      | beta a b i =>
        simp only [nodeErase, stripNode]
        have hfi : i.filter (fun t => decide (t ∉ D)) = i.filter (fun t => decide (t < T0)) := by
          apply List.filter_congr
          intro c hcm
          by_cases hcT : c < T0
          · have hnd2 : c ∉ D := fun hcd => absurd (hD c hcd) (Nat.not_le_of_lt hcT)
            simp [hcT, hnd2]
          · have hmd : c ∈ D := hch p (List.mem_cons_self _ _) c
              (by simp [nodeItems, hn, hcm]) (Nat.le_of_not_lt hcT)
            simp [hcT, hmd]
        rw [hfi]
      | join a b c d => rfl
      | production a b => rfl
    rw [this]

theorem remove_wme_split (fuel : Nat) (s : Rete) (id : Nat) :
    remove_wme fuel s id = remove_wme_tokens fuel (remove_wme_alphas s id) id := by
  unfold remove_wme remove_wme_tokens remove_wme_alphas
  cases hx : alookup s.wme_alphas id <;> rfl


/-- Well-formedness of a network state: all arena keys and stored ids are
bounded by their counters, keys are distinct, and no join node has a join
child.  `Rete.new` satisfies it, and every state built by the public API
from it does. -/
def ReteWF (s : Rete) : Prop :=
  (∀ p ∈ s.tokens, p.1 < s.token_ids) ∧
  (s.tokens.map Prod.fst).Nodup ∧
  (s.nodes.map Prod.fst).Nodup ∧
  (∀ p ∈ s.tokens, ∀ c ∈ (p.2 : Token).children, c < s.token_ids) ∧
  (∀ p ∈ s.working_memory, p.1 < s.wme_ids) ∧
  (∀ p ∈ s.working_memory, ∀ c ∈ (p.2 : Wme).tokens, c < s.token_ids) ∧
  (∀ p ∈ s.nodes, ∀ i ∈ nodeItems p.2, i < s.token_ids) ∧
  (∀ p ∈ s.wme_alphas, p.1 < s.wme_ids) ∧
  (∀ p ∈ s.alphas, ∀ i ∈ (p.2 : AlphaMemoryNode).items, i < s.wme_ids) ∧
  joinFree s

theorem cleanNodes_keys (T0 : Nat) (l : List (Nat × Node)) :
    (cleanNodes T0 l).map Prod.fst = l.map Prod.fst := by
  unfold cleanNodes
  induction l with
  | nil => rfl
  | cons p l ih => simp [ih]

theorem CInv_initial (s : Rete) (e0 e1 e2 : Nat) (hWF : ReteWF s) :
    CInv s.token_ids s.wme_ids
      ({ s with wme_ids := s.wme_ids + 1,
                working_memory :=
                  ainsert s.wme_ids (⟨e0, e1, e2, []⟩ : Wme) s.working_memory } : Rete) := by
  obtain ⟨w1, w2, w3, w4, w5, w6, w7, w8, w9, w10⟩ := hWF
  have hwm_none : alookup s.working_memory s.wme_ids = none := alookup_none_of_bound w5
  have hains : ainsert s.wme_ids (⟨e0, e1, e2, []⟩ : Wme) s.working_memory =
      s.working_memory ++ [(s.wme_ids, (⟨e0, e1, e2, []⟩ : Wme))] := by
    unfold ainsert
    rw [hwm_none]
    rfl
  have hlook : alookup (ainsert s.wme_ids (⟨e0, e1, e2, []⟩ : Wme) s.working_memory)
      s.wme_ids = some (⟨e0, e1, e2, []⟩ : Wme) := by
    rw [hains, alookup_append_of_none _ hwm_none]
    simp [alookup]
  refine ⟨le_refl _, w1, w2, ?_, ⟨?_, ?_, ?_⟩, ?_, w7, ?_, ?_, ?_, w10⟩
  · intro p hp hT
    exact absurd hT (Nat.not_le_of_lt (w1 p hp))
  · intro p hp c hc hT
    exact absurd hT (Nat.not_le_of_lt (w4 p hp c hc))
  · intro p hp i hi hT
    exact absurd hT (Nat.not_le_of_lt (w7 p hp i hi))
  · intro p hp i hi hT
    have hp2 : p ∈ ainsert s.wme_ids (⟨e0, e1, e2, []⟩ : Wme) s.working_memory := hp
    rw [hains] at hp2
    rcases List.mem_append.mp hp2 with hin | hone
    · exact absurd hT (Nat.not_le_of_lt (w6 p hin i hi))
    · rw [List.mem_singleton.mp hone] at hi
      cases hi
  · intro p hp hT q hq hqT
    exact absurd hT (Nat.not_le_of_lt (w1 p hp))
  · show (alookup (ainsert s.wme_ids (⟨e0, e1, e2, []⟩ : Wme) s.working_memory)
      s.wme_ids).isSome = true
    rw [hlook]
    rfl
  · intro c hc
    have hc2 : c ∈ ((alookup (ainsert s.wme_ids (⟨e0, e1, e2, []⟩ : Wme) s.working_memory)
        s.wme_ids).map Wme.tokens).getD [] := hc
    rw [hlook] at hc2
    cases hc2
  · intro p hp hT
    exact absurd hT (Nat.not_le_of_lt (w1 p hp))

theorem ReteWF_new : ReteWF Rete.new := by
  refine ⟨?_, ?_, ?_, ?_, ?_, ?_, ?_, ?_, ?_, ?_⟩
  · intro p hp
    rw [List.mem_singleton.mp hp]
    decide
  · decide
  · decide
  · intro p hp c hc
    rw [List.mem_singleton.mp hp] at hc
    cases hc
  · intro p hp
    cases hp
  · intro p hp
    cases hp
  · intro p hp i hi
    rw [List.mem_singleton.mp hp] at hi
    simp only [nodeItems] at hi
    rw [List.mem_singleton.mp hi]
    decide
  · intro p hp
    cases hp
  · intro p hp
    cases hp
  · intro p hp pa am cs ts hpj
    rw [List.mem_singleton.mp hp] at hpj
    exact Node.noConfusion hpj


/-- C5: for a well-formed network state, `add_wme` on a triple followed by
`remove_wme` on the returned id restores every component of the state --
working memory, the WME-to-alpha-memory index, all alpha memory items, all
beta memory tokens, the token tree, the node graph and the dummy roots --
leaving only the monotonic id counters changed. -/
theorem add_remove_inverse (fuel fuel2 : Nat) (s : Rete) (e0 e1 e2 : Nat)
    (id : Nat) (s1 v1 : Rete)
    (hWF : ReteWF s)
    (hadd : add_wme fuel s e0 e1 e2 = some (id, s1))
    (hrem : remove_wme fuel2 s1 id = some v1) :
    id = s.wme_ids ∧
    v1.working_memory = s.working_memory ∧
    v1.wme_alphas = s.wme_alphas ∧
    v1.alphas = s.alphas ∧
    v1.nodes = s.nodes ∧
    v1.tokens = s.tokens ∧
    v1.dummy_top_token = s.dummy_top_token ∧
    v1.dummy_top_node = s.dummy_top_node ∧
    v1.constant_tests = s.constant_tests ∧
    v1.node_ids = s.node_ids ∧
    v1.alpha_ids = s.alpha_ids := by
  have hCI := CInv_initial s e0 e1 e2 hWF
  obtain ⟨w1, w2, w3, w4, w5, w6, w7, w8, w9, w10⟩ := hWF
  have hwm_none : alookup s.working_memory s.wme_ids = none := alookup_none_of_bound w5
  have hwa_none : alookup s.wme_alphas s.wme_ids = none := alookup_none_of_bound w8
  have hains : ainsert s.wme_ids (⟨e0, e1, e2, []⟩ : Wme) s.working_memory =
      s.working_memory ++ [(s.wme_ids, (⟨e0, e1, e2, []⟩ : Wme))] := by
    unfold ainsert
    rw [hwm_none]
    rfl
  have hlookW : alookup (ainsert s.wme_ids (⟨e0, e1, e2, []⟩ : Wme) s.working_memory) s.wme_ids = some (⟨e0, e1, e2, []⟩ : Wme) := by
    rw [hains, alookup_append_of_none _ hwm_none]
    simp [alookup]
  obtain ⟨hid, hcase⟩ := add_wme_loop_cases s.token_ids s.wme_ids fuel (⟨e0, e1, e2, []⟩ : Wme)
    (Wme.permutations (⟨e0, e1, e2, []⟩ : Wme)) ({ s with wme_ids := s.wme_ids + 1 } : Rete) id s1 hadd hwa_none hCI
  subst hid
  refine ⟨rfl, ?_⟩
  rcases hcase with hA | ⟨m, hCONC, hCInv1⟩
  · subst hA
    rw [remove_wme_split] at hrem
    have hra : remove_wme_alphas ({ s with wme_ids := s.wme_ids + 1, working_memory := ainsert s.wme_ids (⟨e0, e1, e2, []⟩ : Wme) s.working_memory } : Rete) s.wme_ids = ({ s with wme_ids := s.wme_ids + 1, working_memory := ainsert s.wme_ids (⟨e0, e1, e2, []⟩ : Wme) s.working_memory } : Rete) := by
      unfold remove_wme_alphas
      rw [show alookup (({ s with wme_ids := s.wme_ids + 1, working_memory := ainsert s.wme_ids (⟨e0, e1, e2, []⟩ : Wme) s.working_memory } : Rete)).wme_alphas s.wme_ids = none from hwa_none]
    rw [hra] at hrem
    unfold remove_wme_tokens at hrem
    rw [show alookup (({ s with wme_ids := s.wme_ids + 1, working_memory := ainsert s.wme_ids (⟨e0, e1, e2, []⟩ : Wme) s.working_memory } : Rete)).working_memory s.wme_ids = some (⟨e0, e1, e2, []⟩ : Wme) from hlookW] at hrem
    have hv1 : ({ s with wme_ids := s.wme_ids + 1, working_memory := aerase s.wme_ids (ainsert s.wme_ids (⟨e0, e1, e2, []⟩ : Wme) s.working_memory) } : Rete) = v1 := by
      injection hrem
    have haer : aerase s.wme_ids (ainsert s.wme_ids (⟨e0, e1, e2, []⟩ : Wme) s.working_memory) =
        s.working_memory := by
      rw [hains, aerase_append,
        aerase_of_not_mem _ _ (fun hm => by
          obtain ⟨p, hp, he⟩ := List.mem_map.mp hm
          exact absurd (he ▸ w5 p hp) (lt_irrefl _)),
        show aerase s.wme_ids [(s.wme_ids, (⟨e0, e1, e2, []⟩ : Wme))] = ([] : List (Nat × Wme)) from by
          simp [aerase],
        List.append_nil]
    rw [← hv1]
    exact ⟨haer, rfl, rfl, rfl, rfl, rfl, rfl, rfl, rfl, rfl⟩
  · rw [remove_wme_split] at hrem
    obtain ⟨c1, c2, c3, c4, c5, c6, c7, c8, c9, c10, c11, c12, c13, c14, c15⟩ := hCONC
    have hs1wa : s1.wme_alphas = s.wme_alphas ++ [(s.wme_ids, [m])] := c4
    have hlwa : alookup s1.wme_alphas s.wme_ids = some [m] := by
      rw [hs1wa, alookup_append_of_none _ hwa_none]
      simp [alookup]
    have hra : remove_wme_alphas s1 s.wme_ids = ({ s1 with wme_alphas := aerase s.wme_ids s1.wme_alphas, alphas := aupdate (fun a => { a with items := retainNe a.items s.wme_ids }) m s1.alphas } : Rete) := by
      unfold remove_wme_alphas
      rw [hlwa]
      rfl
    rw [hra] at hrem
    have hstripeq : (alookup s1.working_memory s.wme_ids).map (stripWme s.token_ids)
        = some (⟨e0, e1, e2, []⟩ : Wme) := by
      have h1 := alookup_cleanWms s.token_ids s1.working_memory s.wme_ids
      rw [c11, alookup_cleanWms] at h1
      rw [← h1]
      rw [show alookup (ainsert s.wme_ids (⟨e0, e1, e2, []⟩ : Wme) s.working_memory) s.wme_ids = some (⟨e0, e1, e2, []⟩ : Wme)
        from hlookW]
      rfl
    obtain ⟨wNew, hlwm, hwstrip⟩ := Option.map_eq_some'.mp hstripeq
    have hfe : wNew.tokens.filter (fun x => decide (x < s.token_ids)) = [] :=
      congrArg Wme.tokens hwstrip
    have hwtokbound : ∀ c ∈ wNew.tokens, s.token_ids ≤ c := by
      intro c hc
      exact Nat.le_of_not_lt (by simpa using List.filter_eq_nil.mp hfe c hc)
    unfold remove_wme_tokens at hrem
    rw [show alookup (({ s1 with wme_alphas := aerase s.wme_ids s1.wme_alphas, alphas := aupdate (fun a => { a with items := retainNe a.items s.wme_ids }) m s1.alphas } : Rete)).working_memory s.wme_ids = some wNew from hlwm] at hrem
    have hrem2 : (wNew.tokens.reverse).foldlM
        (fun st t => delete_self_and_descendants fuel2 st t) ({ s1 with wme_alphas := aerase s.wme_ids s1.wme_alphas, alphas := aupdate (fun a => { a with items := retainNe a.items s.wme_ids }) m s1.alphas, working_memory := aerase s.wme_ids s1.working_memory } : Rete) = some v1 := hrem
    have hCInv1c := hCInv1
    unfold CInv at hCInv1c
    obtain ⟨k1, k2, k3, k4, k5, k6, k7, k8, k9, k10, k11⟩ := hCInv1c
    have htokD : tokOK s.token_ids ({ s1 with wme_alphas := aerase s.wme_ids s1.wme_alphas, alphas := aupdate (fun a => { a with items := retainNe a.items s.wme_ids }) m s1.alphas, working_memory := aerase s.wme_ids s1.working_memory } : Rete) := k4
    have hoccD : occOK s.token_ids ({ s1 with wme_alphas := aerase s.wme_ids s1.wme_alphas, alphas := aupdate (fun a => { a with items := retainNe a.items s.wme_ids }) m s1.alphas, working_memory := aerase s.wme_ids s1.working_memory } : Rete) := by
      refine ⟨k5.1, k5.2.1, ?_⟩
      intro p hp i hi hT
      have hp2 : p ∈ aerase s.wme_ids s1.working_memory := hp
      rw [aerase_eq_filter] at hp2
      exact k5.2.2 p (List.mem_filter.mp hp2).1 i hi hT
    have hregD : regOK s.token_ids ({ s1 with wme_alphas := aerase s.wme_ids s1.wme_alphas, alphas := aupdate (fun a => { a with items := retainNe a.items s.wme_ids }) m s1.alphas, working_memory := aerase s.wme_ids s1.working_memory } : Rete) := k6
    have hndtD : (((({ s1 with wme_alphas := aerase s.wme_ids s1.wme_alphas, alphas := aupdate (fun a => { a with items := retainNe a.items s.wme_ids }) m s1.alphas, working_memory := aerase s.wme_ids s1.working_memory } : Rete)).tokens).map Prod.fst).Nodup := k3
    have hndnD : (((({ s1 with wme_alphas := aerase s.wme_ids s1.wme_alphas, alphas := aupdate (fun a => { a with items := retainNe a.items s.wme_ids }) m s1.alphas, working_memory := aerase s.wme_ids s1.working_memory } : Rete)).nodes).map Prod.fst).Nodup := by
      show (s1.nodes.map Prod.fst).Nodup
      have hkeq : s1.nodes.map Prod.fst = s.nodes.map Prod.fst := by
        rw [← cleanNodes_keys s.token_ids s1.nodes, c12, cleanNodes_keys]
      rw [hkeq]
      exact w3
    have hcovD : covOK s.token_ids ({ s1 with wme_alphas := aerase s.wme_ids s1.wme_alphas, alphas := aupdate (fun a => { a with items := retainNe a.items s.wme_ids }) m s1.alphas, working_memory := aerase s.wme_ids s1.working_memory } : Rete) (wNew.tokens.reverse) := by
      intro p hp hT
      rcases k10 p hp hT with ⟨hwme, hmem⟩ | hpar
      · left
        have hmem2 : p.1 ∈ wNew.tokens := by
          unfold wTokens at hmem
          rw [hlwm] at hmem
          exact hmem
        exact List.mem_reverse.mpr hmem2
      · exact Or.inr hpar
    have hpend : ∀ c ∈ wNew.tokens.reverse, s.token_ids ≤ c :=
      fun c hc => hwtokbound c (List.mem_reverse.mp hc)
    obtain ⟨Dall, hSh, hcovfin⟩ := drain_shrinks s.token_ids fuel2 (wNew.tokens.reverse)
      ({ s1 with wme_alphas := aerase s.wme_ids s1.wme_alphas, alphas := aupdate (fun a => { a with items := retainNe a.items s.wme_ids }) m s1.alphas, working_memory := aerase s.wme_ids s1.working_memory } : Rete) v1 hrem2 hpend htokD hoccD hregD hndtD hndnD hcovD
    have hnolive : ∀ p ∈ v1.tokens, p.1 < s.token_ids :=
      no_live_new_of_cov s.token_ids v1 (tokOK_of_ShrinksD hSh htokD) hcovfin
    obtain ⟨d1, d2, d3, d4, d5, d6, d7, d8, d9, hDnew, htkE, hwmE, hndE, -⟩ := hSh
    have hkeyD : ∀ p ∈ (({ s1 with wme_alphas := aerase s.wme_ids s1.wme_alphas, alphas := aupdate (fun a => { a with items := retainNe a.items s.wme_ids }) m s1.alphas, working_memory := aerase s.wme_ids s1.working_memory } : Rete)).tokens, s.token_ids ≤ p.1 → p.1 ∈ Dall := by
      intro p hp hT
      by_contra hnd
      have hsome := alookup_isSome_of_mem hp
      cases hx : alookup (({ s1 with wme_alphas := aerase s.wme_ids s1.wme_alphas, alphas := aupdate (fun a => { a with items := retainNe a.items s.wme_ids }) m s1.alphas, working_memory := aerase s.wme_ids s1.working_memory } : Rete)).tokens p.1 with
      | none =>
        rw [hx] at hsome
        exact Bool.noConfusion hsome
      | some t =>
        have hlv1 : alookup v1.tokens p.1
            = some { t with children := t.children.filter (fun c => c ∉ Dall) } := by
          rw [htkE, alookup_tkErase, if_neg hnd, hx]
          rfl
        have hpm2 := alookup_mem hlv1
        have hlt2 := hnolive _ hpm2
        exact absurd hT (Nat.not_le_of_lt hlt2)
    have hchD : ∀ p ∈ (({ s1 with wme_alphas := aerase s.wme_ids s1.wme_alphas, alphas := aupdate (fun a => { a with items := retainNe a.items s.wme_ids }) m s1.alphas, working_memory := aerase s.wme_ids s1.working_memory } : Rete)).tokens, ∀ c ∈ (p.2 : Token).children,
        s.token_ids ≤ c → c ∈ Dall := by
      intro p hp c hc hT
      obtain ⟨t, hlt, -⟩ := hoccD.1 p hp c hc hT
      exact hkeyD (c, t) (alookup_mem hlt) hT
    have hitD : ∀ p ∈ (({ s1 with wme_alphas := aerase s.wme_ids s1.wme_alphas, alphas := aupdate (fun a => { a with items := retainNe a.items s.wme_ids }) m s1.alphas, working_memory := aerase s.wme_ids s1.working_memory } : Rete)).nodes, ∀ i ∈ nodeItems p.2,
        s.token_ids ≤ i → i ∈ Dall := by
      intro p hp i hi hT
      obtain ⟨t, hlt, -⟩ := hoccD.2.1 p hp i hi hT
      exact hkeyD (i, t) (alookup_mem hlt) hT
    have hbkD : ∀ p ∈ (({ s1 with wme_alphas := aerase s.wme_ids s1.wme_alphas, alphas := aupdate (fun a => { a with items := retainNe a.items s.wme_ids }) m s1.alphas, working_memory := aerase s.wme_ids s1.working_memory } : Rete)).working_memory, ∀ c ∈ (p.2 : Wme).tokens,
        s.token_ids ≤ c → c ∈ Dall := by
      intro p hp c hc hT
      obtain ⟨t, hlt, -⟩ := hoccD.2.2 p hp c hc hT
      exact hkeyD (c, t) (alookup_mem hlt) hT
    have htokens : v1.tokens = s.tokens := by
      rw [htkE, tkErase_eq_cleanToks s.token_ids Dall _ hDnew hkeyD hchD]
      show cleanToks s.token_ids s1.tokens = s.tokens
      rw [c10]
      exact cleanToks_eq_self s.token_ids s.tokens w1 w4
    have hwm : v1.working_memory = s.working_memory := by
      rw [hwmE, wmErase_eq_cleanWms s.token_ids Dall _ hDnew hbkD]
      show cleanWms s.token_ids (aerase s.wme_ids s1.working_memory) = s.working_memory
      rw [cleanWms_aerase, c11]
      show aerase s.wme_ids
        (cleanWms s.token_ids (ainsert s.wme_ids (⟨e0, e1, e2, []⟩ : Wme) s.working_memory)) = s.working_memory
      rw [hains,
        show cleanWms s.token_ids (s.working_memory ++ [(s.wme_ids, (⟨e0, e1, e2, []⟩ : Wme))])
          = cleanWms s.token_ids s.working_memory ++ [(s.wme_ids, (⟨e0, e1, e2, []⟩ : Wme))] from by
            unfold cleanWms
            rw [List.map_append]
            rfl,
        aerase_append,
        aerase_of_not_mem _ _ (fun hm => by
          rw [cleanWms_keys] at hm
          obtain ⟨p, hp, he⟩ := List.mem_map.mp hm
          exact absurd (he ▸ w5 p hp) (lt_irrefl _)),
        show aerase s.wme_ids [(s.wme_ids, (⟨e0, e1, e2, []⟩ : Wme))] = ([] : List (Nat × Wme)) from by
          simp [aerase],
        List.append_nil]
      exact cleanWms_eq_self s.token_ids s.working_memory w6
    have hnodes : v1.nodes = s.nodes := by
      rw [hndE, ndErase_eq_cleanNodes s.token_ids Dall _ hDnew hitD]
      show cleanNodes s.token_ids s1.nodes = s.nodes
      rw [c12]
      exact cleanNodes_eq_self s.token_ids s.nodes w7
    have hwa2 : v1.wme_alphas = s.wme_alphas := by
      rw [d4]
      show aerase s.wme_ids s1.wme_alphas = s.wme_alphas
      rw [hs1wa, aerase_append,
        aerase_of_not_mem _ _ (fun hm => by
          obtain ⟨p, hp, he⟩ := List.mem_map.mp hm
          exact absurd (he ▸ w8 p hp) (lt_irrefl _)),
        show aerase s.wme_ids [(s.wme_ids, [m])] = ([] : List (Nat × List Nat)) from by
          simp [aerase],
        List.append_nil]
    have halphas : v1.alphas = s.alphas := by
      rw [d5]
      show aupdate (fun a => { a with items := retainNe a.items s.wme_ids }) m s1.alphas
        = s.alphas
      rw [show s1.alphas
          = aupdate (fun a => { a with items := a.items ++ [s.wme_ids] }) m s.alphas from c5,
        aupdate_aupdate]
      apply aupdate_id_of
      intro p hp hpm
      have h1 : retainNe (p.2.items ++ [s.wme_ids]) s.wme_ids = p.2.items := by
        rw [retainNe_append,
          retainNe_of_not_mem _ _ (fun hm => absurd (w9 p hp _ hm) (lt_irrefl _)),
          show retainNe [s.wme_ids] s.wme_ids = [] from by simp [retainNe],
          List.append_nil]
      show { p.2 with items := retainNe (p.2.items ++ [s.wme_ids]) s.wme_ids } = p.2
      rw [h1]
    refine ⟨hwm, hwa2, halphas, hnodes, htokens, ?_, ?_, ?_, ?_, ?_⟩
    · rw [d1]
      exact c1
    · rw [d2]
      exact c2
    · rw [d3]
      exact c3
    · rw [d8]
      exact c7
    · rw [d9]
      exact c8


theorem add_remove_inverse_witness :
    ReteWF Rete.new ∧
    add_wme 1 Rete.new 1 2 3 = some (1, ({ Rete.new with wme_ids := 2, working_memory := [(1, (⟨1, 2, 3, []⟩ : Wme))] } : Rete)) ∧
    remove_wme 1 ({ Rete.new with wme_ids := 2, working_memory := [(1, (⟨1, 2, 3, []⟩ : Wme))] } : Rete) 1 = some ({ Rete.new with wme_ids := 2 } : Rete) ∧
    (1 = Rete.new.wme_ids ∧
     (({ Rete.new with wme_ids := 2 } : Rete)).working_memory = Rete.new.working_memory ∧
     (({ Rete.new with wme_ids := 2 } : Rete)).wme_alphas = Rete.new.wme_alphas ∧
     (({ Rete.new with wme_ids := 2 } : Rete)).alphas = Rete.new.alphas ∧
     (({ Rete.new with wme_ids := 2 } : Rete)).nodes = Rete.new.nodes ∧
     (({ Rete.new with wme_ids := 2 } : Rete)).tokens = Rete.new.tokens ∧
     (({ Rete.new with wme_ids := 2 } : Rete)).dummy_top_token = Rete.new.dummy_top_token ∧
     (({ Rete.new with wme_ids := 2 } : Rete)).dummy_top_node = Rete.new.dummy_top_node ∧
     (({ Rete.new with wme_ids := 2 } : Rete)).constant_tests = Rete.new.constant_tests ∧
     (({ Rete.new with wme_ids := 2 } : Rete)).node_ids = Rete.new.node_ids ∧
     (({ Rete.new with wme_ids := 2 } : Rete)).alpha_ids = Rete.new.alpha_ids) :=
  ⟨ReteWF_new, rfl, rfl,
    add_remove_inverse 1 1 Rete.new 1 2 3 1 ({ Rete.new with wme_ids := 2, working_memory := [(1, (⟨1, 2, 3, []⟩ : Wme))] } : Rete) ({ Rete.new with wme_ids := 2 } : Rete) ReteWF_new rfl rfl⟩

end Rsete
